import Mathlib

/-!
# Compressed suffix tree (`container::CompressedSuffixTree`)

Shallow embedding of `include/CompressedSuffixTree.hpp` and a verification of its
contract.

Conventions of the embedding:

* Strings and string views are lists of characters.
* A node owns its children; the `std::unordered_map` of children, keyed by a view of each
  child's own label, is the list of children in iteration order. The order in which the
  source's container iterates is unspecified; the embedding stores a new entry first.
* A pointer into the tree that the source mutates in place becomes a value that is
  written back into its parent (`Iter.put`).
* `size_t` counters are natural numbers modulo `2 ^ 64`. The `int` counter
  `terminalCount` is an integer in the 32-bit two's-complement range: `++` and `--` wrap
  around (`intInc`, `intDec`), as they do in the compiled code.
* A mutating function returns `none` when an `assertm` of the source fails. Recursive
  functions take a recursion budget (`fuel`); every recursive call of the source consumes
  at least one character, so the callers pass the length of the string plus one.
* Namespace `Ptr` holds a second embedding of the same functions in which the nodes are
  objects in memory and a `std::shared_ptr<Node>` is an address. It is used where a claim
  is about what two index objects share.
-/

namespace container

/-- Node of the index: the edge label `s` leading into the node, the word flag
`terminalWord`, the counter `terminalCount` (an `int` in the source; its increments and
decrements are `intInc` and `intDec`) and the child container `childNodes`. The source
keeps the children in an `std::unordered_map` keyed by a view of the child's own label;
the list gives the iteration order of that container. -/
inductive Node where
  | mk (s : List Char) (terminalWord : Bool) (terminalCount : Int)
      (childNodes : List Node) : Node

namespace Node

/-- Field `s`. -/
def s : Node → List Char
  | mk s _ _ _ => s

/-- Field `terminalWord`. -/
def terminalWord : Node → Bool
  | mk _ tw _ _ => tw

/-- Field `terminalCount`. -/
def terminalCount : Node → Int
  | mk _ _ tc _ => tc

/-- Field `childNodes`. -/
def childNodes : Node → List Node
  | mk _ _ _ cs => cs

end Node

/-- Iterator into a child container: the entries that come before the designated one in
iteration order, the designated entry, and the entries after it. -/
structure Iter where
  before : List Node
  cur : Node
  after : List Node

/-- Container seen through an iterator whose entry has been replaced by `n`
(mutation of the pointee through `it->second`). -/
def Iter.put (it : Iter) (n : Node) : List Node :=
  it.before ++ n :: it.after

/-- Container after `erase(it)` / `extract(it)`. -/
def Iter.remove (it : Iter) : List Node :=
  it.before ++ it.after

/-- Lookup `childNodes.find(key)`: the entry whose key (its label) equals `key`. -/
def findKey (key : List Char) : List Node → List Node → Option Iter
  | _, [] => none
  | seen, c :: rest =>
    if c.s = key then some ⟨seen, c, rest⟩ else findKey key (seen ++ [c]) rest

/-- Operation `childNodes.emplace(n->s, n)` and the insertion of a node handle: when the
key is already present nothing is inserted and the iterator designates the entry that is
there; otherwise the new entry is stored (first in iteration order). -/
def emplace (m : List Node) (n : Node) : Iter :=
  match findKey n.s [] m with
  | some it => it
  | none => ⟨[], n, m⟩

/-- Inner `while` of `findByDeterminingPrefix`: `endPos` advances while both strings
have a character at `endPos` and the two agree. The arguments are the two strings from
position `endPos` on. -/
def extendPos : List Char → List Char → Nat → Nat
  | a :: as, b :: bs, endPos => if a = b then extendPos as bs (endPos + 1) else endPos
  | _, _, endPos => endPos

/-- Outer `while` of `findByDeterminingPrefix`: first entry in iteration order whose
label starts with the first character of `sv`. A label without a first character matches
nothing (the source reads `first[0]` there, outside of the view). -/
def scanChildren (sv : List Char) : List Node → List Node → Option (Iter × Nat)
  | _, [] => none
  | seen, c :: rest =>
    if c.s.head? = sv.head? then
      some (⟨seen, c, rest⟩, extendPos (c.s.drop 1) (sv.drop 1) 1)
    else scanChildren sv (seen ++ [c]) rest

/-- Method `Node::findByDeterminingPrefix`: `none` stands for the pair `{{}, 0}`. -/
def Node.findByDeterminingPrefix (node : Node) (sv : List Char) : Option (Iter × Nat) :=
  if sv = [] then none else scanChildren sv [] node.childNodes

/-- The `int` that holds the integer `n`: the 32-bit two's-complement value, which is `n`
itself when `-2 ^ 31 ≤ n < 2 ^ 31`. -/
def wrapInt (n : Int) : Int := (n + 2 ^ 31) % 2 ^ 32 - 2 ^ 31

/-- Increment `++` of an `int`: past `2 ^ 31 - 1` it wraps around to `-2 ^ 31`. -/
def intInc (n : Int) : Int := wrapInt (n + 1)

/-- Decrement `--` of an `int`: below `-2 ^ 31` it wraps around to `2 ^ 31 - 1`. -/
def intDec (n : Int) : Int := wrapInt (n - 1)

/-- Increment of a `size_t` counter. -/
def sizeInc (n : Nat) : Nat := (n + 1) % 2 ^ 64

/-- Decrement of a `size_t` counter. -/
def sizeDec (n : Nat) : Nat := (n + (2 ^ 64 - 1)) % 2 ^ 64

/-- Private `search(node, word)`; every call consumes at least one character, `fuel`
bounds the recursion depth. -/
def Node.search : Nat → Node → List Char → Bool
  | 0, _, _ => false
  | fuel + 1, node, word =>
    if word = [] then node.terminalWord
    else
      match node.findByDeterminingPrefix word with
      | some (it, endPos) =>
        if endPos ≥ it.cur.s.length then Node.search fuel it.cur (word.drop endPos)
        else false
      | none => false

/-- Private `endsWith(node, suffix)`. -/
def Node.endsWith : Nat → Node → List Char → Bool
  | 0, _, _ => false
  | fuel + 1, node, suffix =>
    if suffix = [] then
      (!node.terminalWord && decide (node.terminalCount > 0))
        || (node.terminalWord && decide (node.terminalCount > 1))
    else
      match node.findByDeterminingPrefix suffix with
      | some (it, endPos) =>
        if endPos ≥ it.cur.s.length then Node.endsWith fuel it.cur (suffix.drop endPos)
        else false
      | none => false

/-- Result of a private mutating pass: the returned `bool`, the node after the pass and
the members `_size` and `_wordCount` after the pass. -/
structure Pass where
  res : Bool
  node : Node
  size : Nat
  wordCount : Nat

/-- Private `insert(node, sv, isWord)`, with the members `_size` and `_wordCount` passed
in and returned. `none` is a tripped assertion (or an exhausted budget). In the split
branch the children of the shortened node are moved into the new grandchild, which
leaves the shortened node without children before the grandchild is stored in it. -/
def Node.insert : Nat → Node → List Char → Bool → Nat → Nat → Option Pass
  | 0, _, _, _, _, _ => none
  | fuel + 1, node, sv, isWord, size, wordCount =>
    if sv = [] then
      if isWord then
        if node.terminalWord then some ⟨false, node, size, wordCount⟩
        else
          some ⟨true, .mk node.s true (intInc node.terminalCount) node.childNodes,
            size, sizeInc wordCount⟩
      else
        some ⟨true, .mk node.s node.terminalWord (intInc node.terminalCount) node.childNodes,
          size, wordCount⟩
    else
      match node.findByDeterminingPrefix sv with
      | none =>
        let childNode := Node.mk sv false 0 []
        let it2 := emplace node.childNodes childNode
        match Node.insert fuel it2.cur (sv.drop sv.length) isWord (sizeInc size)
            wordCount with
        | none => none
        | some r =>
          some ⟨r.res, .mk node.s node.terminalWord node.terminalCount (it2.put r.node),
            r.size, r.wordCount⟩
      | some (it, endPos) =>
        if endPos < it.cur.s.length then
          let substr := it.cur.s.drop endPos
          let childNode := Node.mk (it.cur.s.take endPos) false 0 it.cur.childNodes
          let terminalWord := it.cur.terminalWord
          let terminalCount := it.cur.terminalCount
          let it2 := emplace it.remove childNode
          let childNode2 := Node.mk substr terminalWord terminalCount it2.cur.childNodes
          let it3 := emplace [] childNode2
          let cur2 := Node.mk it2.cur.s it2.cur.terminalWord it2.cur.terminalCount
            (it3.put it3.cur)
          match Node.insert fuel cur2 (sv.drop endPos) isWord (sizeInc size) wordCount with
          | none => none
          | some r =>
            some ⟨r.res, .mk node.s node.terminalWord node.terminalCount (it2.put r.node),
              r.size, r.wordCount⟩
        else
          match findKey (sv.take endPos) [] node.childNodes with
          | none => none
          | some it2 =>
            match Node.insert fuel it2.cur (sv.drop endPos) isWord size wordCount with
            | none => none
            | some r =>
              some ⟨r.res, .mk node.s node.terminalWord node.terminalCount (it2.put r.node),
                r.size, r.wordCount⟩

/-- Private `erase(node, sv, isWord)`, with the members `_size` and `_wordCount` passed
in and returned. In the contraction branch `it2` is `childNode->childNodes.begin()`, the
child absorbs the label and the flags of `it2`, and `childNodes.erase(it2)` then removes
that entry from the child. -/
def Node.erase : Nat → Node → List Char → Bool → Nat → Nat → Option Pass
  | 0, _, _, _, _, _ => none
  | fuel + 1, node, sv, isWord, size, wordCount =>
    if sv = [] then
      if isWord then
        if !node.terminalWord then some ⟨false, node, size, wordCount⟩
        else
          some ⟨true, .mk node.s false (intDec node.terminalCount) node.childNodes,
            size, sizeDec wordCount⟩
      else
        some ⟨true, .mk node.s node.terminalWord (intDec node.terminalCount) node.childNodes,
          size, wordCount⟩
    else
      match node.findByDeterminingPrefix sv with
      | none => some ⟨false, node, size, wordCount⟩
      | some (it, endPos) =>
        if endPos < it.cur.s.length then some ⟨false, node, size, wordCount⟩
        else
          match Node.erase fuel it.cur (sv.drop endPos) isWord size wordCount with
          | none => none
          | some r =>
            if r.res && r.node.terminalCount == 0 then
              if r.node.childNodes.isEmpty then
                some ⟨r.res, .mk node.s node.terminalWord node.terminalCount it.remove,
                  sizeDec r.size, r.wordCount⟩
              else if r.node.childNodes.length == 1 then
                match r.node.childNodes with
                | [] => none
                | it2 :: rest =>
                  let childNode := Node.mk (r.node.s ++ it2.s) it2.terminalWord
                    it2.terminalCount rest
                  let it3 := emplace it.remove childNode
                  some ⟨r.res,
                    .mk node.s node.terminalWord node.terminalCount (it3.put it3.cur),
                    sizeDec r.size, r.wordCount⟩
              else
                some ⟨r.res, .mk node.s node.terminalWord node.terminalCount (it.put r.node),
                  r.size, r.wordCount⟩
            else
              some ⟨r.res, .mk node.s node.terminalWord node.terminalCount (it.put r.node),
                r.size, r.wordCount⟩

mutual
/-- Static `Node::deepEqual` on two non-null nodes. -/
def Node.deepEqual : Node → Node → Bool
  | .mk s tw tc cs, nodeOther =>
    if s ≠ nodeOther.s ∨ tw ≠ nodeOther.terminalWord ∨ tc ≠ nodeOther.terminalCount
        ∨ cs.length ≠ nodeOther.childNodes.length then false
    else Node.deepEqualLoop cs nodeOther.childNodes
/-- The `for` loop of `deepEqual` over the entries of `node->childNodes`. -/
def Node.deepEqualLoop : List Node → List Node → Bool
  | [], _ => true
  | childNode :: rest, others =>
    match findKey childNode.s [] others with
    | none => false
    | some it =>
      if !Node.deepEqual childNode it.cur then false else Node.deepEqualLoop rest others
end

mutual
/-- Static `Node::deepCopy` on a non-null node: a new node with the same label and flags
whose children are the copies of the children. -/
def Node.deepCopy : Node → Node
  | .mk s tw tc cs => .mk s tw tc (Node.deepCopyLoop cs [])
/-- The `for` loop of `deepCopy` over the entries of `nodeOther->childNodes`; the second
argument is `node->childNodes` as built so far, into which each copy is emplaced. -/
def Node.deepCopyLoop : List Node → List Node → List Node
  | [], copied => copied
  | childNodeOther :: rest, copied =>
    Node.deepCopyLoop rest
      ((emplace copied (Node.deepCopy childNodeOther)).put
        (emplace copied (Node.deepCopy childNodeOther)).cur)
end

end container

/-- The index: members `_size`, `_wordCount`, `_root`. -/
structure container.CompressedSuffixTree where
  _size : Nat
  _wordCount : Nat
  _root : container.Node

namespace container.CompressedSuffixTree

/-- Default constructor. -/
def new : CompressedSuffixTree := ⟨0, 0, .mk [] false 0 []⟩

/-- Method `empty`. -/
def empty (t : CompressedSuffixTree) : Bool := t._root.childNodes.isEmpty

/-- Method `size`. -/
def size (t : CompressedSuffixTree) : Nat := t._size

/-- Method `wordCount`. -/
def wordCount (t : CompressedSuffixTree) : Nat := t._wordCount

/-- Public `search(word)`. -/
def search (t : CompressedSuffixTree) (word : List Char) : Bool :=
  Node.search (word.length + 1) t._root word

/-- Public `endsWith(suffix)`. -/
def endsWith (t : CompressedSuffixTree) (suffix : List Char) : Bool :=
  Node.endsWith (suffix.length + 1) t._root suffix

/-- Loop `for (n = 1; n < word.size(); ++n)` of the public `insert`, over the remaining
values of `n`: the pass on `word.substr(n)` and the assertion `res cannot be false`. -/
def insertLoop (word : List Char) :
    List Nat → CompressedSuffixTree → Option CompressedSuffixTree
  | [], t => some t
  | n :: ns, t =>
    match Node.insert ((word.drop n).length + 1) t._root (word.drop n) false
        t._size t._wordCount with
    | none => none
    | some r => if r.res then insertLoop word ns ⟨r.size, r.wordCount, r.node⟩ else none

/-- Public `insert(word)`: the returned `bool` and the index after the call. -/
def insert (t : CompressedSuffixTree) (word : List Char) :
    Option (Bool × CompressedSuffixTree) :=
  if word = [] then some (false, t)
  else
    match Node.insert (word.length + 1) t._root word true t._size t._wordCount with
    | none => none
    | some r =>
      if !r.res then some (false, ⟨r.size, r.wordCount, r.node⟩)
      else
        match insertLoop word (List.range' 1 (word.length - 1))
            ⟨r.size, r.wordCount, r.node⟩ with
        | none => none
        | some t2 => some (true, t2)

/-- Loop `for (n = 1; n < word.size(); ++n)` of the public `erase`, over the remaining
values of `n`: the pass on `word.substr(n)` and the assertion `res cannot false`. -/
def eraseLoop (word : List Char) :
    List Nat → CompressedSuffixTree → Option CompressedSuffixTree
  | [], t => some t
  | n :: ns, t =>
    match Node.erase ((word.drop n).length + 1) t._root (word.drop n) false
        t._size t._wordCount with
    | none => none
    | some r => if r.res then eraseLoop word ns ⟨r.size, r.wordCount, r.node⟩ else none

/-- Public `erase(word)`: the returned `bool` and the index after the call. -/
def erase (t : CompressedSuffixTree) (word : List Char) :
    Option (Bool × CompressedSuffixTree) :=
  if word = [] then some (false, t)
  else
    match Node.erase (word.length + 1) t._root word true t._size t._wordCount with
    | none => none
    | some r =>
      if !r.res then some (false, ⟨r.size, r.wordCount, r.node⟩)
      else
        match eraseLoop word (List.range' 1 (word.length - 1))
            ⟨r.size, r.wordCount, r.node⟩ with
        | none => none
        | some t2 => some (true, t2)

/-- Method `clear`. -/
def clear (_t : CompressedSuffixTree) : CompressedSuffixTree := new

/-- Loop of the constructors from a sequence of strings: `insert` is called on every
element in order and its result is dropped. `none` when a call trips an assertion. -/
def insertAll : List (List Char) → CompressedSuffixTree → Option CompressedSuffixTree
  | [], t => some t
  | sv :: rest, t =>
    match t.insert sv with
    | none => none
    | some (_, t1) => insertAll rest t1

/-- Constructors `CompressedSuffixTree(initializer_list)` and
`CompressedSuffixTree(begin, end)`. -/
def ofList (initList : List (List Char)) : Option CompressedSuffixTree :=
  insertAll initList new

/-- Comparison `operator==`. -/
def eq (lhs rhs : CompressedSuffixTree) : Bool :=
  lhs._size == rhs._size && lhs._wordCount == rhs._wordCount
    && Node.deepEqual lhs._root rhs._root

/-- Copy constructor `CompressedSuffixTree(const CompressedSuffixTree&)`. -/
def copyConstruct (other : CompressedSuffixTree) : CompressedSuffixTree :=
  ⟨other._size, other._wordCount, Node.deepCopy other._root⟩

/-- Copy assignment `operator=(const CompressedSuffixTree&)`: the assigned object after
the call. `sameObject` says whether `this == &other`. -/
def copyAssign (self other : CompressedSuffixTree) (sameObject : Bool) :
    CompressedSuffixTree :=
  if sameObject then self
  else ⟨other._size, other._wordCount, Node.deepCopy other._root⟩

/-- Move constructor `CompressedSuffixTree(CompressedSuffixTree&&)`: the constructed
object and `other` after the call (`std::exchange` leaves 0, 0 and a fresh root). -/
def moveConstruct (other : CompressedSuffixTree) :
    CompressedSuffixTree × CompressedSuffixTree :=
  (⟨other._size, other._wordCount, other._root⟩, ⟨0, 0, .mk [] false 0 []⟩)

/-- Move assignment `operator=(CompressedSuffixTree&&)`: the assigned object and `other`
after the call. `sameObject` says whether `this == &other`; the two are then one object
and the call changes nothing. -/
def moveAssign (self other : CompressedSuffixTree) (sameObject : Bool) :
    CompressedSuffixTree × CompressedSuffixTree :=
  if sameObject then (self, other)
  else (⟨other._size, other._wordCount, other._root⟩, ⟨0, 0, .mk [] false 0 []⟩)

end container.CompressedSuffixTree

namespace container

/-- Call of the public interface that changes the index. -/
inductive Op where
  | insert (word : List Char) : Op
  | erase (word : List Char) : Op

/-- One public call: `none` when the call trips an assertion, otherwise the returned
`bool` and the index after the call. -/
def Op.apply (t : CompressedSuffixTree) : Op → Option (Bool × CompressedSuffixTree)
  | .insert word => t.insert word
  | .erase word => t.erase word

/-- Sequence of public calls from the index `t`: the list of returned values and the
final index, `none` when one of the calls trips an assertion. -/
def exec : List Op → CompressedSuffixTree → Option (List Bool × CompressedSuffixTree)
  | [], t => some ([], t)
  | op :: ops, t =>
    match op.apply t with
    | none => none
    | some (b, t1) =>
      match exec ops t1 with
      | none => none
      | some (bs, t2) => some (b :: bs, t2)

/-- Index states reachable from the empty index by `insert` and `erase` calls. -/
def Reachable (t : CompressedSuffixTree) : Prop :=
  ∃ ops bs, exec ops CompressedSuffixTree.new = some (bs, t)

end container

namespace container

/-! ## Pointer-level model

The same code with the nodes as objects in memory and `std::shared_ptr<Node>` as an
address, for the claims about what two index objects share. -/

namespace Ptr

/-- A `Node` object in memory. The child container is given by its mapped pointers in
iteration order; the key of an entry is a view of the label of the node it points to. -/
structure Node where
  s : List Char
  terminalWord : Bool
  terminalCount : Int
  childNodes : List Nat
deriving DecidableEq

/-- The memory: the `Node` objects by address. `allocate_shared` takes the next free
address; an object that has lost its last owner stays where it is, out of reach. -/
abbrev Heap := List Node

/-- The object at address `p` (a default-constructed `Node` where there is none). -/
def Heap.read (h : Heap) (p : Nat) : Node := List.getD h p ⟨[], false, 0, []⟩

/-- Assignment to the object at address `p`. -/
def Heap.write (h : Heap) (p : Nat) (n : Node) : Heap := List.set h p n

/-- Address that `allocate_shared` returns next. -/
def Heap.next (h : Heap) : Nat := List.length h

/-- Memory after `allocate_shared` has put the object `n` at `h.next`. -/
def Heap.alloc (h : Heap) (n : Node) : Heap := List.append h [n]

/-- Iterator into a child container: the pointers before the designated entry, the
pointer of the entry, and the pointers after it. -/
structure Iter where
  before : List Nat
  cur : Nat
  after : List Nat
deriving DecidableEq

/-- The container that the iterator is into. -/
def Iter.all (it : Iter) : List Nat := it.before ++ it.cur :: it.after

/-- Container after `erase(it)` / `extract(it)`. -/
def Iter.remove (it : Iter) : List Nat := it.before ++ it.after

/-- Lookup `childNodes.find(key)`. -/
def findKey (h : Heap) (key : List Char) : List Nat → List Nat → Option Iter
  | _, [] => none
  | seen, c :: rest =>
    if (h.read c).s = key then some ⟨seen, c, rest⟩ else findKey h key (seen ++ [c]) rest

/-- Operation `childNodes.emplace(n->s, n)` and the insertion of a node handle for the
pointer `n`: when the key is present nothing is inserted and the iterator designates the
entry that is there; otherwise the new entry is stored (first in iteration order). -/
def emplace (h : Heap) (m : List Nat) (n : Nat) : Iter :=
  match findKey h (h.read n).s [] m with
  | some it => it
  | none => ⟨[], n, m⟩

/-- Outer `while` of `findByDeterminingPrefix` with the inner one (`extendPos`). -/
def scanChildren (h : Heap) (sv : List Char) : List Nat → List Nat → Option (Iter × Nat)
  | _, [] => none
  | seen, c :: rest =>
    if (h.read c).s.head? = sv.head? then
      some (⟨seen, c, rest⟩, extendPos ((h.read c).s.drop 1) (sv.drop 1) 1)
    else scanChildren h sv (seen ++ [c]) rest

/-- Method `Node::findByDeterminingPrefix` of the node at `node`: `none` stands for the
pair `{{}, 0}`. -/
def findByDeterminingPrefix (h : Heap) (node : Nat) (sv : List Char) :
    Option (Iter × Nat) :=
  if sv = [] then none else scanChildren h sv [] (h.read node).childNodes

/-- Private `search(node, word)` on the node at `node`. -/
def search : Nat → Heap → Nat → List Char → Bool
  | 0, _, _, _ => false
  | fuel + 1, h, node, word =>
    if word = [] then (h.read node).terminalWord
    else
      match findByDeterminingPrefix h node word with
      | some (it, endPos) =>
        if endPos ≥ (h.read it.cur).s.length then search fuel h it.cur (word.drop endPos)
        else false
      | none => false

/-- Private `endsWith(node, suffix)` on the node at `node`. -/
def endsWith : Nat → Heap → Nat → List Char → Bool
  | 0, _, _, _ => false
  | fuel + 1, h, node, suffix =>
    if suffix = [] then
      (!(h.read node).terminalWord && decide ((h.read node).terminalCount > 0))
        || ((h.read node).terminalWord && decide ((h.read node).terminalCount > 1))
    else
      match findByDeterminingPrefix h node suffix with
      | some (it, endPos) =>
        if endPos ≥ (h.read it.cur).s.length then
          endsWith fuel h it.cur (suffix.drop endPos)
        else false
      | none => false

/-- Result of a private mutating pass: the returned `bool`, the memory after the pass
and the members `_size` and `_wordCount` after the pass. -/
structure Pass where
  res : Bool
  heap : Heap
  size : Nat
  wordCount : Nat
deriving DecidableEq

/-- Private `insert(node, sv, isWord)` on the node at `node`. `none` is a tripped
assertion (or an exhausted budget). -/
def insert : Nat → Heap → Nat → List Char → Bool → Nat → Nat → Option Pass
  | 0, _, _, _, _, _, _ => none
  | fuel + 1, h, node, sv, isWord, size, wordCount =>
    if sv = [] then
      if isWord then
        if (h.read node).terminalWord then some ⟨false, h, size, wordCount⟩
        else
          some ⟨true,
            h.write node ⟨(h.read node).s, true, intInc (h.read node).terminalCount,
              (h.read node).childNodes⟩, size, sizeInc wordCount⟩
      else
        some ⟨true,
          h.write node ⟨(h.read node).s, (h.read node).terminalWord,
            intInc (h.read node).terminalCount, (h.read node).childNodes⟩, size, wordCount⟩
    else
      match findByDeterminingPrefix h node sv with
      | none =>
        let childNode := h.next
        let h1 := h.alloc ⟨sv, false, 0, []⟩
        let it2 := emplace h1 (h1.read node).childNodes childNode
        let h2 := h1.write node ⟨(h1.read node).s, (h1.read node).terminalWord,
          (h1.read node).terminalCount, it2.all⟩
        insert fuel h2 it2.cur (sv.drop sv.length) isWord (sizeInc size) wordCount
      | some (it, endPos) =>
        if endPos < (h.read it.cur).s.length then
          let substr := (h.read it.cur).s.drop endPos
          let childNode := it.cur
          let h1 := h.write node ⟨(h.read node).s, (h.read node).terminalWord,
            (h.read node).terminalCount, it.remove⟩
          let terminalWord := (h1.read childNode).terminalWord
          let terminalCount := (h1.read childNode).terminalCount
          let h2 := h1.write childNode ⟨(h1.read childNode).s.take endPos, false, 0,
            (h1.read childNode).childNodes⟩
          let it2 := emplace h2 (h2.read node).childNodes childNode
          let h3 := h2.write node ⟨(h2.read node).s, (h2.read node).terminalWord,
            (h2.read node).terminalCount, it2.all⟩
          let childNode2 := h3.next
          let h4 := h3.alloc ⟨substr, terminalWord, terminalCount,
            (h3.read it2.cur).childNodes⟩
          let it3 := emplace h4 [] childNode2
          let h5 := h4.write it2.cur ⟨(h4.read it2.cur).s, (h4.read it2.cur).terminalWord,
            (h4.read it2.cur).terminalCount, it3.all⟩
          insert fuel h5 it2.cur (sv.drop endPos) isWord (sizeInc size) wordCount
        else
          match findKey h (sv.take endPos) [] (h.read node).childNodes with
          | none => none
          | some it2 => insert fuel h it2.cur (sv.drop endPos) isWord size wordCount

/-- Private `erase(node, sv, isWord)` on the node at `node`. -/
def erase : Nat → Heap → Nat → List Char → Bool → Nat → Nat → Option Pass
  | 0, _, _, _, _, _, _ => none
  | fuel + 1, h, node, sv, isWord, size, wordCount =>
    if sv = [] then
      if isWord then
        if !(h.read node).terminalWord then some ⟨false, h, size, wordCount⟩
        else
          some ⟨true,
            h.write node ⟨(h.read node).s, false, intDec (h.read node).terminalCount,
              (h.read node).childNodes⟩, size, sizeDec wordCount⟩
      else
        some ⟨true,
          h.write node ⟨(h.read node).s, (h.read node).terminalWord,
            intDec (h.read node).terminalCount, (h.read node).childNodes⟩, size, wordCount⟩
    else
      match findByDeterminingPrefix h node sv with
      | none => some ⟨false, h, size, wordCount⟩
      | some (it, endPos) =>
        if endPos < (h.read it.cur).s.length then some ⟨false, h, size, wordCount⟩
        else
          match erase fuel h it.cur (sv.drop endPos) isWord size wordCount with
          | none => none
          | some r =>
            let h1 := r.heap
            if r.res && (h1.read it.cur).terminalCount == 0 then
              if (h1.read it.cur).childNodes.isEmpty then
                some ⟨r.res,
                  h1.write node ⟨(h1.read node).s, (h1.read node).terminalWord,
                    (h1.read node).terminalCount, it.remove⟩,
                  sizeDec r.size, r.wordCount⟩
              else if (h1.read it.cur).childNodes.length == 1 then
                match (h1.read it.cur).childNodes with
                | [] => none
                | it2 :: rest =>
                  let childNode := it.cur
                  let h2 := h1.write node ⟨(h1.read node).s, (h1.read node).terminalWord,
                    (h1.read node).terminalCount, it.remove⟩
                  let h3 := h2.write childNode ⟨(h2.read childNode).s ++ (h2.read it2).s,
                    (h2.read it2).terminalWord, (h2.read it2).terminalCount,
                    (h2.read childNode).childNodes⟩
                  let it3 := emplace h3 (h3.read node).childNodes childNode
                  let h4 := h3.write node ⟨(h3.read node).s, (h3.read node).terminalWord,
                    (h3.read node).terminalCount, it3.all⟩
                  let h5 := h4.write childNode ⟨(h4.read childNode).s,
                    (h4.read childNode).terminalWord, (h4.read childNode).terminalCount,
                    rest⟩
                  some ⟨r.res, h5, sizeDec r.size, r.wordCount⟩
              else some ⟨r.res, h1, r.size, r.wordCount⟩
            else some ⟨r.res, h1, r.size, r.wordCount⟩

/-- The `for` loop of `deepCopy` over the pointers of `nodeOther->childNodes`: each child
is copied by `copy` (the recursive call) and the copy is emplaced into the container of
the node at `node`. -/
def deepCopyLoop (copy : Heap → Nat → Option (Heap × Nat)) (node : Nat) :
    List Nat → Heap → Option Heap
  | [], h => some h
  | childNodeOther :: rest, h =>
    match copy h childNodeOther with
    | none => none
    | some (h1, childNode) =>
      deepCopyLoop copy node rest
        (h1.write node ⟨(h1.read node).s, (h1.read node).terminalWord,
          (h1.read node).terminalCount,
          (emplace h1 (h1.read node).childNodes childNode).all⟩)

/-- Static `Node::deepCopy` on a non-null pointer: a new node is allocated, takes the
label and the flags of `nodeOther`, and receives the copies of the children. `none` is an
exhausted budget. -/
def deepCopy : Nat → Heap → Nat → Option (Heap × Nat)
  | 0, _, _ => none
  | fuel + 1, h, nodeOther =>
    match deepCopyLoop (deepCopy fuel) h.next (h.read nodeOther).childNodes
        (h.alloc ⟨(h.read nodeOther).s, (h.read nodeOther).terminalWord,
          (h.read nodeOther).terminalCount, []⟩) with
    | none => none
    | some h2 => some (h2, h.next)

/-- The index object: members `_size`, `_wordCount` and the pointer `_root`. -/
structure CompressedSuffixTree where
  _size : Nat
  _wordCount : Nat
  _root : Nat
deriving DecidableEq

namespace CompressedSuffixTree

/-- Method `size`. -/
def size (t : CompressedSuffixTree) : Nat := t._size

/-- Method `wordCount`. -/
def wordCount (t : CompressedSuffixTree) : Nat := t._wordCount

/-- Public `search(word)`. -/
def search (h : Heap) (t : CompressedSuffixTree) (word : List Char) : Bool :=
  Ptr.search (word.length + 1) h t._root word

/-- Public `endsWith(suffix)`. -/
def endsWith (h : Heap) (t : CompressedSuffixTree) (suffix : List Char) : Bool :=
  Ptr.endsWith (suffix.length + 1) h t._root suffix

/-- Loop `for (n = 1; n < word.size(); ++n)` of the public `insert`. -/
def insertLoop (word : List Char) (root : Nat) :
    List Nat → Heap → Nat → Nat → Option (Heap × Nat × Nat)
  | [], h, size, wordCount => some (h, size, wordCount)
  | n :: ns, h, size, wordCount =>
    match Ptr.insert ((word.drop n).length + 1) h root (word.drop n) false size
        wordCount with
    | none => none
    | some r => if r.res then insertLoop word root ns r.heap r.size r.wordCount else none

/-- Public `insert(word)`: the returned `bool`, the memory and the index object after the
call. -/
def insert (h : Heap) (t : CompressedSuffixTree) (word : List Char) :
    Option (Bool × Heap × CompressedSuffixTree) :=
  if word = [] then some (false, h, t)
  else
    match Ptr.insert (word.length + 1) h t._root word true t._size t._wordCount with
    | none => none
    | some r =>
      if !r.res then some (false, r.heap, ⟨r.size, r.wordCount, t._root⟩)
      else
        match insertLoop word t._root (List.range' 1 (word.length - 1)) r.heap r.size
            r.wordCount with
        | none => none
        | some (h2, size, wordCount) => some (true, h2, ⟨size, wordCount, t._root⟩)

/-- Loop `for (n = 1; n < word.size(); ++n)` of the public `erase`. -/
def eraseLoop (word : List Char) (root : Nat) :
    List Nat → Heap → Nat → Nat → Option (Heap × Nat × Nat)
  | [], h, size, wordCount => some (h, size, wordCount)
  | n :: ns, h, size, wordCount =>
    match Ptr.erase ((word.drop n).length + 1) h root (word.drop n) false size
        wordCount with
    | none => none
    | some r => if r.res then eraseLoop word root ns r.heap r.size r.wordCount else none

/-- Public `erase(word)`. -/
def erase (h : Heap) (t : CompressedSuffixTree) (word : List Char) :
    Option (Bool × Heap × CompressedSuffixTree) :=
  if word = [] then some (false, h, t)
  else
    match Ptr.erase (word.length + 1) h t._root word true t._size t._wordCount with
    | none => none
    | some r =>
      if !r.res then some (false, r.heap, ⟨r.size, r.wordCount, t._root⟩)
      else
        match eraseLoop word t._root (List.range' 1 (word.length - 1)) r.heap r.size
            r.wordCount with
        | none => none
        | some (h2, size, wordCount) => some (true, h2, ⟨size, wordCount, t._root⟩)

/-- Method `clear`: the members are reset and `_root` points to a newly allocated node. -/
def clear (h : Heap) (_t : CompressedSuffixTree) : Heap × CompressedSuffixTree :=
  (h.alloc ⟨[], false, 0, []⟩, ⟨0, 0, h.next⟩)

/-- Copy constructor: the memory after the call and the constructed object. The budget
of `deepCopy` is the number of objects in memory, which bounds the depth of a tree. -/
def copyConstruct (h : Heap) (other : CompressedSuffixTree) :
    Option (Heap × CompressedSuffixTree) :=
  match deepCopy (h.next + 1) h other._root with
  | none => none
  | some (h1, root) => some (h1, ⟨other._size, other._wordCount, root⟩)

/-- Copy assignment to an object other than `other` (`this != &other`): the memory after
the call and the assigned object. -/
def copyAssign (h : Heap) (_self other : CompressedSuffixTree) :
    Option (Heap × CompressedSuffixTree) :=
  match deepCopy (h.next + 1) h other._root with
  | none => none
  | some (h1, root) => some (h1, ⟨other._size, other._wordCount, root⟩)

end CompressedSuffixTree

/-- A mutating call on an index object. -/
inductive Op where
  | insert (word : List Char)
  | erase (word : List Char)
  | clear

/-- Memory and index object after a call that returns. -/
def Op.apply (h : Heap) (t : CompressedSuffixTree) :
    Op → Option (Heap × CompressedSuffixTree)
  | .insert w => (t.insert h w).map (fun r => r.2)
  | .erase w => (t.erase h w).map (fun r => r.2)
  | .clear => some (t.clear h)

/-- The state of a program that holds several indexes: the memory of the nodes and the
index objects, by address. -/
structure World where
  heap : Heap
  objs : List CompressedSuffixTree
deriving DecidableEq

namespace World

/-- The index object at address `i`. -/
def obj (w : World) (i : Nat) : CompressedSuffixTree := w.objs.getD i ⟨0, 0, 0⟩

/-- Call `size()` on the object at `i`. -/
def size (w : World) (i : Nat) : Nat := (w.obj i).size

/-- Call `wordCount()` on the object at `i`. -/
def wordCount (w : World) (i : Nat) : Nat := (w.obj i).wordCount

/-- Call `search(s)` on the object at `i`. -/
def search (w : World) (i : Nat) (s : List Char) : Bool :=
  CompressedSuffixTree.search w.heap (w.obj i) s

/-- Call `endsWith(s)` on the object at `i`. -/
def endsWith (w : World) (i : Nat) (s : List Char) : Bool :=
  CompressedSuffixTree.endsWith w.heap (w.obj i) s

/-- A mutating call (`insert`, `erase` or `clear`) on the object at `this`. `none` when
the call trips an assertion. -/
def call (w : World) (this : Nat) (op : Op) : Option World :=
  match op.apply w.heap (w.obj this) with
  | none => none
  | some (h2, t2) => some ⟨h2, w.objs.set this t2⟩

/-- Copy construction of a new index object from the object at `other`: the state after
it and the address of the new object. -/
def copyConstruct (w : World) (other : Nat) : Option (World × Nat) :=
  match CompressedSuffixTree.copyConstruct w.heap (w.obj other) with
  | none => none
  | some (h1, c) => some (⟨h1, w.objs ++ [c]⟩, w.objs.length)

/-- Copy assignment `*this = other` between the objects at `this` and `other`; nothing is
done when the two are one object (`this == &other`). -/
def copyAssign (w : World) (this other : Nat) : Option World :=
  if this = other then some w
  else
    match CompressedSuffixTree.copyAssign w.heap (w.obj this) (w.obj other) with
    | none => none
    | some (h1, c) => some ⟨h1, w.objs.set this c⟩

/-- A sequence of mutating calls, each on the object whose address comes with it, made
one after the other. `none` when one of the calls trips an assertion. -/
def run : List (Nat × Op) → World → Option World
  | [], w => some w
  | (this, op) :: rest, w =>
    match w.call this op with
    | none => none
    | some w1 => run rest w1

end World

end Ptr

end container

namespace container

/-! ## Specification-level definitions -/

/-- Length of the longest common prefix of two strings. -/
def lcpLen : List Char → List Char → Nat
  | a :: as, b :: bs => if a = b then lcpLen as bs + 1 else 0
  | _, _ => 0

/-- Structural invariant of a subtree: every child label is non-empty, no two children
of a node start with the same character, and the children satisfy the invariant. -/
inductive Node.WF : Node → Prop
  | mk (s : List Char) (tw : Bool) (tc : Int) (cs : List Node) :
      (∀ c ∈ cs, c.s ≠ []) →
      cs.Pairwise (fun a b => a.s.head? ≠ b.s.head?) →
      (∀ c ∈ cs, Node.WF c) → Node.WF (.mk s tw tc cs)

/-- Node reached from `node` by the descent that `search` and `endsWith` share. -/
def Node.walk : Nat → Node → List Char → Option Node
  | 0, _, _ => none
  | fuel + 1, node, p =>
    if p = [] then some node
    else
      match node.findByDeterminingPrefix p with
      | some (it, endPos) =>
        if endPos ≥ it.cur.s.length then Node.walk fuel it.cur (p.drop endPos) else none
      | none => none

/-- Node at path `p` below `node`, with the fuel the public queries use. -/
def Node.get (node : Node) (p : List Char) : Option Node :=
  Node.walk (p.length + 1) node p

/-- Flags `(terminalWord, terminalCount)` of the node at path `p`, `(false, 0)` when no
node ends there. -/
def Node.flagsAt (node : Node) (p : List Char) : Bool × Int :=
  match node.get p with
  | some m => (m.terminalWord, m.terminalCount)
  | none => (false, 0)

/-- Effect of one increment of the flags at the target of a pass. -/
def bump (isWord : Bool) (f : Bool × Int) : Bool × Int := (f.1 || isWord, intInc f.2)

/-- Postcondition of the private `insert` pass. -/
def InsertPost (node : Node) (sv : List Char) (isWord : Bool) (size wc : Nat)
    (r : Pass) : Prop :=
  r.res = !(isWord && (node.flagsAt sv).1) ∧
  (r.res = false → r.node = node ∧ r.size = size ∧ r.wordCount = wc) ∧
  (r.res = true → r.node.WF ∧ r.node.s = node.s ∧
    ∀ p, r.node.flagsAt p
      = if p = sv then bump isWord (node.flagsAt p) else node.flagsAt p)

/-- Postcondition of the private `erase` pass. -/
def ErasePost (node : Node) (sv : List Char) (isWord : Bool) (size wc : Nat)
    (r : Pass) : Prop :=
  r.res = (if isWord then (node.flagsAt sv).1 else (node.get sv).isSome) ∧
  (r.res = false → r.node = node ∧ r.size = size ∧ r.wordCount = wc) ∧
  (r.res = true → r.node.WF ∧ r.node.s = node.s ∧
    ∀ p, (r.node.flagsAt p).1 = true →
      (node.flagsAt p).1 = true ∧ ¬ (isWord = true ∧ p = sv))

/-- Number of passes of the suffix loop, among the start offsets `ns`, whose suffix is `p`. -/
def passCount (word p : List Char) (ns : List Nat) : Nat :=
  ns.countP (fun n => decide (word.drop n = p))

/-- Abstract content of an index built by insertions only: `A` lists the accepted words,
the word flag at a path says whether the path is an accepted word, the counter at a path
is the `int` that holds the number of accepted words that have the path as a non-empty
suffix (the number itself as long as it is below `2 ^ 31`). -/
def Represents (t : CompressedSuffixTree) (A : List (List Char)) : Prop :=
  t._root.WF ∧ A.Nodup ∧ (∀ w ∈ A, w ≠ []) ∧
    ∀ p, t._root.flagsAt p
      = (decide (p ∈ A),
          wrapInt ((A.countP (fun w => decide (p ≠ [] ∧ p <:+ w)) : Nat) : Int))

/-- Index after `insert("a")`, `insert("ab")` on the empty index. -/
def stateAB : CompressedSuffixTree :=
  ⟨3, 2, .mk [] false 0 [.mk ['b'] false 1 [], .mk ['a'] true 1 [.mk ['b'] true 1 []]]⟩

/-- Index after `insert("a")`, `insert("ab")`, `insert("cab")` on the empty index. -/
def stateCAB : CompressedSuffixTree :=
  ⟨4, 3, .mk [] false 0
    [.mk ['c', 'a', 'b'] true 1 [], .mk ['b'] false 2 [],
      .mk ['a'] true 1 [.mk ['b'] true 2 []]]⟩

/-- Index after `erase("a")` on `stateCAB`. -/
def stateErased : CompressedSuffixTree :=
  ⟨3, 2, .mk [] false 0
    [.mk ['a', 'b'] true 2 [], .mk ['c', 'a', 'b'] true 1 [], .mk ['b'] false 2 []]⟩

/-- Index built by `insert("ab")`, `insert("abc")` on the empty index. -/
def stateABC : CompressedSuffixTree :=
  ⟨5, 2, .mk [] false 0
    [.mk ['c'] false 1 [], .mk ['b'] false 1 [.mk ['c'] false 1 []],
      .mk ['a', 'b'] true 1 [.mk ['c'] true 1 []]]⟩

/-- Index after `insert("a")` on `stateABC`. -/
def stateABCwithA : CompressedSuffixTree :=
  ⟨6, 3, .mk [] false 0
    [.mk ['a'] true 1 [.mk ['b'] true 1 [.mk ['c'] true 1 []]], .mk ['c'] false 1 [],
      .mk ['b'] false 1 [.mk ['c'] false 1 []]]⟩

/-- Index after `erase("a")` on `stateABCwithA`. -/
def stateABCundone : CompressedSuffixTree :=
  ⟨5, 2, .mk [] false 0
    [.mk ['a', 'b'] true 1 [], .mk ['c'] false 1 [],
      .mk ['b'] false 1 [.mk ['c'] false 1 []]]⟩

/-- Bound on the word counter along a run: the words that `search` finds fit in a list
no longer than the counter, and the counter is at most the number `n` of calls made. -/
def WordBound (n : Nat) (t : CompressedSuffixTree) : Prop :=
  ∃ A : List (List Char), (∀ p, t.search p = true → p ∈ A) ∧ A.length ≤ t._wordCount
    ∧ t._wordCount ≤ n

/-- Index after `insert("x")` on `stateCAB`. -/
def stateCABX : CompressedSuffixTree :=
  ⟨5, 4, .mk [] false 0
    [.mk ['x'] true 1 [], .mk ['c', 'a', 'b'] true 1 [], .mk ['b'] false 2 [],
      .mk ['a'] true 1 [.mk ['b'] true 2 []]]⟩

/-- Index after `insert("cab")`, `insert("a")`, `insert("ab")` on the empty index: the
tree of `stateCAB` with the children of the root stored in another order. -/
def stateCABalt : CompressedSuffixTree :=
  ⟨4, 3, .mk [] false 0
    [.mk ['a'] true 1 [.mk ['b'] true 2 []], .mk ['b'] false 2 [],
      .mk ['c', 'a', 'b'] true 1 []]⟩

/-- Type invariant of the child containers: within every node the keys of the children
(their labels) are pairwise distinct, as in an `std::unordered_map`. -/
inductive Node.KeysDistinct : Node → Prop
  | mk (s : List Char) (tw : Bool) (tc : Int) (cs : List Node) :
      (cs.map Node.s).Nodup → (∀ c ∈ cs, Node.KeysDistinct c) →
      Node.KeysDistinct (.mk s tw tc cs)

mutual
/-- Isomorphism of two trees, in the words of the specification: same label, same
`isWordEnd`, same `refCount`, and the children of the second node can be listed in an
order in which they are, one by one, isomorphic to the children of the first. -/
def Node.Iso : Node → Node → Prop
  | .mk s tw tc cs, b =>
    s = b.s ∧ tw = b.terminalWord ∧ tc = b.terminalCount ∧
      ∃ ds, b.childNodes.Perm ds ∧ Node.IsoList cs ds
/-- Two lists of trees of the same length that are isomorphic entry by entry. -/
def Node.IsoList : List Node → List Node → Prop
  | [], ds => ds = []
  | c :: cs, ds => ∃ d rest, ds = d :: rest ∧ Node.Iso c d ∧ Node.IsoList cs rest
end

/-- Lookup of a child by its key. -/
def Node.child (cs : List Node) (key : List Char) : Option Node :=
  cs.find? (fun c => decide (c.s = key))

mutual
/-- Number of nodes of a subtree, its top node included. -/
def Node.count : Node → Nat
  | .mk _ _ _ cs => Node.countList cs + 1
/-- Number of nodes of the subtrees of a child container. -/
def Node.countList : List Node → Nat
  | [] => 0
  | c :: cs => Node.count c + Node.countList cs
end

/-- A path that leads from `node` to a node of its subtree: the concatenation of the
labels of a chain of children, the empty path for `node` itself. -/
inductive Node.Has : Node → List Char → Prop
  | here (node : Node) : Node.Has node []
  | step (node c : Node) (q : List Char) :
      c ∈ node.childNodes → Node.Has c q → Node.Has node (c.s ++ q)

/-- Path compression with respect to a set `live` of paths (the paths that end a stored
suffix): every node below the top one lies on a path of `live` or has at least two
children. `pre` is the path of the top node. -/
inductive Node.CompactAt (live : List Char → Prop) : List Char → Node → Prop
  | mk (pre s : List Char) (tw : Bool) (tc : Int) (cs : List Node) :
      (∀ c ∈ cs, live (pre ++ c.s) ∨ 2 ≤ c.childNodes.length) →
      (∀ c ∈ cs, Node.CompactAt live (pre ++ c.s) c) →
      Node.CompactAt live pre (.mk s tw tc cs)

/-- What a private `insert` pass on `sv`, started at the node with path `pre`, keeps and
how it grows the subtree: compression is kept with the path of `sv` added to the live
ones, `_size` moves by the number of nodes added, the label of the top node stays, the
number of its children does not go down, a pass that finds no child to follow adds a
child, `_size` stays a `size_t` value, a node lies on the path `sv` afterwards, and every
path that led to a node still does. -/
def GrowthPost (live : List Char → Prop) (pre : List Char) (node : Node) (sv : List Char)
    (size : Nat) (r : Pass) : Prop :=
  r.node.CompactAt (fun p => live p ∨ p = pre ++ sv) pre ∧
  (∃ k, r.node.count = node.count + k ∧ r.size % 2 ^ 64 = (size + k) % 2 ^ 64) ∧
  r.node.s = node.s ∧
  node.childNodes.length ≤ r.node.childNodes.length ∧
  (sv ≠ [] → (∀ c ∈ node.childNodes, c.s.head? ≠ sv.head?) →
    r.node.childNodes.length = node.childNodes.length + 1) ∧
  (size < 2 ^ 64 → r.size < 2 ^ 64) ∧
  r.node.Has sv ∧ (∀ p, node.Has p → r.node.Has p)

/-- Invariant of the indexes that insertions build, with `live` the set of the non-empty
suffixes of the words inserted so far: the tree is path-compressed, a node lies on every
live path, and `_size` is the number of nodes below the root, as a `size_t`. -/
def Compressed (live : List Char → Prop) (t : CompressedSuffixTree) : Prop :=
  t._root.CompactAt live [] ∧ (∀ p, live p → t._root.Has p) ∧ t._size < 2 ^ 64 ∧
    (t._size + 1) % 2 ^ 64 = t._root.count % 2 ^ 64

/-- The non-empty suffixes of the words of `W`. -/
def SuffixOf (W : List (List Char)) (p : List Char) : Prop := p ≠ [] ∧ ∃ w ∈ W, p <:+ w

namespace Ptr

/-- No object outside of the region `R` (a set of addresses) points into `R`. -/
def Sep (R : Nat → Prop) (h : Heap) : Prop :=
  ∀ q c, ¬ R q → c ∈ (h.read q).childNodes → ¬ R c

/-- The memory `h2` comes from `h` by allocations and by writes that leave the objects
in the region `R` as they are and give no object outside of `R` a pointer into it. -/
def Frame (R : Nat → Prop) (h h2 : Heap) : Prop :=
  h.next ≤ h2.next ∧ (∀ q, R q → h2.read q = h.read q) ∧ Sep R h2

/-- The objects in the region `R` point into `R` only. -/
def Inside (R : Nat → Prop) (h : Heap) : Prop :=
  ∀ q c, R q → c ∈ (h.read q).childNodes → R c

/-- No dangling pointers: every pointer held by an object is an allocated address. -/
def Valid (h : Heap) : Prop := ∀ q c, c ∈ (h.read q).childNodes → c < h.next

/-- The index objects at `i` and `j` share no node. The region `R` holds the nodes on
the side of the object at `i`: it consists of allocated addresses, contains the root of
the object at `i` and not the root of the object at `j`, which is allocated; no object
in `R` points out of `R` and none outside of `R` points into it; and the memory has no
dangling pointers. -/
def World.Apart (w : World) (R : Nat → Prop) (i j : Nat) : Prop :=
  Valid w.heap ∧ (∀ q, R q → q < w.heap.next) ∧ Inside R w.heap ∧ Sep R w.heap ∧
    R (w.obj i)._root ∧ ¬ R (w.obj j)._root ∧ (w.obj j)._root < w.heap.next ∧
    i ≠ j ∧ i < w.objs.length ∧ j < w.objs.length

/-- A program state with one default-constructed index: its root node at address 0 and
the index object at address 0. -/
def worldNew : World := ⟨[⟨[], false, 0, []⟩], [⟨0, 0, 0⟩]⟩

/-- Memory after `insert("a")`, `insert("ab")`, `insert("cab")` on an empty index whose
root is at address 0, with the index object. -/
def worldCAB : World :=
  ⟨[⟨[], false, 0, [4, 3, 1]⟩, ⟨['a'], true, 1, [2]⟩, ⟨['b'], true, 2, []⟩,
      ⟨['b'], false, 2, []⟩, ⟨['c', 'a', 'b'], true, 1, []⟩],
    [⟨4, 3, 0⟩]⟩

/-- The state `worldCAB` after the copy construction of a second index from the first. -/
def worldCopied : World :=
  ⟨[⟨[], false, 0, [4, 3, 1]⟩, ⟨['a'], true, 1, [2]⟩, ⟨['b'], true, 2, []⟩,
      ⟨['b'], false, 2, []⟩, ⟨['c', 'a', 'b'], true, 1, []⟩,
      ⟨[], false, 0, [8, 7, 6]⟩, ⟨['c', 'a', 'b'], true, 1, []⟩, ⟨['b'], false, 2, []⟩,
      ⟨['a'], true, 1, [9]⟩, ⟨['b'], true, 2, []⟩],
    [⟨4, 3, 0⟩, ⟨4, 3, 5⟩]⟩

/-- The state `worldCopied` after `insert("x")` on the first index, `erase("a")` on the
copy and `clear()` on the first index. -/
def worldLater : World :=
  ⟨[⟨[], false, 0, [10, 4, 3, 1]⟩, ⟨['a'], true, 1, [2]⟩, ⟨['b'], true, 2, []⟩,
      ⟨['b'], false, 2, []⟩, ⟨['c', 'a', 'b'], true, 1, []⟩,
      ⟨[], false, 0, [8, 7, 6]⟩, ⟨['c', 'a', 'b'], true, 1, []⟩, ⟨['b'], false, 2, []⟩,
      ⟨['a', 'b'], true, 2, []⟩, ⟨['b'], true, 2, []⟩,
      ⟨['x'], true, 1, []⟩, ⟨[], false, 0, []⟩],
    [⟨0, 0, 11⟩, ⟨3, 2, 5⟩]⟩

/-- The state `worldLater` after `insert("abc")` on the copy. -/
def worldLast : World :=
  ⟨[⟨[], false, 0, [10, 4, 3, 1]⟩, ⟨['a'], true, 1, [2]⟩, ⟨['b'], true, 2, []⟩,
      ⟨['b'], false, 2, []⟩, ⟨['c', 'a', 'b'], true, 1, []⟩,
      ⟨[], false, 0, [6, 8, 7]⟩, ⟨['c'], false, 1, [14]⟩, ⟨['b'], false, 2, [13]⟩,
      ⟨['a', 'b'], true, 2, [12]⟩, ⟨['b'], true, 2, []⟩,
      ⟨['x'], true, 1, []⟩, ⟨[], false, 0, []⟩,
      ⟨['c'], true, 1, []⟩, ⟨['c'], false, 1, []⟩, ⟨['a', 'b'], true, 1, []⟩],
    [⟨0, 0, 11⟩, ⟨6, 3, 5⟩]⟩

end Ptr

mutual
/-- The nodes of a subtree, its top node first. -/
def Node.nodes : Node → List Node
  | .mk s tw tc cs => .mk s tw tc cs :: Node.nodesList cs
/-- The nodes of the subtrees of a child container. -/
def Node.nodesList : List Node → List Node
  | [] => []
  | c :: cs => Node.nodes c ++ Node.nodesList cs
end

/-- The nodes of the index other than the root. -/
def CompressedSuffixTree.nonRootNodes (t : CompressedSuffixTree) : List Node :=
  Node.nodesList t._root.childNodes

/-- The nodes of the index whose `terminalWord` flag is set. -/
def CompressedSuffixTree.wordNodes (t : CompressedSuffixTree) : List Node :=
  t._root.nodes.filter (fun n => n.terminalWord)

mutual
/-- The nodes of a subtree, each with the concatenation of the labels on the way to it
from above the top node; `pre` is the concatenation of the labels above the top node. -/
def Node.paths : List Char → Node → List (List Char × Node)
  | pre, .mk s tw tc cs => (pre ++ s, .mk s tw tc cs) :: Node.pathsList (pre ++ s) cs
/-- The nodes of the subtrees of a child container with their paths. -/
def Node.pathsList : List Char → List Node → List (List Char × Node)
  | _, [] => []
  | pre, c :: cs => Node.paths pre c ++ Node.pathsList pre cs
end

/-- A call of `insert`, `erase` or `clear`. -/
inductive Call where
  | insert (word : List Char)
  | erase (word : List Char)
  | clear

/-- The index after a call; `none` when the call trips an assertion. -/
def Call.apply (t : CompressedSuffixTree) : Call → Option CompressedSuffixTree
  | .insert w => (t.insert w).map (fun r => r.2)
  | .erase w => (t.erase w).map (fun r => r.2)
  | .clear => some t.clear

/-- The index after a sequence of calls, applied in order. -/
def run : List Call → CompressedSuffixTree → Option CompressedSuffixTree
  | [], t => some t
  | c :: cs, t =>
    match c.apply t with
    | none => none
    | some t1 => run cs t1

/-- Index after `insert("abc")`, `insert("abd")`, `insert("a")`, `erase("a")` on the empty
index. -/
def stateDeadLeaf : CompressedSuffixTree :=
  ⟨8, 2, .mk [] false 0
    [.mk ['a', 'b'] false 0 [], .mk ['d'] false 1 [],
      .mk ['b'] false 0 [.mk ['d'] false 1 [], .mk ['c'] false 1 []],
      .mk ['c'] false 1 []]⟩

/-- Number of nodes of a subtree whose `terminalWord` flag is set. -/
def Node.wordMarks (n : Node) : Nat := n.nodes.countP (fun m => m.terminalWord)

/-- How the counters of `t2` follow from those of `t` when `t2` has `k` more nodes and
`j` more flagged nodes than `t`: `_size` and `_wordCount` have moved by `k` and `j` as
`size_t` values. -/
def CountersFollow (t t2 : CompressedSuffixTree) : Prop :=
  ∃ k j, t2._root.count = t._root.count + k ∧ t2._root.wordMarks = t._root.wordMarks + j ∧
    t2._size % 2 ^ 64 = (t._size + k) % 2 ^ 64 ∧
    t2._wordCount % 2 ^ 64 = (t._wordCount + j) % 2 ^ 64 ∧
    (t._size < 2 ^ 64 → t2._size < 2 ^ 64) ∧ (t._wordCount < 2 ^ 64 → t2._wordCount < 2 ^ 64)

/-! ## Theorems -/

open CompressedSuffixTree

@[simp] theorem Node.s_mk (s : List Char) (tw : Bool) (tc : Int) (cs : List Node) :
    (Node.mk s tw tc cs).s = s := rfl

@[simp] theorem Node.terminalWord_mk (s : List Char) (tw : Bool) (tc : Int)
    (cs : List Node) : (Node.mk s tw tc cs).terminalWord = tw := rfl

@[simp] theorem Node.terminalCount_mk (s : List Char) (tw : Bool) (tc : Int)
    (cs : List Node) : (Node.mk s tw tc cs).terminalCount = tc := rfl

@[simp] theorem Node.childNodes_mk (s : List Char) (tw : Bool) (tc : Int)
    (cs : List Node) : (Node.mk s tw tc cs).childNodes = cs := rfl

theorem wrapInt_zero : wrapInt 0 = 0 := by decide

/-- The increment of the largest `int` is the smallest one. -/
theorem intInc_largest : intInc (2 ^ 31 - 1) = -2 ^ 31 := by decide

/-- The decrement of the smallest `int` is the largest one. -/
theorem intDec_smallest : intDec (-2 ^ 31) = 2 ^ 31 - 1 := by decide

theorem intInc_wrapInt (n : Int) : intInc (wrapInt n) = wrapInt (n + 1) := by
  unfold intInc wrapInt
  omega

theorem extendPos_eq (as bs : List Char) (e : Nat) :
    extendPos as bs e = e + lcpLen as bs := by
  induction as generalizing bs e with
  | nil => simp [extendPos, lcpLen]
  | cons a as ih =>
    cases bs with
    | nil => simp [extendPos, lcpLen]
    | cons b bs =>
      by_cases h : a = b
      · simp [extendPos, lcpLen, h, ih]; omega
      · simp [extendPos, lcpLen, h]

theorem lcpLen_le_left (as bs : List Char) : lcpLen as bs ≤ as.length := by
  induction as generalizing bs with
  | nil => simp [lcpLen]
  | cons a as ih =>
    cases bs with
    | nil => simp [lcpLen]
    | cons b bs =>
      by_cases h : a = b
      · simp [lcpLen, h, ih]
      · simp [lcpLen, h]

theorem lcpLen_le_right (as bs : List Char) : lcpLen as bs ≤ bs.length := by
  induction as generalizing bs with
  | nil => simp [lcpLen]
  | cons a as ih =>
    cases bs with
    | nil => simp [lcpLen]
    | cons b bs =>
      by_cases h : a = b
      · simp [lcpLen, h, ih]
      · simp [lcpLen, h]

theorem lcpLen_take (as bs : List Char) :
    as.take (lcpLen as bs) = bs.take (lcpLen as bs) := by
  induction as generalizing bs with
  | nil => simp [lcpLen]
  | cons a as ih =>
    cases bs with
    | nil => simp [lcpLen]
    | cons b bs =>
      by_cases h : a = b
      · simp [lcpLen, h, ih]
      · simp [lcpLen, h]

theorem lcpLen_ge_iff (as bs : List Char) : as.length ≤ lcpLen as bs ↔ as <+: bs := by
  induction as generalizing bs with
  | nil => simp [lcpLen]
  | cons a as ih =>
    cases bs with
    | nil => simp [lcpLen]
    | cons b bs =>
      by_cases h : a = b
      · subst h
        simp [lcpLen, ih, List.cons_prefix_cons]
      · simp [lcpLen, h, List.cons_prefix_cons]

theorem lcpLen_head_ne (as bs : List Char) (h1 : lcpLen as bs < as.length)
    (h2 : lcpLen as bs < bs.length) :
    (as.drop (lcpLen as bs)).head? ≠ (bs.drop (lcpLen as bs)).head? := by
  induction as generalizing bs with
  | nil => simp at h1
  | cons a as ih =>
    cases bs with
    | nil => simp at h2
    | cons b bs =>
      by_cases h : a = b
      · subst h
        simp only [lcpLen, if_true, List.length_cons, Nat.add_lt_add_iff_right] at h1 h2
        simpa [lcpLen] using ih bs h1 h2
      · simp [lcpLen, h]

theorem lcpLen_pos (as bs : List Char) (hb : bs ≠ []) (h : as.head? = bs.head?) :
    1 ≤ lcpLen as bs := by
  cases as with
  | nil => cases bs <;> simp_all
  | cons a as =>
    cases bs with
    | nil => simp at hb
    | cons b bs =>
      simp at h
      simp [lcpLen, h]

theorem endPos_eq (ls sv : List Char) (hsv : sv ≠ []) (h : ls.head? = sv.head?) :
    extendPos (ls.drop 1) (sv.drop 1) 1 = lcpLen ls sv := by
  cases ls with
  | nil => cases sv <;> simp_all
  | cons a as =>
    cases sv with
    | nil => simp at hsv
    | cons b bs =>
      simp at h
      simp [lcpLen, h, extendPos_eq]; omega

theorem scanChildren_none_iff (sv : List Char) (seen cs : List Node) :
    scanChildren sv seen cs = none ↔ ∀ c ∈ cs, c.s.head? ≠ sv.head? := by
  induction cs generalizing seen with
  | nil => simp [scanChildren]
  | cons c cs ih =>
    by_cases h : c.s.head? = sv.head?
    · simp [scanChildren, h]
    · simp [scanChildren, h, ih]

theorem scanChildren_append (sv : List Char) (seen pre post : List Node) (c : Node)
    (hpre : ∀ b ∈ pre, b.s.head? ≠ sv.head?) (hc : c.s.head? = sv.head?) :
    scanChildren sv seen (pre ++ c :: post)
      = some (⟨seen ++ pre, c, post⟩, extendPos (c.s.drop 1) (sv.drop 1) 1) := by
  induction pre generalizing seen with
  | nil => simp [scanChildren, hc]
  | cons b pre ih =>
    have hb : b.s.head? ≠ sv.head? := hpre b (by simp)
    have := ih (seen ++ [b]) (fun x hx => hpre x (by simp [hx]))
    simp [scanChildren, hb, this]

theorem scanChildren_some (sv : List Char) (seen cs : List Node) (it : Iter) (e : Nat)
    (h : scanChildren sv seen cs = some (it, e)) :
    ∃ pre, cs = pre ++ it.cur :: it.after ∧ it.before = seen ++ pre
      ∧ (∀ b ∈ pre, b.s.head? ≠ sv.head?) ∧ it.cur.s.head? = sv.head?
      ∧ e = extendPos (it.cur.s.drop 1) (sv.drop 1) 1 := by
  induction cs generalizing seen with
  | nil => simp [scanChildren] at h
  | cons c cs ih =>
    by_cases hc : c.s.head? = sv.head?
    · simp [scanChildren, hc] at h
      obtain ⟨h1, h2⟩ := h
      subst h1
      exact ⟨[], by simp, by simp, by simp, hc, by simp [← h2]⟩
    · simp [scanChildren, hc] at h
      obtain ⟨pre, h1, h2, h3, h4, h5⟩ := ih _ h
      refine ⟨c :: pre, by simp [h1], by simp [h2], ?_, h4, h5⟩
      intro b hb
      simp at hb
      rcases hb with rfl | hb
      · exact hc
      · exact h3 b hb

theorem findKey_none_iff (key : List Char) (seen cs : List Node) :
    findKey key seen cs = none ↔ ∀ c ∈ cs, c.s ≠ key := by
  induction cs generalizing seen with
  | nil => simp [findKey]
  | cons c cs ih =>
    by_cases h : c.s = key
    · simp [findKey, h]
    · simp [findKey, h, ih]

theorem findKey_append (key : List Char) (seen pre post : List Node) (c : Node)
    (hpre : ∀ b ∈ pre, b.s ≠ key) (hc : c.s = key) :
    findKey key seen (pre ++ c :: post) = some ⟨seen ++ pre, c, post⟩ := by
  induction pre generalizing seen with
  | nil => simp [findKey, hc]
  | cons b pre ih =>
    have hb : b.s ≠ key := hpre b (by simp)
    have := ih (seen ++ [b]) (fun x hx => hpre x (by simp [hx]))
    simp [findKey, hb, this]

theorem emplace_fresh (m : List Node) (n : Node) (h : ∀ c ∈ m, c.s ≠ n.s) :
    emplace m n = ⟨[], n, m⟩ := by
  have := (findKey_none_iff n.s [] m).2 h
  simp [emplace, this]

theorem Node.eta (n : Node) : Node.mk n.s n.terminalWord n.terminalCount n.childNodes = n := by
  cases n; rfl

theorem Node.wf_iff (s : List Char) (tw : Bool) (tc : Int) (cs : List Node) :
    (Node.mk s tw tc cs).WF ↔ (∀ c ∈ cs, c.s ≠ []) ∧
      cs.Pairwise (fun a b => a.s.head? ≠ b.s.head?) ∧ (∀ c ∈ cs, Node.WF c) := by
  constructor
  · intro h
    cases h with
    | mk _ _ _ _ h1 h2 h3 => exact ⟨h1, h2, h3⟩
  · rintro ⟨h1, h2, h3⟩
    exact Node.WF.mk s tw tc cs h1 h2 h3

theorem Node.wf_children (n : Node) (h : n.WF) :
    (∀ c ∈ n.childNodes, c.s ≠ []) ∧
      n.childNodes.Pairwise (fun a b => a.s.head? ≠ b.s.head?) ∧
      (∀ c ∈ n.childNodes, Node.WF c) := by
  cases n with
  | mk s tw tc cs => exact (Node.wf_iff s tw tc cs).1 h

theorem Node.search_eq_walk (fuel : Nat) (node : Node) (w : List Char) :
    Node.search fuel node w = match Node.walk fuel node w with
      | some m => m.terminalWord
      | none => false := by
  induction fuel generalizing node w with
  | zero => simp [Node.search, Node.walk]
  | succ fuel ih =>
    unfold Node.search Node.walk
    by_cases hw : w = []
    · simp [hw]
    · simp only [hw, if_false]
      cases hf : node.findByDeterminingPrefix w with
      | none => simp
      | some x =>
        obtain ⟨it, e⟩ := x
        by_cases he : e ≥ it.cur.s.length
        · simp [he, ih]
        · simp [he]

theorem Node.endsWith_eq_walk (fuel : Nat) (node : Node) (w : List Char) :
    Node.endsWith fuel node w = match Node.walk fuel node w with
      | some m => (!m.terminalWord && decide (m.terminalCount > 0))
          || (m.terminalWord && decide (m.terminalCount > 1))
      | none => false := by
  induction fuel generalizing node w with
  | zero => simp [Node.endsWith, Node.walk]
  | succ fuel ih =>
    unfold Node.endsWith Node.walk
    by_cases hw : w = []
    · simp [hw]
    · simp only [hw, if_false]
      cases hf : node.findByDeterminingPrefix w with
      | none => simp
      | some x =>
        obtain ⟨it, e⟩ := x
        by_cases he : e ≥ it.cur.s.length
        · simp [he, ih]
        · simp [he]

/-- What `findByDeterminingPrefix` returns, in terms of the first child whose label
starts with the first character of the query. -/
theorem Node.fbp_cases (node : Node) (p : List Char) (hp : p ≠ []) :
    (node.findByDeterminingPrefix p = none
        ∧ node.childNodes.find? (fun c => c.s.head? == p.head?) = none
        ∧ ∀ c ∈ node.childNodes, c.s.head? ≠ p.head?)
    ∨ ∃ pre c post, node.childNodes = pre ++ c :: post
        ∧ (∀ b ∈ pre, b.s.head? ≠ p.head?) ∧ c.s.head? = p.head?
        ∧ node.findByDeterminingPrefix p = some (⟨pre, c, post⟩, lcpLen c.s p)
        ∧ node.childNodes.find? (fun c => c.s.head? == p.head?) = some c := by
  unfold Node.findByDeterminingPrefix
  simp only [hp, if_false]
  cases h : scanChildren p [] node.childNodes with
  | none =>
    left
    have := (scanChildren_none_iff p [] node.childNodes).1 h
    refine ⟨rfl, ?_, this⟩
    simpa [List.find?_eq_none] using this
  | some x =>
    right
    obtain ⟨it, e⟩ := x
    obtain ⟨pre, h1, h2, h3, h4, h5⟩ := scanChildren_some p [] node.childNodes it e h
    refine ⟨pre, it.cur, it.after, h1, h3, h4, ?_, ?_⟩
    · rw [h5, endPos_eq _ _ hp h4]
      simp at h2
      cases it
      simp_all
    · rw [h1, List.find?_append]
      have : List.find? (fun c => c.s.head? == p.head?) pre = none := by
        simpa [List.find?_eq_none] using h3
      simp [this, h4]

theorem Node.walk_fuel (f1 f2 : Nat) (node : Node) (p : List Char)
    (h1 : p.length < f1) (h2 : p.length < f2) :
    Node.walk f1 node p = Node.walk f2 node p := by
  induction f1 generalizing f2 node p with
  | zero => omega
  | succ f1 ih =>
    cases f2 with
    | zero => omega
    | succ f2 =>
      unfold Node.walk
      by_cases hp : p = []
      · simp [hp]
      · simp only [hp, if_false]
        rcases Node.fbp_cases node p hp with ⟨h, -, -⟩ | ⟨pre, c, post, -, -, hc, h, -⟩
        · simp [h]
        · simp only [h]
          have hpos := lcpLen_pos c.s p hp hc
          have hlen : p.length ≠ 0 := by
            intro h0
            exact hp (List.length_eq_zero.1 h0)
          by_cases he : lcpLen c.s p ≥ c.s.length
          · simp only [he, if_true]
            apply ih
            · simp; omega
            · simp; omega
          · simp [he]

theorem Node.walk_succ (fuel : Nat) (node : Node) (p : List Char) :
    Node.walk (fuel + 1) node p =
      if p = [] then some node
      else
        match node.findByDeterminingPrefix p with
        | some (it, endPos) =>
          if endPos ≥ it.cur.s.length then Node.walk fuel it.cur (p.drop endPos) else none
        | none => none := by
  rw [Node.walk]

theorem Node.get_nil (node : Node) : node.get [] = some node := by
  simp [Node.get, Node.walk]

theorem Node.get_cons (node : Node) (p : List Char) (hp : p ≠ []) :
    node.get p = match node.childNodes.find? (fun c => c.s.head? == p.head?) with
      | some c => if c.s <+: p then c.get (p.drop c.s.length) else none
      | none => none := by
  show Node.walk (p.length + 1) node p = _
  rw [Node.walk_succ]
  simp only [hp, if_false]
  rcases Node.fbp_cases node p hp with ⟨h, hf, -⟩ | ⟨pre, c, post, -, -, hc, h, hf⟩
  · simp [h, hf]
  · simp only [h, hf]
    have hpos := lcpLen_pos c.s p hp hc
    have hle := lcpLen_le_left c.s p
    have hlen : p.length ≠ 0 := by
      intro h0
      exact hp (List.length_eq_zero.1 h0)
    by_cases he : c.s <+: p
    · have he2 := (lcpLen_ge_iff c.s p).2 he
      have heq : lcpLen c.s p = c.s.length := by omega
      simp only [he, ge_iff_le, he2, if_true, heq, Node.get, le_refl]
      apply Node.walk_fuel
      · simp; omega
      · simp
    · have he2 : ¬ c.s.length ≤ lcpLen c.s p := fun h => he ((lcpLen_ge_iff c.s p).1 h)
      simp [he, he2]

theorem Node.flagsAt_nil (n : Node) : n.flagsAt [] = (n.terminalWord, n.terminalCount) := by
  simp [Node.flagsAt, Node.get_nil]

theorem Node.flagsAt_cons (n : Node) (p : List Char) (hp : p ≠ []) :
    n.flagsAt p = match n.childNodes.find? (fun c => c.s.head? == p.head?) with
      | some c => if c.s <+: p then c.flagsAt (p.drop c.s.length) else (false, 0)
      | none => (false, 0) := by
  unfold Node.flagsAt
  rw [Node.get_cons n p hp]
  cases h : n.childNodes.find? (fun c => c.s.head? == p.head?) with
  | none => rfl
  | some c =>
    by_cases hc : c.s <+: p
    · simp [hc]
    · simp [hc]

/-- The flags below a node depend on its own flags and children only. -/
theorem Node.flagsAt_congr (n1 n2 : Node) (p : List Char)
    (h1 : n1.terminalWord = n2.terminalWord) (h2 : n1.terminalCount = n2.terminalCount)
    (h3 : n1.childNodes = n2.childNodes) : n1.flagsAt p = n2.flagsAt p := by
  by_cases hp : p = []
  · subst hp
    simp [Node.flagsAt_nil, h1, h2]
  · rw [Node.flagsAt_cons n1 p hp, Node.flagsAt_cons n2 p hp, h3]

theorem Node.wf_congr (n1 n2 : Node) (h3 : n1.childNodes = n2.childNodes) (h : n1.WF) :
    n2.WF := by
  cases n1 with
  | mk s1 tw1 tc1 cs1 =>
    cases n2 with
    | mk s2 tw2 tc2 cs2 =>
      simp at h3
      subst h3
      exact (Node.wf_iff _ _ _ _).2 ((Node.wf_iff _ _ _ _).1 h)

theorem find_skip (pre post : List Node) (c : Node) (p : List Char)
    (h : c.s.head? ≠ p.head?) :
    (pre ++ c :: post).find? (fun c => c.s.head? == p.head?)
      = (pre ++ post).find? (fun c => c.s.head? == p.head?) := by
  simp [List.find?_append, List.find?_cons, h]

theorem find_mid (pre post : List Node) (c : Node) (p : List Char)
    (hpre : ∀ b ∈ pre, b.s.head? ≠ p.head?) (h : c.s.head? = p.head?) :
    (pre ++ c :: post).find? (fun c => c.s.head? == p.head?) = some c := by
  have : List.find? (fun c => c.s.head? == p.head?) pre = none := by
    simpa [List.find?_eq_none] using hpre
  simp [List.find?_append, List.find?_cons, h, this]

theorem find_none (cs : List Node) (p : List Char)
    (h : ∀ b ∈ cs, b.s.head? ≠ p.head?) :
    cs.find? (fun c => c.s.head? == p.head?) = none := by
  simpa [List.find?_eq_none] using h

theorem prefix_drop_eq (a p q : List Char) (hp : a <+: p) (hq : a <+: q) :
    p.drop a.length = q.drop a.length ↔ p = q := by
  obtain ⟨p', rfl⟩ := hp
  obtain ⟨q', rfl⟩ := hq
  simp

theorem insert_spec_nil (fuel : Nat) (node : Node) (isWord : Bool) (size wc : Nat)
    (hwf : node.WF) :
    ∃ r, Node.insert (fuel + 1) node [] isWord size wc = some r
      ∧ InsertPost node [] isWord size wc r := by
  cases node with
  | mk s tw tc cs =>
  have hfl : ∀ (tw2 : Bool) (tc2 : Int) (p : List Char), p ≠ [] →
      (Node.mk s tw2 tc2 cs).flagsAt p = (Node.mk s tw tc cs).flagsAt p := by
    intro tw2 tc2 p hp
    rw [Node.flagsAt_cons _ p hp, Node.flagsAt_cons _ p hp]
    rfl
  cases isWord with
  | true =>
    cases tw with
    | true =>
      simp only [Node.insert, if_true, Node.terminalWord_mk]
      refine ⟨_, rfl, ?_⟩
      simp [InsertPost, Node.flagsAt_nil]
    | false =>
      simp only [Node.insert, if_true, Node.terminalWord_mk, Bool.false_eq_true, if_false]
      refine ⟨_, rfl, ?_⟩
      refine ⟨by simp [Node.flagsAt_nil], by simp, fun _ => ⟨?_, rfl, ?_⟩⟩
      · exact Node.wf_congr (Node.mk s _ tc cs) _ rfl hwf
      · intro p
        by_cases hp : p = []
        · subst hp
          simp [Node.flagsAt_nil, bump]
        · simp only [hp, if_false]
          exact hfl _ _ p hp
  | false =>
    simp only [Node.insert, if_true, Bool.false_eq_true, if_false]
    refine ⟨_, rfl, ?_⟩
    refine ⟨by simp, by simp, fun _ => ⟨?_, rfl, ?_⟩⟩
    · exact Node.wf_congr (Node.mk s _ tc cs) _ rfl hwf
    · intro p
      by_cases hp : p = []
      · subst hp
        simp [Node.flagsAt_nil, bump]
      · simp only [hp, if_false]
        exact hfl _ _ p hp

theorem insert_spec_new (fuel : Nat) (s : List Char) (tw : Bool) (tc : Int) (cs : List Node)
    (sv : List Char) (isWord : Bool) (size wc : Nat)
    (ih : ∀ (node : Node) (sv : List Char) (size wc : Nat), sv.length < fuel → node.WF →
      ∃ r, Node.insert fuel node sv isWord size wc = some r
        ∧ InsertPost node sv isWord size wc r)
    (hf : sv.length < fuel + 1) (hsv : sv ≠ []) (hwf : (Node.mk s tw tc cs).WF)
    (hfbp : (Node.mk s tw tc cs).findByDeterminingPrefix sv = none)
    (hnone : ∀ c ∈ cs, c.s.head? ≠ sv.head?) :
    ∃ r, Node.insert (fuel + 1) (Node.mk s tw tc cs) sv isWord size wc = some r
      ∧ InsertPost (Node.mk s tw tc cs) sv isWord size wc r := by
  obtain ⟨hne, hpw, hwfc⟩ := (Node.wf_iff _ _ _ _).1 hwf
  have hlen : 0 < sv.length := List.length_pos.2 hsv
  have hfresh : ∀ c ∈ cs, c.s ≠ (Node.mk sv false 0 []).s := by
    intro c hc h
    exact hnone c hc (by rw [h]; rfl)
  have hemp := emplace_fresh cs (Node.mk sv false 0 []) hfresh
  have hwfnew : (Node.mk sv false 0 []).WF := (Node.wf_iff _ _ _ _).2 (by simp)
  obtain ⟨r1, hr1, hres1, -, hpost1⟩ :=
    ih (Node.mk sv false 0 []) [] (sizeInc size) wc (by simpa using (by omega : 0 < fuel)) hwfnew
  have hres1t : r1.res = true := by
    simpa [Node.flagsAt_nil] using hres1
  obtain ⟨hwf1, hs1, hfl1⟩ := hpost1 hres1t
  have hs1' : r1.node.s = sv := hs1
  have hold : ∀ p, p ≠ [] → p.head? = sv.head? →
      (Node.mk s tw tc cs).flagsAt p = (false, 0) := by
    intro p hp hh
    rw [Node.flagsAt_cons _ p hp]
    have : List.find? (fun c => c.s.head? == p.head?) (Node.mk s tw tc cs).childNodes = none :=
      find_none cs p (fun b hb => by rw [hh]; exact hnone b hb)
    rw [this]
  rw [Node.insert]
  simp only [hsv, if_false, hfbp, Node.childNodes_mk, Node.s_mk, Node.terminalWord_mk,
    Node.terminalCount_mk, hemp, List.drop_length, hr1]
  refine ⟨_, rfl, ?_⟩
  refine ⟨?_, ?_, fun _ => ⟨?_, rfl, ?_⟩⟩
  · simp [hres1t, hold sv hsv rfl]
  · simp [hres1t]
  · refine (Node.wf_iff _ _ _ _).2 ⟨?_, ?_, ?_⟩
    · intro c hc
      simp [Iter.put] at hc
      rcases hc with rfl | hc
      · rw [hs1']; exact hsv
      · exact hne c hc
    · simp only [Iter.put, List.nil_append, List.pairwise_cons]
      refine ⟨?_, hpw⟩
      intro c hc
      rw [hs1']
      exact fun h => hnone c hc h.symm
    · intro c hc
      simp [Iter.put] at hc
      rcases hc with rfl | hc
      · exact hwf1
      · exact hwfc c hc
  · intro p
    by_cases hp : p = []
    · subst hp
      have : ([] : List Char) ≠ sv := fun h => hsv h.symm
      simp [this, Node.flagsAt_nil]
    · rw [Node.flagsAt_cons _ p hp]
      simp only [Node.childNodes_mk, Iter.put, List.nil_append, List.find?_cons]
      by_cases hh : p.head? = sv.head?
      · have h1 : (r1.node.s.head? == p.head?) = true := by simp [hs1', hh]
        simp only [h1]
        simp only [hs1']
        by_cases hpre : sv <+: p
        · simp only [hpre, if_true]
          rw [hfl1]
          by_cases heq : p = sv
          · subst heq
            simp [hold p hp rfl, Node.flagsAt_nil]
          · have : List.drop sv.length p ≠ [] := by
              intro h
              obtain ⟨q, rfl⟩ := hpre
              simp at h
              exact heq (by simp [h])
            simp only [this, if_false, heq]
            rw [hold p hp hh, Node.flagsAt_cons _ _ this]
            simp
        · have heq : p ≠ sv := by
            rintro rfl
            exact hpre (List.prefix_refl _)
          simp [hpre, heq, hold p hp hh]
      · have h1 : (r1.node.s.head? == p.head?) = false := by
          simp [hs1']
          exact fun h => hh h.symm
        have heq : p ≠ sv := by
          rintro rfl
          exact hh rfl
        simp only [h1, heq, if_false]
        rw [Node.flagsAt_cons _ p hp]
        simp only [Node.childNodes_mk]

theorem pairwise_mid (pre post : List Node) (c : Node)
    (h : (pre ++ c :: post).Pairwise (fun a b => a.s.head? ≠ b.s.head?)) :
    (pre ++ post).Pairwise (fun a b => a.s.head? ≠ b.s.head?)
      ∧ (∀ b ∈ pre ++ post, b.s.head? ≠ c.s.head?) := by
  rw [List.pairwise_append] at h
  obtain ⟨h1, h2, h3⟩ := h
  rw [List.pairwise_cons] at h2
  obtain ⟨h4, h5⟩ := h2
  constructor
  · rw [List.pairwise_append]
    exact ⟨h1, h5, fun a ha b hb => h3 a ha b (by simp [hb])⟩
  · intro b hb
    rw [List.mem_append] at hb
    rcases hb with hb | hb
    · exact h3 b hb c (by simp)
    · exact fun h => h4 b hb h.symm

theorem pairwise_put (pre post : List Node) (c c2 : Node) (hs : c2.s.head? = c.s.head?)
    (h : (pre ++ c :: post).Pairwise (fun a b => a.s.head? ≠ b.s.head?)) :
    (pre ++ c2 :: post).Pairwise (fun a b => a.s.head? ≠ b.s.head?) := by
  rw [List.pairwise_append] at h ⊢
  obtain ⟨h1, h2, h3⟩ := h
  rw [List.pairwise_cons] at h2 ⊢
  obtain ⟨h4, h5⟩ := h2
  refine ⟨h1, ⟨?_, h5⟩, ?_⟩
  · intro b hb
    rw [hs]
    exact h4 b hb
  · intro a ha b hb
    simp at hb
    rcases hb with rfl | hb
    · rw [hs]
      exact h3 a ha c (by simp)
    · exact h3 a ha b (by simp [hb])

theorem insert_spec_full (fuel : Nat) (s : List Char) (tw : Bool) (tc : Int) (cs : List Node)
    (sv : List Char) (isWord : Bool) (size wc : Nat)
    (ih : ∀ (node : Node) (sv : List Char) (size wc : Nat), sv.length < fuel → node.WF →
      ∃ r, Node.insert fuel node sv isWord size wc = some r
        ∧ InsertPost node sv isWord size wc r)
    (hf : sv.length < fuel + 1) (hsv : sv ≠ []) (hwf : (Node.mk s tw tc cs).WF)
    (pre post : List Node) (c : Node) (hcs : cs = pre ++ c :: post)
    (hpre : ∀ b ∈ pre, b.s.head? ≠ sv.head?) (hc : c.s.head? = sv.head?)
    (hfbp : (Node.mk s tw tc cs).findByDeterminingPrefix sv
      = some (⟨pre, c, post⟩, lcpLen c.s sv))
    (he : ¬ lcpLen c.s sv < c.s.length) :
    ∃ r, Node.insert (fuel + 1) (Node.mk s tw tc cs) sv isWord size wc = some r
      ∧ InsertPost (Node.mk s tw tc cs) sv isWord size wc r := by
  obtain ⟨hne, hpw, hwfc⟩ := (Node.wf_iff _ _ _ _).1 hwf
  have hlen : 0 < sv.length := List.length_pos.2 hsv
  have hpos := lcpLen_pos c.s sv hsv hc
  have hle := lcpLen_le_left c.s sv
  have hpfx : c.s <+: sv := (lcpLen_ge_iff c.s sv).1 (by omega)
  have heq : lcpLen c.s sv = c.s.length := by omega
  have htake : sv.take c.s.length = c.s := by
    obtain ⟨q, rfl⟩ := hpfx
    simp
  have hkey : findKey (sv.take c.s.length) [] cs = some ⟨pre, c, post⟩ := by
    rw [hcs]
    have := findKey_append (sv.take c.s.length) [] pre post c ?_ htake.symm
    · simpa using this
    · intro b hb h
      apply hpre b hb
      rw [h, htake]
      exact hc
  have hcmem : c ∈ cs := by simp [hcs]
  obtain ⟨r1, hr1, hres1, hfail1, hpost1⟩ :=
    ih c (sv.drop c.s.length) size wc (by simp; omega) (hwfc c hcmem)
  have hfind : ∀ p : List Char, p.head? = sv.head? →
      List.find? (fun c => c.s.head? == p.head?) cs = some c := by
    intro p hh
    rw [hcs]
    exact find_mid pre post c p (fun b hb => by rw [hh]; exact hpre b hb) (by rw [hh]; exact hc)
  have hold : ∀ p : List Char, p ≠ [] → p.head? = sv.head? → (Node.mk s tw tc cs).flagsAt p
      = if c.s <+: p then c.flagsAt (p.drop c.s.length) else (false, 0) := by
    intro p hp hh
    rw [Node.flagsAt_cons _ p hp]
    simp only [Node.childNodes_mk, hfind p hh]
  rw [Node.insert]
  simp only [hsv, if_false, hfbp, he, heq, lt_self_iff_false, Node.childNodes_mk,
    Node.s_mk, Node.terminalWord_mk,
    Node.terminalCount_mk, hkey, hr1]
  refine ⟨_, rfl, ?_⟩
  refine ⟨?_, ?_, ?_⟩
  · simp only [hres1, hold sv hsv rfl, hpfx, if_true]
  · intro hres
    obtain ⟨h1, h2, h3⟩ := hfail1 hres
    simp only [h1, h2, h3, Iter.put, hcs, and_self]
  · intro hres
    obtain ⟨hwf1, hs1, hfl1⟩ := hpost1 hres
    refine ⟨?_, rfl, ?_⟩
    · refine (Node.wf_iff _ _ _ _).2 ⟨?_, ?_, ?_⟩
      · intro x hx
        simp [Iter.put] at hx
        rcases hx with hx | rfl | hx
        · exact hne x (by simp [hcs, hx])
        · rw [hs1]; exact hne c hcmem
        · exact hne x (by simp [hcs, hx])
      · exact pairwise_put pre post c r1.node (by rw [hs1]) (hcs ▸ hpw)
      · intro x hx
        simp [Iter.put] at hx
        rcases hx with hx | rfl | hx
        · exact hwfc x (by simp [hcs, hx])
        · exact hwf1
        · exact hwfc x (by simp [hcs, hx])
    · intro p
      by_cases hp : p = []
      · subst hp
        have : ([] : List Char) ≠ sv := fun h => hsv h.symm
        simp [this, Node.flagsAt_nil]
      · by_cases hh : p.head? = sv.head?
        · rw [hold p hp hh, Node.flagsAt_cons _ p hp]
          have h1 : List.find? (fun c => c.s.head? == p.head?)
              (Node.mk s tw tc (Iter.put ⟨pre, c, post⟩ r1.node)).childNodes = some r1.node :=
            find_mid pre post r1.node p (fun b hb => by rw [hh]; exact hpre b hb)
              (by rw [hs1, hh]; exact hc)
          simp only [h1, hs1]
          by_cases hpp : c.s <+: p
          · simp only [hpp, if_true]
            rw [hfl1]
            simp only [prefix_drop_eq c.s p sv hpp hpfx]
          · have hne2 : p ≠ sv := by
              rintro rfl
              exact hpp hpfx
            simp [hpp, hne2]
        · have hne2 : p ≠ sv := by
            rintro rfl
            exact hh rfl
          simp only [hne2, if_false]
          rw [Node.flagsAt_cons _ p hp, Node.flagsAt_cons _ p hp]
          simp only [Node.childNodes_mk, Iter.put, hcs]
          rw [find_skip pre post r1.node p (by rw [hs1, hc]; exact fun h => hh h.symm),
            find_skip pre post c p (by rw [hc]; exact fun h => hh h.symm)]

theorem head_take (l : List Char) (e : Nat) (he : 1 ≤ e) : (l.take e).head? = l.head? := by
  cases l with
  | nil => simp
  | cons a l =>
    cases e with
    | zero => omega
    | succ e => simp

theorem prefix_head_eq (a q : List Char) (ha : a ≠ []) (h : a <+: q) : a.head? = q.head? := by
  obtain ⟨t, rfl⟩ := h
  cases a with
  | nil => exact absurd rfl ha
  | cons x a => simp

/-- Flags below the node that a split leaves in place of the child `c`: an unflagged node
labelled with the first `e` characters of the label of `c`, over a single child that
carries the rest of the label and everything else of `c`. -/
theorem flagsAt_split (c : Node) (a b : List Char) (hb : b ≠ []) (q : List Char) :
    (Node.mk a false 0 [Node.mk b c.terminalWord c.terminalCount c.childNodes]).flagsAt q
      = if q = [] then (false, 0)
        else if b <+: q then c.flagsAt (q.drop b.length) else (false, 0) := by
  by_cases hq : q = []
  · subst hq
    simp [Node.flagsAt_nil]
  · simp only [hq, if_false]
    rw [Node.flagsAt_cons _ q hq]
    simp only [Node.childNodes_mk, List.find?_cons, Node.s_mk, List.find?_nil]
    by_cases hh : b.head? = q.head?
    · have h1 : (b.head? == q.head?) = true := by simp [hh]
      simp only [h1, Node.s_mk]
      by_cases hp : b <+: q
      · simp only [hp, if_true]
        exact Node.flagsAt_congr (Node.mk b _ _ _) c _ rfl rfl rfl
      · simp [hp]
    · have h1 : (b.head? == q.head?) = false := by simp [hh]
      have hp : ¬ b <+: q := fun h => hh (prefix_head_eq b q hb h)
      simp [h1, hp]

theorem insert_spec_split (fuel : Nat) (s : List Char) (tw : Bool) (tc : Int)
    (cs : List Node) (sv : List Char) (isWord : Bool) (size wc : Nat)
    (ih : ∀ (node : Node) (sv : List Char) (size wc : Nat), sv.length < fuel → node.WF →
      ∃ r, Node.insert fuel node sv isWord size wc = some r
        ∧ InsertPost node sv isWord size wc r)
    (hf : sv.length < fuel + 1) (hsv : sv ≠ []) (hwf : (Node.mk s tw tc cs).WF)
    (pre post : List Node) (c : Node) (hcs : cs = pre ++ c :: post)
    (hpre : ∀ b ∈ pre, b.s.head? ≠ sv.head?) (hc : c.s.head? = sv.head?)
    (hfbp : (Node.mk s tw tc cs).findByDeterminingPrefix sv
      = some (⟨pre, c, post⟩, lcpLen c.s sv))
    (he : lcpLen c.s sv < c.s.length) :
    ∃ r, Node.insert (fuel + 1) (Node.mk s tw tc cs) sv isWord size wc = some r
      ∧ InsertPost (Node.mk s tw tc cs) sv isWord size wc r := by
  obtain ⟨hne, hpw, hwfc⟩ := (Node.wf_iff _ _ _ _).1 hwf
  have hcmem : c ∈ cs := by simp [hcs]
  have hpos := lcpLen_pos c.s sv hsv hc
  have hle := lcpLen_le_right c.s sv
  have htake := lcpLen_take c.s sv
  obtain ⟨hpw2, hother⟩ := pairwise_mid pre post c (hcs ▸ hpw)
  -- the two halves of the label and the rest of the query
  have hab : c.s.take (lcpLen c.s sv) ++ c.s.drop (lcpLen c.s sv) = c.s :=
    List.take_append_drop _ _
  have hsvab : c.s.take (lcpLen c.s sv) ++ sv.drop (lcpLen c.s sv) = sv := by
    rw [htake]
    exact List.take_append_drop _ _
  have halen : (c.s.take (lcpLen c.s sv)).length = lcpLen c.s sv := by
    rw [List.length_take]
    omega
  have hahead : (c.s.take (lcpLen c.s sv)).head? = c.s.head? := head_take _ _ hpos
  have hane : c.s.take (lcpLen c.s sv) ≠ [] := by
    intro h
    rw [h] at halen
    simp at halen
    omega
  have hbne : c.s.drop (lcpLen c.s sv) ≠ [] := by
    intro h
    have := congrArg List.length h
    simp at this
    omega
  have hemp : emplace (pre ++ post)
      (Node.mk (c.s.take (lcpLen c.s sv)) false 0 c.childNodes)
      = ⟨[], Node.mk (c.s.take (lcpLen c.s sv)) false 0 c.childNodes, pre ++ post⟩ := by
    apply emplace_fresh
    intro x hx h
    apply hother x hx
    rw [h]
    exact hahead
  have hemp3 : ∀ n : Node, emplace [] n = ⟨[], n, []⟩ := fun n =>
    emplace_fresh [] n (by simp)
  have hwf2 : (Node.mk (c.s.take (lcpLen c.s sv)) false 0
      [Node.mk (c.s.drop (lcpLen c.s sv)) c.terminalWord c.terminalCount c.childNodes]).WF := by
    refine (Node.wf_iff _ _ _ _).2 ⟨?_, by simp, ?_⟩
    · intro x hx
      simp at hx
      subst hx
      exact hbne
    · intro x hx
      simp at hx
      subst hx
      exact Node.wf_congr c _ rfl (hwfc c hcmem)
  obtain ⟨r1, hr1, hres1, -, hpost1⟩ :=
    ih _ (sv.drop (lcpLen c.s sv)) (sizeInc size) wc (by simp; omega) hwf2
  have hnotpre : ¬ c.s <+: sv := fun h => by
    have := (lcpLen_ge_iff c.s sv).2 h
    omega
  have hfl2 := flagsAt_split c (c.s.take (lcpLen c.s sv)) (c.s.drop (lcpLen c.s sv)) hbne
  have hmis : ¬ c.s.drop (lcpLen c.s sv) <+: sv.drop (lcpLen c.s sv) := by
    intro h
    apply hnotpre
    have h2 := (List.prefix_append_right_inj (c.s.take (lcpLen c.s sv))).2 h
    rwa [hab, hsvab] at h2
  have hres1t : r1.res = true := by
    rw [hres1, hfl2]
    by_cases h0 : sv.drop (lcpLen c.s sv) = []
    · simp [h0]
    · simp [h0, hmis]
  obtain ⟨hwf1, hs1, hfl1⟩ := hpost1 hres1t
  simp only [Node.s_mk] at hs1
  have hfind : ∀ p : List Char, p.head? = sv.head? →
      List.find? (fun c => c.s.head? == p.head?) cs = some c := by
    intro p hh
    rw [hcs]
    exact find_mid pre post c p (fun b hb => by rw [hh]; exact hpre b hb) (by rw [hh]; exact hc)
  have hold : ∀ p : List Char, p ≠ [] → p.head? = sv.head? → (Node.mk s tw tc cs).flagsAt p
      = if c.s <+: p then c.flagsAt (p.drop c.s.length) else (false, 0) := by
    intro p hp hh
    rw [Node.flagsAt_cons _ p hp]
    simp only [Node.childNodes_mk, hfind p hh]
  rw [Node.insert]
  simp only [hsv, if_false, hfbp, he, if_true, Node.childNodes_mk, Node.s_mk,
    Node.terminalWord_mk, Node.terminalCount_mk, Iter.remove, hemp, hemp3, Iter.put,
    List.nil_append, hr1]
  refine ⟨_, rfl, ?_⟩
  refine ⟨?_, ?_, fun _ => ⟨?_, rfl, ?_⟩⟩
  · simp [hres1t, hold sv hsv rfl, hnotpre]
  · simp [hres1t]
  · refine (Node.wf_iff _ _ _ _).2 ⟨?_, ?_, ?_⟩
    · intro x hx
      simp at hx
      rcases hx with rfl | hx | hx
      · rw [hs1]; exact hane
      · exact hne x (by simp [hcs, hx])
      · exact hne x (by simp [hcs, hx])
    · rw [List.pairwise_cons]
      refine ⟨?_, hpw2⟩
      intro x hx
      rw [hs1, hahead]
      exact fun h => hother x hx h.symm
    · intro x hx
      simp at hx
      rcases hx with rfl | hx | hx
      · exact hwf1
      · exact hwfc x (by simp [hcs, hx])
      · exact hwfc x (by simp [hcs, hx])
  · intro p
    by_cases hp : p = []
    · subst hp
      have : ([] : List Char) ≠ sv := fun h => hsv h.symm
      simp [this, Node.flagsAt_nil]
    · by_cases hh : p.head? = sv.head?
      · rw [hold p hp hh, Node.flagsAt_cons _ p hp]
        have h1 : (r1.node.s.head? == p.head?) = true := by
          rw [hs1, hahead, hc, hh]
          simp
        simp only [Node.childNodes_mk, List.find?_cons, h1]
        simp only [hs1, halen]
        by_cases hpa : c.s.take (lcpLen c.s sv) <+: p
        · simp only [hpa, if_true]
          rw [hfl1, hfl2]
          have hsva : c.s.take (lcpLen c.s sv) <+: sv := ⟨_, hsvab⟩
          have hiff := prefix_drop_eq _ p sv hpa hsva
          rw [halen] at hiff
          simp only [hiff]
          obtain ⟨q, rfl⟩ := hpa
          have hdrop : List.drop (lcpLen c.s sv) (c.s.take (lcpLen c.s sv) ++ q) = q := by
            rw [← halen]
            simp
          have hcpre : c.s <+: c.s.take (lcpLen c.s sv) ++ q
              ↔ c.s.drop (lcpLen c.s sv) <+: q := by
            have h2 : c.s.take (lcpLen c.s sv) ++ c.s.drop (lcpLen c.s sv)
                <+: c.s.take (lcpLen c.s sv) ++ q ↔ c.s.drop (lcpLen c.s sv) <+: q :=
              List.prefix_append_right_inj (c.s.take (lcpLen c.s sv))
            rwa [hab] at h2
          have hdrop2 : List.drop c.s.length (c.s.take (lcpLen c.s sv) ++ q)
              = List.drop (c.s.drop (lcpLen c.s sv)).length q := by
            have : c.s.length = (c.s.take (lcpLen c.s sv)).length
                + (c.s.drop (lcpLen c.s sv)).length := by
              rw [← List.length_append, hab]
            rw [this, ← List.drop_drop]
            simp
          simp only [hdrop, hcpre, hdrop2]
          by_cases hq : q = []
          · subst hq
            have : ¬ c.s.drop (lcpLen c.s sv) <+: [] := by
              simpa using hbne
            simp [this]
          · simp [hq]
        · have hne2 : p ≠ sv := by
            rintro rfl
            exact hpa ⟨_, hsvab⟩
          have hne3 : ¬ c.s <+: p := by
            intro h
            apply hpa
            exact List.IsPrefix.trans ⟨_, hab⟩ h
          simp [hpa, hne2, hne3]
      · have hne2 : p ≠ sv := by
          rintro rfl
          exact hh rfl
        simp only [hne2, if_false]
        rw [Node.flagsAt_cons _ p hp, Node.flagsAt_cons _ p hp]
        have h1 : (r1.node.s.head? == p.head?) = false := by
          rw [hs1, hahead, hc]
          simp
          exact fun h => hh h.symm
        simp only [Node.childNodes_mk, List.find?_cons, h1, hcs]
        rw [find_skip pre post c p (by rw [hc]; exact fun h => hh h.symm)]

/-- The private `insert` pass on a well-formed subtree returns, fails exactly on a word
pass that ends on a node already flagged as a word (and then changes nothing), and
otherwise increments the flags at the target path and leaves all other flags alone. -/
theorem Node.insert_pass_spec (isWord : Bool) (fuel : Nat) :
    ∀ (node : Node) (sv : List Char) (size wc : Nat), sv.length < fuel → node.WF →
      ∃ r, Node.insert fuel node sv isWord size wc = some r
        ∧ InsertPost node sv isWord size wc r := by
  induction fuel with
  | zero => intro node sv size wc hf; omega
  | succ fuel ih =>
    intro node sv size wc hf hwf
    by_cases hsv : sv = []
    · subst hsv
      exact insert_spec_nil fuel node isWord size wc hwf
    · cases node with
      | mk s tw tc cs =>
        rcases Node.fbp_cases (Node.mk s tw tc cs) sv hsv with
          ⟨h, -, hnone⟩ | ⟨pre, c, post, hcs, hpre, hc, h, -⟩
        · exact insert_spec_new fuel s tw tc cs sv isWord size wc ih hf hsv hwf h hnone
        · by_cases he : lcpLen c.s sv < c.s.length
          · exact insert_spec_split fuel s tw tc cs sv isWord size wc ih hf hsv hwf
              pre post c hcs hpre hc h he
          · exact insert_spec_full fuel s tw tc cs sv isWord size wc ih hf hsv hwf
              pre post c hcs hpre hc h he

theorem erase_spec_nil (fuel : Nat) (node : Node) (isWord : Bool) (size wc : Nat)
    (hwf : node.WF) :
    ∃ r, Node.erase (fuel + 1) node [] isWord size wc = some r
      ∧ ErasePost node [] isWord size wc r := by
  cases node with
  | mk s tw tc cs =>
  have hfl : ∀ (tw2 : Bool) (tc2 : Int) (p : List Char), p ≠ [] →
      (Node.mk s tw2 tc2 cs).flagsAt p = (Node.mk s tw tc cs).flagsAt p := by
    intro tw2 tc2 p hp
    rw [Node.flagsAt_cons _ p hp, Node.flagsAt_cons _ p hp]
    rfl
  cases isWord with
  | true =>
    cases tw with
    | false =>
      simp only [Node.erase, if_true, Node.terminalWord_mk, Bool.not_false]
      refine ⟨_, rfl, ?_⟩
      simp [ErasePost, Node.flagsAt_nil]
    | true =>
      simp only [Node.erase, if_true, Node.terminalWord_mk, Bool.not_true,
        Bool.false_eq_true, if_false]
      refine ⟨_, rfl, ?_⟩
      refine ⟨by simp [Node.flagsAt_nil], by simp, fun _ => ⟨?_, rfl, ?_⟩⟩
      · exact Node.wf_congr (Node.mk s _ tc cs) _ rfl hwf
      · intro p
        by_cases hp : p = []
        · subst hp
          simp [Node.flagsAt_nil]
        · intro h
          have h' := hfl false (intDec tc) p hp
          simp only [Node.s_mk, Node.terminalCount_mk, Node.childNodes_mk] at h
          rw [h'] at h
          exact ⟨h, fun h2 => hp h2.2⟩
  | false =>
    simp only [Node.erase, if_true, Bool.false_eq_true, if_false, Node.terminalWord_mk]
    refine ⟨_, rfl, ?_⟩
    refine ⟨by simp [Node.get_nil], by simp, fun _ => ⟨?_, rfl, ?_⟩⟩
    · exact Node.wf_congr (Node.mk s _ tc cs) _ rfl hwf
    · intro p
      by_cases hp : p = []
      · subst hp
        simp [Node.flagsAt_nil]
      · intro h
        have h' := hfl tw (intDec tc) p hp
        simp only [Node.s_mk, Node.terminalCount_mk, Node.childNodes_mk] at h
        rw [h'] at h
        exact ⟨h, by simp⟩

theorem flagsAt_leaf (a : List Char) (tw : Bool) (tc : Int) (q : List Char) :
    (Node.mk a tw tc []).flagsAt q = if q = [] then (tw, tc) else (false, 0) := by
  by_cases hq : q = []
  · subst hq
    simp [Node.flagsAt_nil]
  · simp only [hq, if_false]
    rw [Node.flagsAt_cons _ q hq]
    simp

theorem erase_spec_cons (fuel : Nat) (s : List Char) (tw : Bool) (tc : Int)
    (cs : List Node) (sv : List Char) (isWord : Bool) (size wc : Nat)
    (ih : ∀ (node : Node) (sv : List Char) (size wc : Nat), sv.length < fuel → node.WF →
      ∃ r, Node.erase fuel node sv isWord size wc = some r
        ∧ ErasePost node sv isWord size wc r)
    (hf : sv.length < fuel + 1) (hsv : sv ≠ []) (hwf : (Node.mk s tw tc cs).WF)
    (pre post : List Node) (c : Node) (hcs : cs = pre ++ c :: post)
    (hpre : ∀ b ∈ pre, b.s.head? ≠ sv.head?) (hc : c.s.head? = sv.head?)
    (hfbp : (Node.mk s tw tc cs).findByDeterminingPrefix sv
      = some (⟨pre, c, post⟩, lcpLen c.s sv))
    (he : ¬ lcpLen c.s sv < c.s.length) :
    ∃ r, Node.erase (fuel + 1) (Node.mk s tw tc cs) sv isWord size wc = some r
      ∧ ErasePost (Node.mk s tw tc cs) sv isWord size wc r := by
  obtain ⟨hne, hpw, hwfc⟩ := (Node.wf_iff _ _ _ _).1 hwf
  have hlen : 0 < sv.length := List.length_pos.2 hsv
  have hpos := lcpLen_pos c.s sv hsv hc
  have hle := lcpLen_le_left c.s sv
  have hpfx : c.s <+: sv := (lcpLen_ge_iff c.s sv).1 (by omega)
  have heq : lcpLen c.s sv = c.s.length := by omega
  have hcmem : c ∈ cs := by simp [hcs]
  obtain ⟨hpw2, hother⟩ := pairwise_mid pre post c (hcs ▸ hpw)
  obtain ⟨r1, hr1, hres1, hfail1, hpost1⟩ :=
    ih c (sv.drop c.s.length) size wc (by simp; omega) (hwfc c hcmem)
  have hfind : ∀ p : List Char, p.head? = sv.head? →
      List.find? (fun c => c.s.head? == p.head?) cs = some c := by
    intro p hh
    rw [hcs]
    exact find_mid pre post c p (fun b hb => by rw [hh]; exact hpre b hb) (by rw [hh]; exact hc)
  have hold : ∀ p : List Char, p ≠ [] → p.head? = sv.head? → (Node.mk s tw tc cs).flagsAt p
      = if c.s <+: p then c.flagsAt (p.drop c.s.length) else (false, 0) := by
    intro p hp hh
    rw [Node.flagsAt_cons _ p hp]
    simp only [Node.childNodes_mk, hfind p hh]
  have hget : (Node.mk s tw tc cs).get sv = c.get (sv.drop c.s.length) := by
    rw [Node.get_cons _ sv hsv]
    simp only [Node.childNodes_mk, hfind sv rfl, hpfx, if_true]
  -- the result flag
  have hresult : r1.res = (if isWord then ((Node.mk s tw tc cs).flagsAt sv).1
      else ((Node.mk s tw tc cs).get sv).isSome) := by
    rw [hres1, hold sv hsv rfl, hget]
    simp only [hpfx, if_true]
  -- flags of the parent outside of the subtree of `c` do not depend on that subtree
  have hskip : ∀ (l : List Node) (p : List Char), p ≠ [] → p.head? ≠ sv.head? →
      List.find? (fun c => c.s.head? == p.head?) l
        = List.find? (fun c => c.s.head? == p.head?) (pre ++ post) →
      (Node.mk s tw tc l).flagsAt p = (Node.mk s tw tc cs).flagsAt p := by
    intro l p hp hh hl
    rw [Node.flagsAt_cons _ p hp, Node.flagsAt_cons _ p hp]
    simp only [Node.childNodes_mk, hl, hcs]
    rw [find_skip pre post c p (by rw [hc]; exact fun h => hh h.symm)]
  -- the three shapes of the parent after the cleanup
  have hput : ∀ c2 : Node, c2.WF → c2.s = c.s →
      (∀ q, (c2.flagsAt q).1 = true →
        (c.flagsAt q).1 = true ∧ ¬ (isWord = true ∧ q = sv.drop c.s.length)) →
      (Node.mk s tw tc (pre ++ c2 :: post)).WF ∧
      ∀ p, ((Node.mk s tw tc (pre ++ c2 :: post)).flagsAt p).1 = true →
        ((Node.mk s tw tc cs).flagsAt p).1 = true ∧ ¬ (isWord = true ∧ p = sv) := by
    intro c2 hwf2 hs2 hmono
    constructor
    · refine (Node.wf_iff _ _ _ _).2 ⟨?_, ?_, ?_⟩
      · intro x hx
        simp at hx
        rcases hx with hx | rfl | hx
        · exact hne x (by simp [hcs, hx])
        · rw [hs2]; exact hne c hcmem
        · exact hne x (by simp [hcs, hx])
      · exact pairwise_put pre post c c2 (by rw [hs2]) (hcs ▸ hpw)
      · intro x hx
        simp at hx
        rcases hx with hx | rfl | hx
        · exact hwfc x (by simp [hcs, hx])
        · exact hwf2
        · exact hwfc x (by simp [hcs, hx])
    · intro p
      by_cases hp : p = []
      · subst hp
        intro h
        exact ⟨by simpa [Node.flagsAt_nil] using h, fun h2 => hsv h2.2.symm⟩
      · by_cases hh : p.head? = sv.head?
        · rw [hold p hp hh, Node.flagsAt_cons _ p hp]
          have h1 : List.find? (fun c => c.s.head? == p.head?)
              (Node.mk s tw tc (pre ++ c2 :: post)).childNodes = some c2 :=
            find_mid pre post c2 p (fun b hb => by rw [hh]; exact hpre b hb)
              (by rw [hs2, hh]; exact hc)
          simp only [h1, hs2]
          by_cases hpp : c.s <+: p
          · simp only [hpp, if_true]
            intro h
            obtain ⟨h2, h3⟩ := hmono _ h
            refine ⟨h2, fun h4 => h3 ⟨h4.1, ?_⟩⟩
            rw [h4.2]
          · simp [hpp]
        · intro h
          rw [hskip _ p hp hh (find_skip pre post c2 p
            (by rw [hs2, hc]; exact fun h => hh h.symm))] at h
          exact ⟨h, fun h2 => hh (by rw [h2.2])⟩
  have hremove : (Node.mk s tw tc (pre ++ post)).WF ∧
      ∀ p, ((Node.mk s tw tc (pre ++ post)).flagsAt p).1 = true →
        ((Node.mk s tw tc cs).flagsAt p).1 = true ∧ ¬ (isWord = true ∧ p = sv) := by
    constructor
    · refine (Node.wf_iff _ _ _ _).2 ⟨?_, hpw2, ?_⟩
      · intro x hx
        simp at hx
        rcases hx with hx | hx
        · exact hne x (by simp [hcs, hx])
        · exact hne x (by simp [hcs, hx])
      · intro x hx
        simp at hx
        rcases hx with hx | hx
        · exact hwfc x (by simp [hcs, hx])
        · exact hwfc x (by simp [hcs, hx])
    · intro p
      by_cases hp : p = []
      · subst hp
        intro h
        exact ⟨by simpa [Node.flagsAt_nil] using h, fun h2 => hsv h2.2.symm⟩
      · by_cases hh : p.head? = sv.head?
        · rw [Node.flagsAt_cons _ p hp]
          have h1 : List.find? (fun c => c.s.head? == p.head?)
              (Node.mk s tw tc (pre ++ post)).childNodes = none :=
            find_none _ p (fun b hb => by rw [hh, ← hc]; exact hother b hb)
          rw [h1]
          simp
        · intro h
          rw [hskip _ p hp hh rfl] at h
          exact ⟨h, fun h2 => hh (by rw [h2.2])⟩
  have hmerge : ∀ g : Node, r1.res = true → r1.node.childNodes = [g] →
      (Node.mk s tw tc (Node.mk (r1.node.s ++ g.s) g.terminalWord g.terminalCount []
        :: (pre ++ post))).WF ∧
      ∀ p, ((Node.mk s tw tc (Node.mk (r1.node.s ++ g.s) g.terminalWord g.terminalCount []
        :: (pre ++ post))).flagsAt p).1 = true →
        ((Node.mk s tw tc cs).flagsAt p).1 = true ∧ ¬ (isWord = true ∧ p = sv) := by
    intro g hres hg
    obtain ⟨hwf1, hs1, hfl1⟩ := hpost1 hres
    obtain ⟨hne1, -, -⟩ := Node.wf_children r1.node hwf1
    have hgne : g.s ≠ [] := hne1 g (by simp [hg])
    have hcne : c.s ≠ [] := hne c hcmem
    have hmhead : (r1.node.s ++ g.s).head? = c.s.head? := by
      rw [hs1]
      cases hcs' : c.s with
      | nil => exact absurd hcs' hcne
      | cons x xs => simp
    have hgflag : r1.node.flagsAt g.s = (g.terminalWord, g.terminalCount) := by
      rw [Node.flagsAt_cons _ _ hgne, hg]
      simp [Node.flagsAt_nil]
    constructor
    · refine (Node.wf_iff _ _ _ _).2 ⟨?_, ?_, ?_⟩
      · intro x hx
        simp at hx
        rcases hx with rfl | hx | hx
        · simp [hgne]
        · exact hne x (by simp [hcs, hx])
        · exact hne x (by simp [hcs, hx])
      · rw [List.pairwise_cons]
        refine ⟨?_, hpw2⟩
        intro x hx
        rw [Node.s_mk, hmhead]
        exact fun h => hother x hx h.symm
      · intro x hx
        simp at hx
        rcases hx with rfl | hx | hx
        · exact (Node.wf_iff _ _ _ _).2 (by simp)
        · exact hwfc x (by simp [hcs, hx])
        · exact hwfc x (by simp [hcs, hx])
    · intro p
      by_cases hp : p = []
      · subst hp
        intro h
        exact ⟨by simpa [Node.flagsAt_nil] using h, fun h2 => hsv h2.2.symm⟩
      · by_cases hh : p.head? = sv.head?
        · rw [hold p hp hh, Node.flagsAt_cons _ p hp]
          have h1 : ((r1.node.s ++ g.s).head? == p.head?) = true := by
            rw [hmhead, hc, hh]
            simp
          simp only [Node.childNodes_mk, List.find?_cons, Node.s_mk, h1]
          by_cases hpp : r1.node.s ++ g.s <+: p
          · simp only [hpp, if_true, flagsAt_leaf]
            by_cases hq : List.drop (r1.node.s ++ g.s).length p = []
            · simp only [hq, if_true]
              intro h
              have hpeq : p = c.s ++ g.s := by
                obtain ⟨t, rfl⟩ := hpp
                simp at hq
                rw [hq, hs1]
                simp
              have hcp : c.s <+: p := ⟨g.s, hpeq.symm⟩
              have hdrop : List.drop c.s.length p = g.s := by
                rw [hpeq]
                simp
              obtain ⟨h2, h3⟩ := hfl1 g.s (by rw [hgflag]; exact h)
              simp only [hcp, if_true, hdrop]
              refine ⟨h2, fun h4 => h3 ⟨h4.1, ?_⟩⟩
              rw [← hdrop, h4.2]
            · simp only [hq, if_false]
              simp
          · simp [hpp]
        · intro h
          have h1 : ((r1.node.s ++ g.s).head? == p.head?) = false := by
            rw [hmhead, hc]
            simp
            exact fun h => hh h.symm
          rw [hskip _ p hp hh (by simp only [List.find?_cons, Node.s_mk, h1])] at h
          exact ⟨h, fun h2 => hh (by rw [h2.2])⟩
  have hkeep : r1.res = false →
      Node.mk s tw tc (pre ++ r1.node :: post) = Node.mk s tw tc cs
        ∧ r1.size = size ∧ r1.wordCount = wc := by
    intro hres
    obtain ⟨h1, h2, h3⟩ := hfail1 hres
    simp [h1, h2, h3, hcs]
  have hputfinal : ErasePost (Node.mk s tw tc cs) sv isWord size wc
      ⟨r1.res, Node.mk s tw tc (pre ++ r1.node :: post), r1.size, r1.wordCount⟩ := by
    refine ⟨hresult, fun hres => hkeep hres, fun hres => ?_⟩
    obtain ⟨hwf1, hs1, hfl1⟩ := hpost1 hres
    obtain ⟨h1, h2⟩ := hput r1.node hwf1 hs1 hfl1
    exact ⟨h1, rfl, h2⟩
  rw [Node.erase]
  simp only [hsv, if_false, hfbp, he, heq, lt_self_iff_false, Node.childNodes_mk, Node.s_mk,
    Node.terminalWord_mk, Node.terminalCount_mk, hr1, Iter.remove, Iter.put]
  by_cases hcond : (r1.res && r1.node.terminalCount == 0) = true
  · have hres : r1.res = true := by
      simp at hcond
      exact hcond.1
    simp only [hcond, if_true]
    by_cases hemp : r1.node.childNodes.isEmpty = true
    · simp only [hemp, if_true]
      refine ⟨_, rfl, hresult, fun h => ?_, fun _ => ⟨hremove.1, rfl, hremove.2⟩⟩
      rw [hres] at h
      exact absurd h (by simp)
    · simp only [hemp, Bool.false_eq_true, if_false]
      by_cases hone : (r1.node.childNodes.length == 1) = true
      · simp only [hone, if_true]
        cases hch : r1.node.childNodes with
        | nil => simp [hch] at hemp
        | cons g rest =>
          have hrest : rest = [] := by
            simp [hch] at hone
            exact hone
          subst hrest
          obtain ⟨hm1, hm2⟩ := hmerge g hres hch
          have hfresh : emplace (pre ++ post)
              (Node.mk (r1.node.s ++ g.s) g.terminalWord g.terminalCount [])
              = ⟨[], Node.mk (r1.node.s ++ g.s) g.terminalWord g.terminalCount [],
                  pre ++ post⟩ := by
            apply emplace_fresh
            intro x hx h
            obtain ⟨-, hpwm, -⟩ := (Node.wf_iff _ _ _ _).1 hm1
            rw [List.pairwise_cons] at hpwm
            exact hpwm.1 x hx (by rw [h])
          simp only [hfresh, List.nil_append]
          refine ⟨_, rfl, hresult, fun h => ?_, fun _ => ⟨hm1, rfl, hm2⟩⟩
          rw [hres] at h
          exact absurd h (by simp)
      · simp only [hone, Bool.false_eq_true, if_false]
        exact ⟨_, rfl, hputfinal⟩
  · simp only [hcond, Bool.false_eq_true, if_false]
    exact ⟨_, rfl, hputfinal⟩

/-- The private `erase` pass on a well-formed subtree returns; it succeeds exactly when
the path ends on a node (flagged as a word, for the word pass); a failing pass changes
nothing, and a successful pass flags no new word and unflags the erased one. -/
theorem Node.erase_pass_spec (isWord : Bool) (fuel : Nat) :
    ∀ (node : Node) (sv : List Char) (size wc : Nat), sv.length < fuel → node.WF →
      ∃ r, Node.erase fuel node sv isWord size wc = some r
        ∧ ErasePost node sv isWord size wc r := by
  induction fuel with
  | zero => intro node sv size wc hf; omega
  | succ fuel ih =>
    intro node sv size wc hf hwf
    by_cases hsv : sv = []
    · subst hsv
      exact erase_spec_nil fuel node isWord size wc hwf
    · cases node with
      | mk s tw tc cs =>
        rcases Node.fbp_cases (Node.mk s tw tc cs) sv hsv with
          ⟨h, hfind, -⟩ | ⟨pre, c, post, hcs, hpre, hc, h, hfind⟩
        · rw [Node.erase]
          simp only [hsv, if_false, h]
          refine ⟨_, rfl, ?_, by simp, by simp⟩
          rw [Node.flagsAt_cons _ sv hsv, Node.get_cons _ sv hsv, hfind]
          simp
        · by_cases he : lcpLen c.s sv < c.s.length
          · rw [Node.erase]
            simp only [hsv, if_false, h, he, if_true]
            refine ⟨_, rfl, ?_, by simp, by simp⟩
            have hnp : ¬ c.s <+: sv := fun hp => by
              have := (lcpLen_ge_iff c.s sv).2 hp
              omega
            rw [Node.flagsAt_cons _ sv hsv, Node.get_cons _ sv hsv, hfind]
            simp [hnp]
          · exact erase_spec_cons fuel s tw tc cs sv isWord size wc ih hf hsv hwf
              pre post c hcs hpre hc h he

/-- A failing private `erase` pass leaves the subtree and the counters as they were,
on every tree. -/
theorem Node.erase_fail (isWord : Bool) (fuel : Nat) :
    ∀ (node : Node) (sv : List Char) (size wc : Nat) (r : Pass),
      Node.erase fuel node sv isWord size wc = some r → r.res = false →
      r.node = node ∧ r.size = size ∧ r.wordCount = wc := by
  induction fuel with
  | zero =>
    intro node sv size wc r h
    simp [Node.erase] at h
  | succ fuel ih =>
    intro node sv size wc r h hres
    rw [Node.erase] at h
    by_cases hsv : sv = []
    · subst hsv
      simp only [if_true] at h
      cases isWord with
      | true =>
        by_cases htw : node.terminalWord = true
        · simp [htw] at h
          subst h
          simp at hres
        · simp [htw] at h
          subst h
          simp
      | false =>
        simp at h
        subst h
        simp at hres
    · simp only [hsv, if_false] at h
      rcases Node.fbp_cases node sv hsv with
        ⟨hf, -, -⟩ | ⟨pre, c, post, hcs, -, -, hf, -⟩
      · simp only [hf] at h
        simp at h
        subst h
        simp
      · simp only [hf] at h
        by_cases he : lcpLen c.s sv < c.s.length
        · simp only [he, if_true] at h
          simp at h
          subst h
          simp
        · simp only [he, if_false] at h
          cases hr1 : Node.erase fuel c (List.drop (lcpLen c.s sv) sv) isWord size wc with
          | none => simp [hr1] at h
          | some r1 =>
            simp only [hr1] at h
            by_cases hres1 : r1.res = true
            · exfalso
              by_cases hcond : (r1.res && r1.node.terminalCount == 0) = true
              · simp only [hcond, if_true] at h
                by_cases hemp : r1.node.childNodes.isEmpty = true
                · simp only [hemp, if_true] at h
                  simp at h
                  subst h
                  simp [hres1] at hres
                · simp only [hemp, Bool.false_eq_true, if_false] at h
                  by_cases hone : (r1.node.childNodes.length == 1) = true
                  · simp only [hone, if_true] at h
                    cases hch : r1.node.childNodes with
                    | nil => simp [hch] at h
                    | cons g rest =>
                      simp only [hch] at h
                      simp at h
                      subst h
                      simp [hres1] at hres
                  · simp only [hone, Bool.false_eq_true, if_false] at h
                    simp at h
                    subst h
                    simp [hres1] at hres
              · simp only [hcond, Bool.false_eq_true, if_false] at h
                simp at h
                subst h
                simp [hres1] at hres
            · have hres1f : r1.res = false := by simpa using hres1
              obtain ⟨h1, h2, h3⟩ := ih c _ size wc r1 hr1 hres1f
              simp only [hres1f, Bool.false_and, Bool.false_eq_true, if_false] at h
              simp at h
              subst h
              cases node with
              | mk s tw tc cs =>
                simp at hcs
                simp [h1, h2, h3, Iter.put, hcs]

/-- The recursion budget of `search` is immaterial once it exceeds the length of the
word. -/
theorem Node.search_fuel (f1 f2 : Nat) (node : Node) (w : List Char)
    (h1 : w.length < f1) (h2 : w.length < f2) :
    Node.search f1 node w = Node.search f2 node w := by
  rw [Node.search_eq_walk, Node.search_eq_walk, Node.walk_fuel f1 f2 node w h1 h2]

/-- The recursion budget of `endsWith` is immaterial once it exceeds the length of the
suffix. -/
theorem Node.endsWith_fuel (f1 f2 : Nat) (node : Node) (w : List Char)
    (h1 : w.length < f1) (h2 : w.length < f2) :
    Node.endsWith f1 node w = Node.endsWith f2 node w := by
  rw [Node.endsWith_eq_walk, Node.endsWith_eq_walk, Node.walk_fuel f1 f2 node w h1 h2]

/-- The recursion budget of the private `insert` is immaterial once it exceeds the
length of the string, on every tree. -/
theorem Node.insert_fuel (isWord : Bool) (f1 : Nat) :
    ∀ (f2 : Nat) (node : Node) (sv : List Char) (size wc : Nat),
      sv.length < f1 → sv.length < f2 →
      Node.insert f1 node sv isWord size wc = Node.insert f2 node sv isWord size wc := by
  induction f1 with
  | zero => intro f2 node sv size wc h1; omega
  | succ f1 ih =>
    intro f2 node sv size wc h1 h2
    cases f2 with
    | zero => omega
    | succ f2 =>
      rw [Node.insert, Node.insert]
      by_cases hsv : sv = []
      · simp [hsv]
      · have hlen : 0 < sv.length := List.length_pos.2 hsv
        simp only [hsv, if_false]
        rcases Node.fbp_cases node sv hsv with
          ⟨h, -, -⟩ | ⟨pre, c, post, -, -, hc, h, -⟩
        · simp only [h, List.drop_length]
          rw [ih f2 _ [] _ _ (by simpa using (by omega : 0 < f1))
            (by simpa using (by omega : 0 < f2))]
        · have hpos := lcpLen_pos c.s sv hsv hc
          simp only [h]
          by_cases he : lcpLen c.s sv < c.s.length
          · simp only [he, if_true]
            rw [ih f2 _ (List.drop (lcpLen c.s sv) sv) _ _ (by simp; omega) (by simp; omega)]
          · simp only [he, if_false]
            cases findKey (List.take (lcpLen c.s sv) sv) [] node.childNodes with
            | none => rfl
            | some it2 =>
              simp only []
              rw [ih f2 _ (List.drop (lcpLen c.s sv) sv) _ _ (by simp; omega)
                (by simp; omega)]

/-- The recursion budget of the private `erase` is immaterial once it exceeds the
length of the string, on every tree. -/
theorem Node.erase_fuel (isWord : Bool) (f1 : Nat) :
    ∀ (f2 : Nat) (node : Node) (sv : List Char) (size wc : Nat),
      sv.length < f1 → sv.length < f2 →
      Node.erase f1 node sv isWord size wc = Node.erase f2 node sv isWord size wc := by
  induction f1 with
  | zero => intro f2 node sv size wc h1; omega
  | succ f1 ih =>
    intro f2 node sv size wc h1 h2
    cases f2 with
    | zero => omega
    | succ f2 =>
      rw [Node.erase, Node.erase]
      by_cases hsv : sv = []
      · simp [hsv]
      · have hlen : 0 < sv.length := List.length_pos.2 hsv
        simp only [hsv, if_false]
        rcases Node.fbp_cases node sv hsv with
          ⟨h, -, -⟩ | ⟨pre, c, post, -, -, hc, h, -⟩
        · simp only [h]
        · have hpos := lcpLen_pos c.s sv hsv hc
          simp only [h]
          by_cases he : lcpLen c.s sv < c.s.length
          · simp only [he, if_true]
          · simp only [he, if_false]
            rw [ih f2 _ (List.drop (lcpLen c.s sv) sv) _ _ (by simp; omega) (by simp; omega)]

theorem passCount_shift (a : Char) (w p : List Char) (m : Nat) :
    passCount (a :: w) p (List.range' 1 m) = passCount w p (List.range' 0 m) := by
  have h : List.range' 1 m = List.map (1 + ·) (List.range' 0 m) := by
    rw [List.map_add_range']
  unfold passCount
  rw [h, List.countP_map]
  congr 1
  funext n
  simp [Nat.add_comm 1 n]

theorem passCount_all (w p : List Char) :
    passCount w p (List.range' 0 w.length) = if p ≠ [] ∧ p <:+ w then 1 else 0 := by
  induction w with
  | nil =>
    by_cases hp : p = []
    · simp [passCount, hp]
    · simp [passCount, hp]
  | cons a w ih =>
    have h0 : passCount (a :: w) p (List.range' 0 (a :: w).length)
        = passCount w p (List.range' 0 w.length) + if a :: w = p then 1 else 0 := by
      rw [List.length_cons, List.range'_succ]
      show List.countP _ (0 :: List.range' 1 w.length) = _
      rw [List.countP_cons]
      have := passCount_shift a w p w.length
      unfold passCount at this
      rw [this]
      simp [passCount]
    rw [h0, ih]
    by_cases heq : a :: w = p
    · subst heq
      have : ¬ (a :: w <:+ w) := by
        intro h
        have := h.length_le
        simp at this
      simp [this]
    · have hiff : p <:+ a :: w ↔ p <:+ w := by
        rw [List.suffix_cons_iff]
        constructor
        · rintro (h | h)
          · exact absurd h.symm heq
          · exact h
        · exact Or.inr
      simp [heq, hiff]

theorem CompressedSuffixTree.search_eq_flags (t : CompressedSuffixTree) (w : List Char) :
    t.search w = (t._root.flagsAt w).1 := by
  unfold search Node.flagsAt Node.get
  rw [Node.search_eq_walk]
  cases Node.walk (w.length + 1) t._root w <;> rfl

theorem CompressedSuffixTree.endsWith_eq_flags (t : CompressedSuffixTree) (w : List Char) :
    t.endsWith w = ((!(t._root.flagsAt w).1 && decide ((t._root.flagsAt w).2 > 0))
      || ((t._root.flagsAt w).1 && decide ((t._root.flagsAt w).2 > 1))) := by
  unfold endsWith Node.flagsAt Node.get
  rw [Node.endsWith_eq_walk]
  cases Node.walk (w.length + 1) t._root w <;> simp

/-- The suffix loop of `insert` never trips its assertion on a well-formed tree; it
keeps every word flag and increments each counter once for every pass ending there. -/
theorem CompressedSuffixTree.insertLoop_spec (word : List Char) :
    ∀ (ns : List Nat) (t : CompressedSuffixTree), t._root.WF →
      ∃ t2, insertLoop word ns t = some t2 ∧ t2._root.WF ∧
        ∀ p, t2._root.flagsAt p
          = ((t._root.flagsAt p).1, intInc^[passCount word p ns] (t._root.flagsAt p).2) := by
  intro ns
  induction ns with
  | nil =>
    intro t hwf
    exact ⟨t, rfl, hwf, by simp [passCount]⟩
  | cons n ns ih =>
    intro t hwf
    obtain ⟨r, hr, hres, -, hpost⟩ :=
      Node.insert_pass_spec false ((word.drop n).length + 1) t._root (word.drop n)
        t._size t._wordCount (by omega) hwf
    have hrt : r.res = true := by simpa using hres
    obtain ⟨hwf1, -, hfl1⟩ := hpost hrt
    obtain ⟨t2, ht2, hwf2, hfl2⟩ := ih ⟨r.size, r.wordCount, r.node⟩ hwf1
    refine ⟨t2, ?_, hwf2, ?_⟩
    · simp only [insertLoop, hr, hrt, if_true, ht2]
    · intro p
      rw [hfl2, hfl1]
      by_cases hp : p = List.drop n word
      · subst hp
        simp [bump, passCount, List.countP_cons, Function.iterate_succ_apply]
      · have hp2 : ¬ List.drop n word = p := fun h => hp h.symm
        simp [hp, hp2, passCount, List.countP_cons]

/-- Effect of the public `insert` on a well-formed tree. -/
theorem CompressedSuffixTree.insert_call_spec (t : CompressedSuffixTree) (hwf : t._root.WF) (w : List Char) :
    ∃ t2, t.insert w = some (!(decide (w = []) || t.search w), t2) ∧
      ((decide (w = []) || t.search w) = true → t2 = t) ∧
      ((decide (w = []) || t.search w) = false → t2._root.WF ∧
        ∀ p, t2._root.flagsAt p
          = ((t._root.flagsAt p).1 || decide (p = w),
             if p ≠ [] ∧ p <:+ w then intInc (t._root.flagsAt p).2
             else (t._root.flagsAt p).2)) := by
  by_cases hw : w = []
  · subst hw
    exact ⟨t, by simp [insert], fun _ => rfl, by simp⟩
  · obtain ⟨r, hr, hres, hfail, hpost⟩ :=
      Node.insert_pass_spec true (w.length + 1) t._root w t._size t._wordCount (by omega) hwf
    rw [← search_eq_flags] at hres
    simp only [Bool.true_and] at hres
    by_cases hs : t.search w = true
    · have hrf : r.res = false := by simp [hres, hs]
      obtain ⟨h1, h2, h3⟩ := hfail hrf
      refine ⟨t, ?_, fun _ => rfl, ?_⟩
      · simp only [insert, hw, if_false, hr, hrf, Bool.not_false, if_true, h1, h2, h3]
        simp [hs]
      · simp [hs]
    · have hsf : t.search w = false := by simpa using hs
      have hrt : r.res = true := by simp [hres, hsf]
      obtain ⟨hwf1, -, hfl1⟩ := hpost hrt
      obtain ⟨t2, ht2, hwf2, hfl2⟩ :=
        insertLoop_spec w (List.range' 1 (w.length - 1)) ⟨r.size, r.wordCount, r.node⟩ hwf1
      refine ⟨t2, ?_, ?_, fun _ => ⟨hwf2, ?_⟩⟩
      · simp only [insert, hw, if_false, hr, hrt, Bool.not_true, Bool.false_eq_true, ht2]
        simp [hw, hsf]
      · simp [hw, hsf]
      · intro p
        rw [hfl2, hfl1]
        cases w with
        | nil => exact absurd rfl hw
        | cons a w =>
          have hcount := passCount_all (a :: w) p
          rw [List.length_cons, List.range'_succ] at hcount
          simp only [passCount, List.countP_cons] at hcount
          have hshift : passCount (a :: w) p (List.range' 1 ((a :: w).length - 1))
              = List.countP (fun n => decide (List.drop n (a :: w) = p))
                  (List.range' (0 + 1) w.length) := by
            simp [passCount]
          rw [hshift]
          by_cases hp : p = a :: w
          · subst hp
            have hsuf : (a :: w) ≠ [] ∧ (a :: w) <:+ (a :: w) :=
              ⟨by simp, List.suffix_refl _⟩
            simp only [List.drop_zero, decide_True, if_true, if_pos hsuf] at hcount
            have hz : List.countP (fun n => decide (List.drop n (a :: w) = a :: w))
                (List.range' (0 + 1) w.length) = 0 := by omega
            simp only [if_true, bump, Bool.or_true, decide_True, hz, Function.iterate_zero,
              id_eq, if_pos hsuf]
          · have hp2 : ¬ a :: w = p := fun h => hp h.symm
            simp only [hp, if_false, decide_False, Bool.or_false]
            simp only [List.drop_zero, hp2, decide_False, Bool.false_eq_true, if_false,
              Nat.add_zero] at hcount
            rw [hcount]
            split <;> simp

/-- The suffix loop of `erase`, when it completes, keeps the tree well-formed and flags
no new word. -/
theorem CompressedSuffixTree.eraseLoop_spec (word : List Char) :
    ∀ (ns : List Nat) (t t2 : CompressedSuffixTree), t._root.WF →
      eraseLoop word ns t = some t2 →
      t2._root.WF ∧ ∀ p, t2.search p = true → t.search p = true := by
  intro ns
  induction ns with
  | nil =>
    intro t t2 hwf h
    simp only [eraseLoop, Option.some.injEq] at h
    subst h
    exact ⟨hwf, fun p hp => hp⟩
  | cons n ns ih =>
    intro t t2 hwf h
    obtain ⟨r, hr, -, -, hpost⟩ :=
      Node.erase_pass_spec false ((word.drop n).length + 1) t._root (word.drop n)
        t._size t._wordCount (by omega) hwf
    simp only [eraseLoop, hr] at h
    by_cases hres : r.res = true
    · simp only [hres, if_true] at h
      obtain ⟨hwf1, -, hfl1⟩ := hpost hres
      obtain ⟨hwf2, hmono⟩ := ih ⟨r.size, r.wordCount, r.node⟩ t2 hwf1 h
      refine ⟨hwf2, fun p hp => ?_⟩
      have h1 := hmono p hp
      rw [search_eq_flags] at h1 ⊢
      exact (hfl1 p h1).1
    · simp [hres] at h

/-- Effect of the public `erase` on a well-formed tree, when the call returns. -/
theorem CompressedSuffixTree.erase_call_spec (t : CompressedSuffixTree) (hwf : t._root.WF) (w : List Char)
    (b : Bool) (t2 : CompressedSuffixTree) (h : t.erase w = some (b, t2)) :
    b = (!decide (w = []) && t.search w) ∧ (b = false → t2 = t) ∧
      (b = true →
        t2._root.WF ∧ ∀ p, t2.search p = true → t.search p = true ∧ p ≠ w) := by
  by_cases hw : w = []
  · subst hw
    simp only [erase, if_true, Option.some.injEq, Prod.mk.injEq] at h
    obtain ⟨rfl, rfl⟩ := h
    simp
  · obtain ⟨r, hr, hres, hfail, hpost⟩ :=
      Node.erase_pass_spec true (w.length + 1) t._root w t._size t._wordCount (by omega) hwf
    rw [← search_eq_flags] at hres
    simp only [if_true] at hres
    simp only [erase, hw, if_false, hr] at h
    by_cases hrt : r.res = true
    · simp only [hrt, Bool.not_true, Bool.false_eq_true, if_false] at h
      obtain ⟨hwf1, -, hfl1⟩ := hpost hrt
      cases hl : eraseLoop w (List.range' 1 (w.length - 1)) ⟨r.size, r.wordCount, r.node⟩ with
      | none => simp [hl] at h
      | some t3 =>
        simp only [hl, Option.some.injEq, Prod.mk.injEq] at h
        obtain ⟨rfl, rfl⟩ := h
        obtain ⟨hwf3, hmono⟩ := eraseLoop_spec w _ _ _ hwf1 hl
        refine ⟨by simp [hw, ← hres, hrt], by simp, fun _ => ⟨hwf3, fun p hp => ?_⟩⟩
        have h1 := hmono p hp
        rw [search_eq_flags] at h1 ⊢
        obtain ⟨h2, h3⟩ := hfl1 p h1
        exact ⟨h2, fun h4 => h3 ⟨rfl, h4⟩⟩
    · have hrf : r.res = false := by simpa using hrt
      obtain ⟨h1, h2, h3⟩ := hfail hrf
      simp only [hrf, Bool.not_false, if_true, Option.some.injEq, Prod.mk.injEq, h1, h2,
        h3] at h
      obtain ⟨rfl, rfl⟩ := h
      refine ⟨by simp [hw, ← hres, hrf], fun _ => rfl, by simp⟩

theorem CompressedSuffixTree.new_wf : new._root.WF :=
  (Node.wf_iff _ _ _ _).2 (by simp)

/-- Every call of the public interface keeps the tree well-formed. -/
theorem Op.apply_wf (t : CompressedSuffixTree) (hwf : t._root.WF) (op : Op) (b : Bool)
    (t2 : CompressedSuffixTree) (h : op.apply t = some (b, t2)) : t2._root.WF := by
  cases op with
  | insert w =>
    obtain ⟨t3, h3, hsame, hnew⟩ := CompressedSuffixTree.insert_call_spec t hwf w
    simp only [Op.apply, h3, Option.some.injEq, Prod.mk.injEq] at h
    obtain ⟨-, rfl⟩ := h
    by_cases hc : (decide (w = []) || t.search w) = true
    · rw [hsame hc]; exact hwf
    · exact (hnew (by simpa using hc)).1
  | erase w =>
    obtain ⟨-, hsame, hnew⟩ := CompressedSuffixTree.erase_call_spec t hwf w b t2 h
    cases b with
    | false => rw [hsame rfl]; exact hwf
    | true => exact (hnew rfl).1

theorem exec_wf (ops : List Op) :
    ∀ (t : CompressedSuffixTree) (bs : List Bool) (t2 : CompressedSuffixTree),
      t._root.WF → exec ops t = some (bs, t2) → t2._root.WF := by
  induction ops with
  | nil =>
    intro t bs t2 hwf h
    simp only [exec, Option.some.injEq, Prod.mk.injEq] at h
    rw [← h.2]; exact hwf
  | cons op ops ih =>
    intro t bs t2 hwf h
    simp only [exec] at h
    cases h1 : op.apply t with
    | none => simp [h1] at h
    | some x =>
      obtain ⟨b, t1⟩ := x
      simp only [h1] at h
      cases h2 : exec ops t1 with
      | none => simp [h2] at h
      | some y =>
        obtain ⟨bs2, t3⟩ := y
        simp only [h2, Option.some.injEq, Prod.mk.injEq] at h
        rw [← h.2]
        exact ih t1 bs2 t3 (Op.apply_wf t hwf op b t1 h1) h2

theorem Reachable.wf (t : CompressedSuffixTree) (h : Reachable t) : t._root.WF := by
  obtain ⟨ops, bs, h⟩ := h
  exact exec_wf ops _ bs t CompressedSuffixTree.new_wf h

theorem represents_new : Represents CompressedSuffixTree.new [] := by
  refine ⟨CompressedSuffixTree.new_wf, List.nodup_nil, by simp, ?_⟩
  intro p
  by_cases hp : p = []
  · subst hp
    simp [Node.flagsAt_nil, CompressedSuffixTree.new, wrapInt_zero]
  · rw [Node.flagsAt_cons _ p hp]
    simp [CompressedSuffixTree.new, wrapInt_zero]

theorem represents_insert (t : CompressedSuffixTree) (A : List (List Char))
    (h : Represents t A) (w : List Char) :
    ∃ b t2 A2, t.insert w = some (b, t2) ∧ Represents t2 A2
      ∧ ∀ x, x ∈ A2 ↔ x ∈ A ∨ (x = w ∧ x ≠ []) := by
  obtain ⟨hwf, hnd, hne, hfl⟩ := h
  obtain ⟨t2, ht2, hsame, hnew⟩ := CompressedSuffixTree.insert_call_spec t hwf w
  have hsearch : t.search w = decide (w ∈ A) := by
    rw [CompressedSuffixTree.search_eq_flags, hfl]
  by_cases hc : (decide (w = []) || t.search w) = true
  · refine ⟨_, t2, A, ht2, ?_, ?_⟩
    · rw [hsame hc]
      exact ⟨hwf, hnd, hne, hfl⟩
    · intro x
      constructor
      · exact Or.inl
      · rintro (hx | ⟨rfl, hx⟩)
        · exact hx
        · simp [hx, hsearch] at hc
          exact hc
  · have hcf : (decide (w = []) || t.search w) = false := by simpa using hc
    obtain ⟨hwf2, hfl2⟩ := hnew hcf
    have hw : w ≠ [] := by
      intro h
      simp [h] at hcf
    have hwA : w ∉ A := by
      intro h
      simp [hsearch, h] at hcf
    refine ⟨_, t2, w :: A, ht2, ⟨hwf2, List.nodup_cons.2 ⟨hwA, hnd⟩, ?_, ?_⟩, ?_⟩
    · intro x hx
      rw [List.mem_cons] at hx
      rcases hx with rfl | hx
      · exact hw
      · exact hne x hx
    · intro p
      rw [hfl2, hfl, List.countP_cons]
      rw [Prod.mk.injEq]
      constructor
      · by_cases hp : p = w
        · simp [hp]
        · simp [hp]
      · by_cases hp : p ≠ [] ∧ p <:+ w
        · simp [hp, intInc_wrapInt]
        · simp [hp]
    · intro x
      rw [List.mem_cons]
      constructor
      · rintro (rfl | hx)
        · exact Or.inr ⟨rfl, hw⟩
        · exact Or.inl hx
      · rintro (hx | ⟨rfl, -⟩)
        · exact Or.inr hx
        · exact Or.inl rfl

theorem represents_insertAll (W : List (List Char)) :
    ∀ (t : CompressedSuffixTree) (A : List (List Char)), Represents t A →
      ∃ t2 A2, CompressedSuffixTree.insertAll W t = some t2 ∧ Represents t2 A2
        ∧ ∀ x, x ∈ A2 ↔ x ∈ A ∨ (x ∈ W ∧ x ≠ []) := by
  induction W with
  | nil =>
    intro t A h
    exact ⟨t, A, rfl, h, by simp⟩
  | cons w W ih =>
    intro t A h
    obtain ⟨b, t1, A1, h1, hr1, hm1⟩ := represents_insert t A h w
    obtain ⟨t2, A2, h2, hr2, hm2⟩ := ih t1 A1 hr1
    refine ⟨t2, A2, ?_, hr2, ?_⟩
    · simp only [CompressedSuffixTree.insertAll, h1, h2]
    · intro x
      rw [hm2, hm1, List.mem_cons]
      constructor
      · rintro ((hx | ⟨rfl, hx⟩) | ⟨hx, hx2⟩)
        · exact Or.inl hx
        · exact Or.inr ⟨Or.inl rfl, hx⟩
        · exact Or.inr ⟨Or.inr hx, hx2⟩
      · rintro (hx | ⟨rfl | hx, hx2⟩)
        · exact Or.inl (Or.inl hx)
        · exact Or.inl (Or.inr ⟨rfl, hx2⟩)
        · exact Or.inr ⟨hx, hx2⟩

theorem reachable_stateAB : Reachable stateAB :=
  ⟨[.insert ['a'], .insert ['a', 'b']], [true, true], rfl⟩

theorem reachable_stateCAB : Reachable stateCAB :=
  ⟨[.insert ['a'], .insert ['a', 'b'], .insert ['c', 'a', 'b']], [true, true, true], rfl⟩

/-- After a public `insert` that returns true the tree is well-formed and the stored
words are the old ones and the new word. -/
theorem CompressedSuffixTree.insert_true_effect (t : CompressedSuffixTree)
    (hwf : t._root.WF) (w : List Char) (t2 : CompressedSuffixTree)
    (hi : t.insert w = some (true, t2)) :
    t2._root.WF ∧ ∀ v, t2.search v = (decide (v = w) || t.search v) := by
  obtain ⟨t3, h3, -, hnew⟩ := CompressedSuffixTree.insert_call_spec t hwf w
  rw [hi] at h3
  simp only [Option.some.injEq, Prod.mk.injEq] at h3
  obtain ⟨hb, rfl⟩ := h3
  have hc : (decide (w = []) || t.search w) = false := by
    cases hcc : (decide (w = []) || t.search w)
    · rfl
    · rw [hcc] at hb
      simp at hb
  obtain ⟨hwf2, hfl⟩ := hnew hc
  refine ⟨hwf2, fun v => ?_⟩
  rw [search_eq_flags, search_eq_flags, hfl, Bool.or_comm]

/-- Claim C1, evaluated on the calls `insert("a")`, `insert("ab")`, `insert("abc")`,
`erase("a")`: all four return true, so "abc" was inserted and never erased, and
`search("abc")` is false afterwards (the contraction of "a" with its child "b" dropped
the subtree of "b"). -/
theorem search_loses_word_after_contraction :
    (exec [.insert ['a'], .insert ['a', 'b'], .insert ['a', 'b', 'c'], .erase ['a']]
        CompressedSuffixTree.new).map (fun r => (r.1, r.2.search ['a', 'b', 'c']))
      = some ([true, true, true, true], false) := by
  decide

/-- Claim C2, evaluated on the index built by `insert("ab")`, `insert("abc")` and the
word "a": `search("a")` is false, `insert("a")` and `erase("a")` both return true, size
and word count are as before, and the resulting index does not compare equal to the
original one (the word "abc" is gone). -/
theorem erase_does_not_undo_insert :
    ofList [['a', 'b'], ['a', 'b', 'c']] = some stateABC ∧
      stateABC.search ['a'] = false ∧
      stateABC.insert ['a'] = some (true, stateABCwithA) ∧
      stateABCwithA.erase ['a'] = some (true, stateABCundone) ∧
      stateABCundone.eq stateABC = false ∧
      stateABCundone.size = stateABC.size ∧
      stateABCundone.wordCount = stateABC.wordCount ∧
      stateABC.search ['a', 'b', 'c'] = true ∧
      stateABCundone.search ['a', 'b', 'c'] = false :=
  ⟨rfl, by decide, rfl, rfl, by decide, by decide, by decide, by decide, by decide⟩

/-- Claim C3: in every reachable state `insert(w)` returns, and it returns false exactly
when `w` is empty or `search(w)` is true before the call. -/
theorem insert_returns_false_iff (t : CompressedSuffixTree) (h : Reachable t)
    (w : List Char) :
    ∃ t2, t.insert w = some (!(decide (w = []) || t.search w), t2) := by
  obtain ⟨t2, h2, -, -⟩ := CompressedSuffixTree.insert_call_spec t (Reachable.wf t h) w
  exact ⟨t2, h2⟩

theorem insert_returns_false_iff_witness :
    Reachable stateAB ∧
      ∃ t2, stateAB.insert ['a', 'b']
        = some (!(decide (['a', 'b'] = []) || stateAB.search ['a', 'b']), t2) :=
  ⟨reachable_stateAB, insert_returns_false_iff stateAB reachable_stateAB ['a', 'b']⟩

/-- Claim C4, evaluated on the calls `insert("a")`, `insert("ab")`, `insert("cabc")`,
`erase("a")`: in the state they reach `search("cabc")` is true and `erase("cabc")` trips
the assertion on the result of a suffix pass instead of returning true. -/
theorem erase_trips_assertion :
    (exec [.insert ['a'], .insert ['a', 'b'], .insert ['c', 'a', 'b', 'c'], .erase ['a']]
        CompressedSuffixTree.new).map
      (fun r => (r.1, r.2.search ['c', 'a', 'b', 'c'],
        (r.2.erase ['c', 'a', 'b', 'c']).isNone))
      = some ([true, true, true, true], true, true) := by
  decide

/-- Claim C5: in every reachable state, after an `insert(w)` that returns true,
`search(v)` is true exactly when `v = w` or `search(v)` was true before the call. -/
theorem search_after_insert (t : CompressedSuffixTree) (h : Reachable t) (w : List Char)
    (t2 : CompressedSuffixTree) (hi : t.insert w = some (true, t2)) (v : List Char) :
    t2.search v = (decide (v = w) || t.search v) :=
  (CompressedSuffixTree.insert_true_effect t (Reachable.wf t h) w t2 hi).2 v

theorem search_after_insert_witness :
    Reachable stateAB ∧ stateAB.insert ['c', 'a', 'b'] = some (true, stateCAB) ∧
      stateCAB.search ['a', 'b']
        = (decide (['a', 'b'] = ['c', 'a', 'b']) || stateAB.search ['a', 'b']) :=
  ⟨reachable_stateAB, rfl,
    search_after_insert stateAB reachable_stateAB ['c', 'a', 'b'] stateCAB rfl ['a', 'b']⟩

/-- Claim C6: in every reachable state, after an `erase(w)` that returns true,
`search(w)` is false. -/
theorem search_after_erase (t : CompressedSuffixTree) (h : Reachable t) (w : List Char)
    (t2 : CompressedSuffixTree) (he : t.erase w = some (true, t2)) :
    t2.search w = false := by
  obtain ⟨-, -, hnew⟩ := CompressedSuffixTree.erase_call_spec t (Reachable.wf t h) w true t2 he
  obtain ⟨-, hmono⟩ := hnew rfl
  cases hs : t2.search w
  · rfl
  · exact absurd rfl (hmono w hs).2

theorem search_after_erase_witness :
    Reachable stateCAB ∧ stateCAB.erase ['a'] = some (true, stateErased) ∧
      stateErased.search ['a'] = false :=
  ⟨reachable_stateCAB, rfl,
    search_after_erase stateCAB reachable_stateCAB ['a'] stateErased rfl⟩

/-- Claim C7: in every reachable state, when `insert(w)` returns true, an immediately
following `insert(w)` returns false and leaves the index (size, word count and the whole
tree) as it is. -/
theorem insert_duplicate_unchanged (t : CompressedSuffixTree) (h : Reachable t)
    (w : List Char) (t1 : CompressedSuffixTree) (hi : t.insert w = some (true, t1)) :
    t1.insert w = some (false, t1) := by
  obtain ⟨hwf1, hsearch⟩ :=
    CompressedSuffixTree.insert_true_effect t (Reachable.wf t h) w t1 hi
  have hs : t1.search w = true := by
    rw [hsearch w]
    simp
  obtain ⟨t3, h3, hsame, -⟩ := CompressedSuffixTree.insert_call_spec t1 hwf1 w
  have hc : (decide (w = []) || t1.search w) = true := by simp [hs]
  rw [hsame hc] at h3
  rw [h3, hc]
  rfl

theorem insert_duplicate_unchanged_witness :
    Reachable stateAB ∧ stateAB.insert ['c', 'a', 'b'] = some (true, stateCAB) ∧
      stateCAB.insert ['c', 'a', 'b'] = some (false, stateCAB) :=
  ⟨reachable_stateAB, rfl,
    insert_duplicate_unchanged stateAB reachable_stateAB ['c', 'a', 'b'] stateCAB rfl⟩

/-- Claim C8: on every index, an `erase(w)` that returns false leaves the index (size,
word count and the whole tree) exactly as it was before the call. -/
theorem erase_false_unchanged (t : CompressedSuffixTree) (w : List Char)
    (t2 : CompressedSuffixTree) (h : t.erase w = some (false, t2)) : t2 = t := by
  unfold CompressedSuffixTree.erase at h
  by_cases hw : w = []
  · simp only [hw, if_true, Option.some.injEq, Prod.mk.injEq] at h
    exact h.2.symm
  · simp only [hw, if_false] at h
    cases hr : Node.erase (w.length + 1) t._root w true t._size t._wordCount with
    | none => simp [hr] at h
    | some r =>
      simp only [hr] at h
      by_cases hres : r.res = true
      · simp only [hres, Bool.not_true, Bool.false_eq_true, if_false] at h
        cases hl : eraseLoop w (List.range' 1 (w.length - 1))
            ⟨r.size, r.wordCount, r.node⟩ with
        | none => simp [hl] at h
        | some t3 => simp [hl] at h
      · have hrf : r.res = false := by simpa using hres
        obtain ⟨h1, h2, h3⟩ := Node.erase_fail true _ _ _ _ _ r hr hrf
        simp only [hrf, Bool.not_false, if_true, Option.some.injEq, Prod.mk.injEq, h1, h2,
          h3, true_and] at h
        exact h.symm

theorem erase_false_unchanged_witness :
    stateCAB.erase ['c'] = some (false, stateCAB) ∧ stateCAB = stateCAB :=
  ⟨rfl, erase_false_unchanged stateCAB ['c'] stateCAB rfl⟩

/-- Claim C10, evaluated on the distinct non-empty words "a", "ab", "cabc" and the erased
word "a": `erase("a")` returns true and `endsWith("abc")` is false afterwards, although
"abc" is a suffix of the remaining word "cabc". -/
theorem endsWith_wrong_after_erase :
    (ofList [['a'], ['a', 'b'], ['c', 'a', 'b', 'c']]).bind (fun t =>
      (t.erase ['a']).map (fun r =>
        (t.endsWith ['a', 'b', 'c'], r.1, r.2.endsWith ['a', 'b', 'c'])))
      = some (true, true, false) := by
  decide

/-- A private `insert` pass changes the word counter on a successful word pass only,
where it increments it; on every tree. -/
theorem Node.insert_pass_wordCount (isWord : Bool) (fuel : Nat) :
    ∀ (node : Node) (sv : List Char) (size wc : Nat) (r : Pass),
      Node.insert fuel node sv isWord size wc = some r →
      r.wordCount = if (isWord && r.res) = true then sizeInc wc else wc := by
  induction fuel with
  | zero =>
    intro node sv size wc r h
    simp [Node.insert] at h
  | succ fuel ih =>
    intro node sv size wc r h
    rw [Node.insert] at h
    by_cases hsv : sv = []
    · simp only [hsv, if_true] at h
      cases isWord with
      | true =>
        by_cases htw : node.terminalWord = true
        · simp [htw] at h
          subst h
          simp
        · simp [htw] at h
          subst h
          simp
      | false =>
        simp at h
        subst h
        simp
    · simp only [hsv, if_false] at h
      split at h
      · split at h
        · simp at h
        · rename_i r1 hr1
          simp only [Option.some.injEq] at h
          subst h
          exact ih _ _ _ _ r1 hr1
      · split at h
        · split at h
          · simp at h
          · rename_i r1 hr1
            simp only [Option.some.injEq] at h
            subst h
            exact ih _ _ _ _ r1 hr1
        · split at h
          · simp at h
          · split at h
            · simp at h
            · rename_i r1 hr1
              simp only [Option.some.injEq] at h
              subst h
              exact ih _ _ _ _ r1 hr1

/-- A private `erase` pass changes the word counter on a successful word pass only,
where it decrements it; on every tree. -/
theorem Node.erase_pass_wordCount (isWord : Bool) (fuel : Nat) :
    ∀ (node : Node) (sv : List Char) (size wc : Nat) (r : Pass),
      Node.erase fuel node sv isWord size wc = some r →
      r.wordCount = if (isWord && r.res) = true then sizeDec wc else wc := by
  induction fuel with
  | zero =>
    intro node sv size wc r h
    simp [Node.erase] at h
  | succ fuel ih =>
    intro node sv size wc r h
    rw [Node.erase] at h
    by_cases hsv : sv = []
    · simp only [hsv, if_true] at h
      cases isWord with
      | true =>
        by_cases htw : node.terminalWord = true
        · simp [htw] at h
          subst h
          simp
        · simp [htw] at h
          subst h
          simp
      | false =>
        simp at h
        subst h
        simp
    · simp only [hsv, if_false] at h
      split at h
      · simp at h
        subst h
        simp
      · split at h
        · simp at h
          subst h
          simp
        · split at h
          · simp at h
          · rename_i r1 hr1
            have h1 := ih _ _ _ _ r1 hr1
            split at h
            · split at h
              · simp only [Option.some.injEq] at h
                subst h
                exact h1
              · split at h
                · split at h
                  · simp at h
                  · simp only [Option.some.injEq] at h
                    subst h
                    exact h1
                · simp only [Option.some.injEq] at h
                  subst h
                  exact h1
            · simp only [Option.some.injEq] at h
              subst h
              exact h1

theorem CompressedSuffixTree.insertLoop_wordCount (word : List Char) :
    ∀ (ns : List Nat) (t t2 : CompressedSuffixTree),
      insertLoop word ns t = some t2 → t2._wordCount = t._wordCount := by
  intro ns
  induction ns with
  | nil =>
    intro t t2 h
    simp only [insertLoop, Option.some.injEq] at h
    rw [← h]
  | cons n ns ih =>
    intro t t2 h
    simp only [insertLoop] at h
    split at h
    · simp at h
    · rename_i r hr
      split at h
      · rw [ih _ _ h]
        simpa using Node.insert_pass_wordCount false _ _ _ _ _ r hr
      · simp at h

theorem CompressedSuffixTree.eraseLoop_wordCount (word : List Char) :
    ∀ (ns : List Nat) (t t2 : CompressedSuffixTree),
      eraseLoop word ns t = some t2 → t2._wordCount = t._wordCount := by
  intro ns
  induction ns with
  | nil =>
    intro t t2 h
    simp only [eraseLoop, Option.some.injEq] at h
    rw [← h]
  | cons n ns ih =>
    intro t t2 h
    simp only [eraseLoop] at h
    split at h
    · simp at h
    · rename_i r hr
      split at h
      · rw [ih _ _ h]
        simpa using Node.erase_pass_wordCount false _ _ _ _ _ r hr
      · simp at h

/-- A public `insert` that returns true increments the word counter (as a `size_t`), on
every index. -/
theorem CompressedSuffixTree.insert_wordCount (t : CompressedSuffixTree) (w : List Char)
    (t2 : CompressedSuffixTree) (h : t.insert w = some (true, t2)) :
    t2._wordCount = sizeInc t._wordCount := by
  unfold CompressedSuffixTree.insert at h
  split at h
  · simp at h
  · split at h
    · simp at h
    · rename_i r hr
      split at h
      · simp at h
      · rename_i hres
        have hrt : r.res = true := by simpa using hres
        split at h
        · simp at h
        · rename_i t3 ht3
          simp only [Option.some.injEq, Prod.mk.injEq, true_and] at h
          subst h
          rw [insertLoop_wordCount _ _ _ _ ht3]
          simpa [hrt] using Node.insert_pass_wordCount true _ _ _ _ _ r hr

/-- A public `erase` that returns true decrements the word counter (as a `size_t`), on
every index. -/
theorem CompressedSuffixTree.erase_wordCount (t : CompressedSuffixTree) (w : List Char)
    (t2 : CompressedSuffixTree) (h : t.erase w = some (true, t2)) :
    t2._wordCount = sizeDec t._wordCount := by
  unfold CompressedSuffixTree.erase at h
  split at h
  · simp at h
  · split at h
    · simp at h
    · rename_i r hr
      split at h
      · simp at h
      · rename_i hres
        have hrt : r.res = true := by simpa using hres
        split at h
        · simp at h
        · rename_i t3 ht3
          simp only [Option.some.injEq, Prod.mk.injEq, true_and] at h
          subst h
          rw [eraseLoop_wordCount _ _ _ _ ht3]
          simpa [hrt] using Node.erase_pass_wordCount true _ _ _ _ _ r hr

theorem Op.apply_wordBound (n : Nat) (t : CompressedSuffixTree) (hwf : t._root.WF)
    (hb : WordBound n t) (hn : n + 1 < 2 ^ 64) (op : Op) (b : Bool)
    (t2 : CompressedSuffixTree) (h : op.apply t = some (b, t2)) :
    WordBound (n + 1) t2 := by
  obtain ⟨A, hA, hlen, hle⟩ := hb
  cases op with
  | insert w =>
    cases b with
    | false =>
      obtain ⟨t3, h3, hsame, -⟩ := CompressedSuffixTree.insert_call_spec t hwf w
      simp only [Op.apply] at h
      rw [h] at h3
      simp only [Option.some.injEq, Prod.mk.injEq] at h3
      obtain ⟨hc, rfl⟩ := h3
      have hc2 : (decide (w = []) || t.search w) = true := by
        cases hcc : (decide (w = []) || t.search w)
        · rw [hcc] at hc; simp at hc
        · rfl
      rw [hsame hc2]
      exact ⟨A, hA, hlen, by omega⟩
    | true =>
      simp only [Op.apply] at h
      have hcount := CompressedSuffixTree.insert_wordCount t w t2 h
      obtain ⟨-, hsearch⟩ := CompressedSuffixTree.insert_true_effect t hwf w t2 h
      have hinc : sizeInc t._wordCount = t._wordCount + 1 := by
        unfold sizeInc
        exact Nat.mod_eq_of_lt (by omega)
      refine ⟨w :: A, ?_, ?_, ?_⟩
      · intro p hp
        rw [hsearch p] at hp
        simp only [Bool.or_eq_true, decide_eq_true_eq] at hp
        rcases hp with rfl | hp
        · exact List.mem_cons_self _ _
        · exact List.mem_cons_of_mem _ (hA p hp)
      · rw [hcount, hinc, List.length_cons]
        omega
      · rw [hcount, hinc]
        omega
  | erase w =>
    simp only [Op.apply] at h
    obtain ⟨hb2, hsame, hnew⟩ := CompressedSuffixTree.erase_call_spec t hwf w b t2 h
    cases b with
    | false =>
      rw [hsame rfl]
      exact ⟨A, hA, hlen, by omega⟩
    | true =>
      have hcount := CompressedSuffixTree.erase_wordCount t w t2 h
      obtain ⟨-, hmono⟩ := hnew rfl
      have hsw : t.search w = true := by
        have := hb2.symm
        simp only [Bool.and_eq_true] at this
        exact this.2
      have hwA : w ∈ A := hA w hsw
      have hApos : 0 < A.length := List.length_pos_of_mem hwA
      have hdec : sizeDec t._wordCount = t._wordCount - 1 := by
        unfold sizeDec
        have : t._wordCount + (2 ^ 64 - 1) = (t._wordCount - 1) + 2 ^ 64 := by omega
        rw [this, Nat.add_mod_right]
        exact Nat.mod_eq_of_lt (by omega)
      refine ⟨A.erase w, ?_, ?_, ?_⟩
      · intro p hp
        obtain ⟨h1, h2⟩ := hmono p hp
        exact (List.mem_erase_of_ne h2).2 (hA p h1)
      · rw [hcount, hdec, List.length_erase_of_mem hwA]
        omega
      · rw [hcount, hdec]
        omega

theorem exec_wordBound (ops : List Op) :
    ∀ (n : Nat) (t : CompressedSuffixTree) (bs : List Bool) (t2 : CompressedSuffixTree),
      t._root.WF → WordBound n t → n + ops.length < 2 ^ 64 →
      exec ops t = some (bs, t2) → WordBound (n + ops.length) t2 := by
  induction ops with
  | nil =>
    intro n t bs t2 _ hb _ h
    simp only [exec, Option.some.injEq, Prod.mk.injEq] at h
    rw [← h.2]
    simpa using hb
  | cons op ops ih =>
    intro n t bs t2 hwf hb hn h
    simp only [List.length_cons] at hn
    simp only [exec] at h
    cases h1 : op.apply t with
    | none => simp [h1] at h
    | some x =>
      obtain ⟨b, t1⟩ := x
      simp only [h1] at h
      cases h2 : exec ops t1 with
      | none => simp [h2] at h
      | some y =>
        obtain ⟨bs2, t3⟩ := y
        simp only [h2, Option.some.injEq, Prod.mk.injEq] at h
        rw [← h.2]
        have hb1 := Op.apply_wordBound n t hwf hb (by omega) op b t1 h1
        have := ih (n + 1) t1 bs2 t3 (Op.apply_wf t hwf op b t1 h1) hb1 (by omega) h2
        simpa [List.length_cons, Nat.add_assoc, Nat.add_comm 1] using this

theorem sizeInc_mod (n : Nat) : sizeInc (n % 2 ^ 64) = (n + 1) % 2 ^ 64 := by
  unfold sizeInc
  rw [Nat.mod_add_mod]

theorem represents_insert_count (t : CompressedSuffixTree) (A : List (List Char))
    (h : Represents t A) (hc : t._wordCount = A.length % 2 ^ 64) (w : List Char) :
    ∃ b t2 A2, t.insert w = some (b, t2) ∧ Represents t2 A2
      ∧ (∀ x, x ∈ A2 ↔ x ∈ A ∨ (x = w ∧ x ≠ []))
      ∧ t2._wordCount = A2.length % 2 ^ 64 := by
  obtain ⟨b, t2, A2, hins, hrep, hmem⟩ := represents_insert t A h w
  refine ⟨b, t2, A2, hins, hrep, hmem, ?_⟩
  obtain ⟨hwf, hnd, -, hfl⟩ := h
  obtain ⟨-, hnd2, -, -⟩ := hrep
  have hsearch : t.search w = decide (w ∈ A) := by
    rw [search_eq_flags, hfl]
  obtain ⟨t3, h3, hsame, -⟩ := CompressedSuffixTree.insert_call_spec t hwf w
  rw [hins] at h3
  simp only [Option.some.injEq, Prod.mk.injEq] at h3
  obtain ⟨hb, rfl⟩ := h3
  cases b with
  | true =>
    have hc2 : (decide (w = []) || t.search w) = false := by
      cases hcc : (decide (w = []) || t.search w)
      · rfl
      · rw [hcc] at hb; simp at hb
    simp only [Bool.or_eq_false_iff, decide_eq_false_iff_not, hsearch] at hc2
    obtain ⟨hw, hwA⟩ := hc2
    have hperm : A2.Perm (w :: A) := by
      rw [List.perm_ext_iff_of_nodup hnd2 (List.nodup_cons.2 ⟨hwA, hnd⟩)]
      intro x
      rw [hmem x, List.mem_cons]
      constructor
      · rintro (hx | ⟨rfl, -⟩)
        · exact Or.inr hx
        · exact Or.inl rfl
      · rintro (rfl | hx)
        · exact Or.inr ⟨rfl, hw⟩
        · exact Or.inl hx
    rw [CompressedSuffixTree.insert_wordCount t w t2 hins, hc, sizeInc_mod, hperm.length_eq,
      List.length_cons]
  | false =>
    have hc2 : (decide (w = []) || t.search w) = true := by
      cases hcc : (decide (w = []) || t.search w)
      · rw [hcc] at hb; simp at hb
      · rfl
    rw [hsame hc2, hc]
    have hperm : A2.Perm A := by
      rw [List.perm_ext_iff_of_nodup hnd2 hnd]
      intro x
      rw [hmem x]
      constructor
      · rintro (hx | ⟨rfl, hx⟩)
        · exact hx
        · simp only [Bool.or_eq_true, decide_eq_true_eq, hsearch] at hc2
          rcases hc2 with hc2 | hc2
          · exact absurd hc2 hx
          · exact hc2
      · exact Or.inl
    rw [hperm.length_eq]

theorem represents_insertAll_count (W : List (List Char)) :
    ∀ (t : CompressedSuffixTree) (A : List (List Char)), Represents t A →
      t._wordCount = A.length % 2 ^ 64 →
      ∃ t2 A2, insertAll W t = some t2 ∧ Represents t2 A2
        ∧ (∀ x, x ∈ A2 ↔ x ∈ A ∨ (x ∈ W ∧ x ≠ []))
        ∧ t2._wordCount = A2.length % 2 ^ 64 := by
  induction W with
  | nil =>
    intro t A h hc
    exact ⟨t, A, rfl, h, by simp, hc⟩
  | cons w W ih =>
    intro t A h hc
    obtain ⟨b, t1, A1, h1, hr1, hm1, hc1⟩ := represents_insert_count t A h hc w
    obtain ⟨t2, A2, h2, hr2, hm2, hc2⟩ := ih t1 A1 hr1 hc1
    refine ⟨t2, A2, ?_, hr2, ?_, hc2⟩
    · simp only [insertAll, h1, h2]
    · intro x
      rw [hm2, hm1, List.mem_cons]
      constructor
      · rintro ((hx | ⟨rfl, hx⟩) | ⟨hx, hx2⟩)
        · exact Or.inl hx
        · exact Or.inr ⟨Or.inl rfl, hx⟩
        · exact Or.inr ⟨Or.inr hx, hx2⟩
      · rintro (hx | ⟨rfl | hx, hx2⟩)
        · exact Or.inl (Or.inl hx)
        · exact Or.inl (Or.inr ⟨rfl, hx2⟩)
        · exact Or.inr ⟨hx, hx2⟩

/-- Word counter after a construction from a list shorter than `2 ^ 64`: the number of
distinct non-empty strings of the list. -/
theorem ofList_wordCount (L : List (List Char)) (hL : L.length < 2 ^ 64) :
    ∃ t, ofList L = some t ∧
      t.wordCount = ((L.filter (fun s => decide (s ≠ []))).dedup).length := by
  obtain ⟨t, A, ht, hrep, hmem, hc⟩ :=
    represents_insertAll_count L _ _ represents_new (by simp [CompressedSuffixTree.new])
  refine ⟨t, ht, ?_⟩
  obtain ⟨-, hnd, -, -⟩ := hrep
  have hperm : A.Perm ((L.filter (fun s => decide (s ≠ []))).dedup) := by
    rw [List.perm_ext_iff_of_nodup hnd (List.nodup_dedup _)]
    intro x
    rw [hmem x, List.mem_dedup, List.mem_filter]
    simp
  have hle : ((L.filter (fun s => decide (s ≠ []))).dedup).length ≤ L.length :=
    le_trans (List.dedup_sublist _).length_le (List.filter_sublist _).length_le
  show t._wordCount = _
  rw [hc, hperm.length_eq]
  exact Nat.mod_eq_of_lt (by omega)

theorem CompressedSuffixTree.search_new (p : List Char) :
    CompressedSuffixTree.new.search p = false := by
  obtain ⟨-, -, -, hfl⟩ := represents_new
  rw [search_eq_flags, hfl]
  simp

theorem wordBound_new : WordBound 0 CompressedSuffixTree.new :=
  ⟨[], fun p hp => by rw [CompressedSuffixTree.search_new] at hp; simp at hp, by simp,
    by simp [CompressedSuffixTree.new]⟩

theorem Node.deepEqualLoop_nil (others : List Node) :
    Node.deepEqualLoop [] others = true := by
  rw [Node.deepEqualLoop]

theorem Node.deepEqualLoop_cons (c : Node) (rest others : List Node) :
    Node.deepEqualLoop (c :: rest) others =
      match findKey c.s [] others with
      | none => false
      | some it =>
        if !Node.deepEqual c it.cur then false else Node.deepEqualLoop rest others := by
  rw [Node.deepEqualLoop]

theorem Node.deepEqual_mk (s : List Char) (tw : Bool) (tc : Int) (cs : List Node)
    (b : Node) :
    Node.deepEqual (.mk s tw tc cs) b =
      if s ≠ b.s ∨ tw ≠ b.terminalWord ∨ tc ≠ b.terminalCount
        ∨ cs.length ≠ b.childNodes.length then false
      else Node.deepEqualLoop cs b.childNodes := by
  rw [Node.deepEqual]

theorem Node.iso_mk (s : List Char) (tw : Bool) (tc : Int) (cs : List Node) (b : Node) :
    Node.Iso (.mk s tw tc cs) b ↔
    (s = b.s ∧ tw = b.terminalWord ∧ tc = b.terminalCount ∧
      ∃ ds, b.childNodes.Perm ds ∧ Node.IsoList cs ds) := by
  rw [Node.Iso]

theorem Node.isoList_nil (ds : List Node) : Node.IsoList [] ds ↔ ds = [] := by
  rw [Node.IsoList]

theorem Node.isoList_cons (c : Node) (cs ds : List Node) :
    Node.IsoList (c :: cs) ds ↔
      ∃ d rest, ds = d :: rest ∧ Node.Iso c d ∧ Node.IsoList cs rest := by
  rw [Node.IsoList]

theorem Node.sizeOf_child (s : List Char) (tw : Bool) (tc : Int) (cs : List Node)
    (c : Node) (h : c ∈ cs) : sizeOf c < sizeOf (Node.mk s tw tc cs) := by
  have := List.sizeOf_lt_of_mem h
  simp only [Node.mk.sizeOf_spec]
  omega

/-- Induction over a tree: a property that holds of a node whenever it holds of its
children holds of every node. -/
theorem Node.induct (P : Node → Prop)
    (step : ∀ s tw tc cs, (∀ c ∈ cs, P c) → P (Node.mk s tw tc cs)) (n : Node) : P n := by
  have aux : ∀ k (a : Node), sizeOf a < k → P a := by
    intro k
    induction k with
    | zero => intro a h; omega
    | succ k ih =>
      intro a hsz
      cases a with
      | mk s tw tc cs =>
        apply step
        intro c hc
        have := Node.sizeOf_child s tw tc cs c hc
        exact ih c (by omega)
  exact aux (sizeOf n + 1) n (by omega)

theorem Node.keysDistinct_iff (s : List Char) (tw : Bool) (tc : Int) (cs : List Node) :
    (Node.mk s tw tc cs).KeysDistinct ↔
      (cs.map Node.s).Nodup ∧ ∀ c ∈ cs, Node.KeysDistinct c := by
  constructor
  · intro h
    cases h with
    | mk _ _ _ _ h1 h2 => exact ⟨h1, h2⟩
  · rintro ⟨h1, h2⟩
    exact Node.KeysDistinct.mk s tw tc cs h1 h2

/-- The entry that `find(key)` designates is the first child with that label. -/
theorem findKey_cur (key : List Char) (seen cs : List Node) :
    (findKey key seen cs).map (fun it => it.cur) = Node.child cs key := by
  unfold Node.child
  induction cs generalizing seen with
  | nil => simp [findKey]
  | cons c cs ih =>
    by_cases h : c.s = key
    · simp [findKey, h]
    · simp [findKey, h, ih]

theorem Node.child_some (cs : List Node) (key : List Char) (d : Node)
    (h : Node.child cs key = some d) : d ∈ cs ∧ d.s = key := by
  unfold Node.child at h
  exact ⟨List.mem_of_find?_eq_some h, by simpa using List.find?_some h⟩

theorem Node.child_none (cs : List Node) (key : List Char)
    (h : Node.child cs key = none) : ∀ c ∈ cs, c.s ≠ key := by
  unfold Node.child at h
  simpa [List.find?_eq_none] using h

theorem Node.child_of_mem (cs : List Node) (hnd : (cs.map Node.s).Nodup) (c : Node)
    (hc : c ∈ cs) : Node.child cs c.s = some c := by
  unfold Node.child
  induction cs with
  | nil => simp at hc
  | cons x cs ih =>
    rw [List.map_cons, List.nodup_cons] at hnd
    rw [List.mem_cons] at hc
    by_cases hx : x.s = c.s
    · rcases hc with rfl | hc
      · simp
      · exfalso
        apply hnd.1
        rw [hx]
        exact List.mem_map_of_mem _ hc
    · rcases hc with rfl | hc
      · exact absurd rfl hx
      · simp only [List.find?_cons, hx, decide_False]
        exact ih hnd.2 hc

theorem Node.deepEqualLoop_iff (cs others : List Node) :
    Node.deepEqualLoop cs others = true ↔
      ∀ c ∈ cs, ∃ d, Node.child others c.s = some d ∧ Node.deepEqual c d = true := by
  induction cs with
  | nil => simp [Node.deepEqualLoop_nil]
  | cons c cs ih =>
    rw [Node.deepEqualLoop_cons]
    have hk := findKey_cur c.s [] others
    cases hf : findKey c.s [] others with
    | none =>
      rw [hf] at hk
      simp only [Option.map_none'] at hk
      simp [← hk]
    | some it =>
      rw [hf] at hk
      simp only [Option.map_some'] at hk
      by_cases hd : Node.deepEqual c it.cur = true
      · simp [hd, ih, ← hk]
      · simp [hd, ← hk]

/-- One level of `deepEqual`. -/
theorem Node.deepEqual_iff (a b : Node) :
    Node.deepEqual a b = true ↔
      a.s = b.s ∧ a.terminalWord = b.terminalWord ∧ a.terminalCount = b.terminalCount
        ∧ a.childNodes.length = b.childNodes.length
        ∧ ∀ c ∈ a.childNodes,
            ∃ d, Node.child b.childNodes c.s = some d ∧ Node.deepEqual c d = true := by
  cases a with
  | mk s tw tc cs =>
    rw [Node.deepEqual_mk, ← Node.deepEqualLoop_iff]
    by_cases h : s ≠ b.s ∨ tw ≠ b.terminalWord ∨ tc ≠ b.terminalCount
        ∨ cs.length ≠ b.childNodes.length
    · simp only [h, if_true, Node.s_mk, Node.terminalWord_mk, Node.terminalCount_mk,
        Node.childNodes_mk]
      constructor
      · intro h2
        simp at h2
      · rintro ⟨h1, h2, h3, h4, -⟩
        rcases h with h | h | h | h
        · exact absurd h1 h
        · exact absurd h2 h
        · exact absurd h3 h
        · exact absurd h4 h
    · simp only [h, if_false, Node.s_mk, Node.terminalWord_mk, Node.terminalCount_mk,
        Node.childNodes_mk]
      simp only [not_or, not_not] at h
      obtain ⟨h1, h2, h3, h4⟩ := h
      simp [h1, h2, h3, h4]

/-- Pigeonhole on keys: when every key of `cs` is a key of `ds`, the keys of `cs` are
distinct and the two lists have the same length, every key of `ds` is a key of `cs`. -/
theorem keys_onto (cs ds : List Node) (h1 : (cs.map Node.s).Nodup)
    (h2 : ∀ c ∈ cs, ∃ d ∈ ds, d.s = c.s) (hlen : cs.length = ds.length) :
    ∀ d ∈ ds, ∃ c ∈ cs, c.s = d.s := by
  have hsub : cs.map Node.s ⊆ ds.map Node.s := by
    intro k hk
    obtain ⟨c, hc, rfl⟩ := List.mem_map.1 hk
    obtain ⟨d, hd, hdc⟩ := h2 c hc
    exact List.mem_map.2 ⟨d, hd, hdc⟩
  have hperm : (cs.map Node.s).Perm (ds.map Node.s) :=
    (List.subperm_of_subset h1 hsub).perm_of_length_le (by simp [hlen])
  intro d hd
  have : d.s ∈ cs.map Node.s := hperm.mem_iff.2 (List.mem_map_of_mem _ hd)
  obtain ⟨c, hc, hcs⟩ := List.mem_map.1 this
  exact ⟨c, hc, hcs⟩

theorem Node.deepEqual_refl_aux (n : Nat) :
    ∀ a : Node, sizeOf a < n → a.KeysDistinct → Node.deepEqual a a = true := by
  induction n with
  | zero => intro a h; omega
  | succ n ih =>
    intro a hsz hkd
    cases a with
    | mk s tw tc cs =>
      obtain ⟨hnd, hkc⟩ := (Node.keysDistinct_iff _ _ _ _).1 hkd
      rw [Node.deepEqual_iff]
      refine ⟨rfl, rfl, rfl, rfl, fun c hc => ⟨c, Node.child_of_mem cs hnd c hc, ?_⟩⟩
      have := Node.sizeOf_child s tw tc cs c hc
      exact ih c (by omega) (hkc c hc)

theorem Node.deepEqual_symm_aux (n : Nat) :
    ∀ a b : Node, sizeOf a < n → a.KeysDistinct → b.KeysDistinct →
      Node.deepEqual a b = true → Node.deepEqual b a = true := by
  induction n with
  | zero => intro a b h; omega
  | succ n ih =>
    intro a b hsz hka hkb hab
    cases a with
    | mk s tw tc cs =>
    cases b with
    | mk s2 tw2 tc2 ds =>
      obtain ⟨hnda, hkca⟩ := (Node.keysDistinct_iff _ _ _ _).1 hka
      obtain ⟨hndb, hkcb⟩ := (Node.keysDistinct_iff _ _ _ _).1 hkb
      rw [Node.deepEqual_iff] at hab ⊢
      simp only [Node.s_mk, Node.terminalWord_mk, Node.terminalCount_mk,
        Node.childNodes_mk] at hab ⊢
      obtain ⟨h1, h2, h3, h4, h5⟩ := hab
      refine ⟨h1.symm, h2.symm, h3.symm, h4.symm, fun d hd => ?_⟩
      have honto := keys_onto cs ds hnda (fun c hc => by
        obtain ⟨d, hd1, -⟩ := h5 c hc
        exact ⟨d, (Node.child_some _ _ _ hd1).1, (Node.child_some _ _ _ hd1).2⟩) h4
      obtain ⟨c, hc, hcd⟩ := honto d hd
      refine ⟨c, by rw [← hcd]; exact Node.child_of_mem cs hnda c hc, ?_⟩
      obtain ⟨d2, hd2, hcd2⟩ := h5 c hc
      have hd2' : Node.child ds c.s = some d := by
        rw [hcd]
        exact Node.child_of_mem ds hndb d hd
      rw [hd2'] at hd2
      simp only [Option.some.injEq] at hd2
      subst hd2
      have := Node.sizeOf_child s tw tc cs c hc
      exact ih c d (by omega) (hkca c hc) (hkcb d hd) hcd2

theorem Node.deepEqual_trans_aux (n : Nat) :
    ∀ a b c : Node, sizeOf a < n → Node.deepEqual a b = true →
      Node.deepEqual b c = true → Node.deepEqual a c = true := by
  induction n with
  | zero => intro a b c h; omega
  | succ n ih =>
    intro a b c hsz hab hbc
    cases a with
    | mk s tw tc cs =>
      rw [Node.deepEqual_iff] at hab hbc ⊢
      simp only [Node.s_mk, Node.terminalWord_mk, Node.terminalCount_mk,
        Node.childNodes_mk] at hab ⊢
      obtain ⟨h1, h2, h3, h4, h5⟩ := hab
      obtain ⟨g1, g2, g3, g4, g5⟩ := hbc
      refine ⟨h1.trans g1, h2.trans g2, h3.trans g3, h4.trans g4, fun x hx => ?_⟩
      obtain ⟨y, hy, hxy⟩ := h5 x hx
      obtain ⟨hyb, hys⟩ := Node.child_some _ _ _ hy
      obtain ⟨z, hz, hyz⟩ := g5 y hyb
      rw [hys] at hz
      have := Node.sizeOf_child s tw tc cs x hx
      exact ⟨z, hz, ih x y z (by omega) hxy hyz⟩

/-- On trees with distinct keys `deepEqual` is reflexive. -/
theorem Node.deepEqual_refl (a : Node) (h : a.KeysDistinct) : Node.deepEqual a a = true :=
  Node.deepEqual_refl_aux (sizeOf a + 1) a (by omega) h

/-- On trees with distinct keys `deepEqual` is symmetric. -/
theorem Node.deepEqual_symm (a b : Node) (ha : a.KeysDistinct) (hb : b.KeysDistinct)
    (h : Node.deepEqual a b = true) : Node.deepEqual b a = true :=
  Node.deepEqual_symm_aux (sizeOf a + 1) a b (by omega) ha hb h

/-- Transitivity of `deepEqual`, on all trees. -/
theorem Node.deepEqual_trans (a b c : Node) (hab : Node.deepEqual a b = true)
    (hbc : Node.deepEqual b c = true) : Node.deepEqual a c = true :=
  Node.deepEqual_trans_aux (sizeOf a + 1) a b c (by omega) hab hbc

theorem Node.isoList_length (cs : List Node) :
    ∀ ds, Node.IsoList cs ds → cs.length = ds.length := by
  induction cs with
  | nil =>
    intro ds h
    rw [Node.isoList_nil] at h
    simp [h]
  | cons c cs ih =>
    intro ds h
    rw [Node.isoList_cons] at h
    obtain ⟨d, rest, rfl, -, h2⟩ := h
    simp [ih rest h2]

theorem Node.isoList_forall (cs : List Node) :
    ∀ ds, Node.IsoList cs ds → ∀ c ∈ cs, ∃ d ∈ ds, Node.Iso c d := by
  induction cs with
  | nil => intro ds _ c hc; simp at hc
  | cons x cs ih =>
    intro ds h c hc
    rw [Node.isoList_cons] at h
    obtain ⟨d, rest, rfl, h1, h2⟩ := h
    rw [List.mem_cons] at hc
    rcases hc with rfl | hc
    · exact ⟨d, by simp, h1⟩
    · obtain ⟨d2, hd2, h3⟩ := ih rest h2 c hc
      exact ⟨d2, by simp [hd2], h3⟩

theorem Node.isoList_map (f : Node → Node) (cs : List Node)
    (h : ∀ c ∈ cs, Node.Iso c (f c)) : Node.IsoList cs (cs.map f) := by
  induction cs with
  | nil => rw [Node.isoList_nil]; rfl
  | cons x cs ih =>
    rw [Node.isoList_cons]
    exact ⟨f x, cs.map f, rfl, h x (by simp), ih (fun c hc => h c (by simp [hc]))⟩

theorem Node.iso_label (a b : Node) (h : Node.Iso a b) : a.s = b.s := by
  cases a with
  | mk s tw tc cs =>
    rw [Node.iso_mk] at h
    exact h.1

theorem nodup_of_keys (cs : List Node) (h : (cs.map Node.s).Nodup) : cs.Nodup :=
  List.Nodup.of_map _ h

theorem Node.iso_of_deepEqual_aux (n : Nat) :
    ∀ a b : Node, sizeOf a < n → a.KeysDistinct → b.KeysDistinct →
      Node.deepEqual a b = true → Node.Iso a b := by
  induction n with
  | zero => intro a b h; omega
  | succ n ih =>
    intro a b hsz hka hkb hab
    cases a with
    | mk s tw tc cs =>
    cases b with
    | mk s2 tw2 tc2 ds =>
      obtain ⟨hnda, hkca⟩ := (Node.keysDistinct_iff _ _ _ _).1 hka
      obtain ⟨hndb, hkcb⟩ := (Node.keysDistinct_iff _ _ _ _).1 hkb
      rw [Node.deepEqual_iff] at hab
      simp only [Node.s_mk, Node.terminalWord_mk, Node.terminalCount_mk,
        Node.childNodes_mk] at hab
      obtain ⟨h1, h2, h3, h4, h5⟩ := hab
      rw [Node.iso_mk]
      refine ⟨h1, h2, h3, cs.map (fun c => (Node.child ds c.s).getD c), ?_, ?_⟩
      · -- the matched children are the children of `b` in another order
        have hkeys : (cs.map (fun c => (Node.child ds c.s).getD c)).map Node.s
            = cs.map Node.s := by
          rw [List.map_map]
          apply List.map_congr_left
          intro c hc
          obtain ⟨d, hd, -⟩ := h5 c hc
          simp [hd, (Node.child_some _ _ _ hd).2]
        have hnd : (cs.map (fun c => (Node.child ds c.s).getD c)).Nodup :=
          nodup_of_keys _ (by rw [hkeys]; exact hnda)
        have hsub : cs.map (fun c => (Node.child ds c.s).getD c) ⊆ ds := by
          intro x hx
          obtain ⟨c, hc, rfl⟩ := List.mem_map.1 hx
          obtain ⟨d, hd, -⟩ := h5 c hc
          simp [hd, (Node.child_some _ _ _ hd).1]
        exact ((List.subperm_of_subset hnd hsub).perm_of_length_le
          (by simp [h4])).symm
      · apply Node.isoList_map
        intro c hc
        obtain ⟨d, hd, hcd⟩ := h5 c hc
        have := Node.sizeOf_child s tw tc cs c hc
        simp only [hd, Option.getD_some]
        exact ih c d (by omega) (hkca c hc) (hkcb d (Node.child_some _ _ _ hd).1) hcd

theorem Node.deepEqual_of_iso_aux (n : Nat) :
    ∀ a b : Node, sizeOf a < n → b.KeysDistinct →
      Node.Iso a b → Node.deepEqual a b = true := by
  induction n with
  | zero => intro a b h; omega
  | succ n ih =>
    intro a b hsz hkb hab
    cases a with
    | mk s tw tc cs =>
    cases b with
    | mk s2 tw2 tc2 ds =>
      obtain ⟨hndb, hkcb⟩ := (Node.keysDistinct_iff _ _ _ _).1 hkb
      rw [Node.iso_mk] at hab
      simp only [Node.s_mk, Node.terminalWord_mk, Node.terminalCount_mk,
        Node.childNodes_mk] at hab
      obtain ⟨h1, h2, h3, es, hperm, hlist⟩ := hab
      rw [Node.deepEqual_iff]
      simp only [Node.s_mk, Node.terminalWord_mk, Node.terminalCount_mk,
        Node.childNodes_mk]
      refine ⟨h1, h2, h3, ?_, fun c hc => ?_⟩
      · rw [Node.isoList_length cs es hlist, hperm.length_eq]
      · obtain ⟨d, hd, hcd⟩ := Node.isoList_forall cs es hlist c hc
        have hdd : d ∈ ds := hperm.mem_iff.2 hd
        refine ⟨d, ?_, ?_⟩
        · rw [Node.iso_label c d hcd]
          exact Node.child_of_mem ds hndb d hdd
        · have := Node.sizeOf_child s tw tc cs c hc
          exact ih c d (by omega) (hkcb d hdd) hcd

/-- On trees with distinct keys `deepEqual` decides the isomorphism of the
specification. -/
theorem Node.deepEqual_iff_iso (a b : Node) (ha : a.KeysDistinct) (hb : b.KeysDistinct) :
    Node.deepEqual a b = true ↔ Node.Iso a b :=
  ⟨Node.iso_of_deepEqual_aux (sizeOf a + 1) a b (by omega) ha hb,
    Node.deepEqual_of_iso_aux (sizeOf a + 1) a b (by omega) hb⟩

theorem Node.WF.keysDistinct_aux (n : Nat) :
    ∀ a : Node, sizeOf a < n → a.WF → a.KeysDistinct := by
  induction n with
  | zero => intro a h; omega
  | succ n ih =>
    intro a hsz hwf
    cases a with
    | mk s tw tc cs =>
      obtain ⟨hne, hpw, hwfc⟩ := (Node.wf_iff _ _ _ _).1 hwf
      refine (Node.keysDistinct_iff _ _ _ _).2 ⟨?_, fun c hc => ?_⟩
      · rw [List.Nodup, List.pairwise_map]
        exact hpw.imp (fun {a b} hab h => hab (by rw [h]))
      · have := Node.sizeOf_child s tw tc cs c hc
        exact ih c (by omega) (hwfc c hc)

/-- A well-formed tree has distinct keys at every node. -/
theorem Node.WF.keysDistinct (a : Node) (h : a.WF) : a.KeysDistinct :=
  Node.WF.keysDistinct_aux (sizeOf a + 1) a (by omega) h

theorem Node.deepCopy_mk (s : List Char) (tw : Bool) (tc : Int) (cs : List Node) :
    Node.deepCopy (.mk s tw tc cs) = .mk s tw tc (Node.deepCopyLoop cs []) := by
  rw [Node.deepCopy]

theorem Node.deepCopy_s (n : Node) : (Node.deepCopy n).s = n.s := by
  cases n; rw [Node.deepCopy_mk]; rfl

theorem Node.deepCopyLoop_nil (copied : List Node) :
    Node.deepCopyLoop [] copied = copied := by
  rw [Node.deepCopyLoop]

theorem Node.deepCopyLoop_cons (c : Node) (rest copied : List Node) :
    Node.deepCopyLoop (c :: rest) copied
      = Node.deepCopyLoop rest
          ((emplace copied (Node.deepCopy c)).put (emplace copied (Node.deepCopy c)).cur) := by
  rw [Node.deepCopyLoop]

/-- With distinct keys every `emplace` of the copy loop stores a new entry: the copied
container holds the copies of the children, the last one copied first. -/
theorem Node.deepCopyLoop_eq (cs : List Node) :
    ∀ copied : List Node, (cs.map Node.s).Nodup →
      (∀ c ∈ cs, ∀ d ∈ copied, d.s ≠ c.s) →
      Node.deepCopyLoop cs copied = (cs.map Node.deepCopy).reverse ++ copied := by
  induction cs with
  | nil => intro copied _ _; simp [Node.deepCopyLoop_nil]
  | cons c rest ih =>
    intro copied hnd hdis
    rw [List.map_cons, List.nodup_cons] at hnd
    have hfresh : ∀ d ∈ copied, d.s ≠ (Node.deepCopy c).s := by
      intro d hd
      rw [Node.deepCopy_s]
      exact hdis c (List.mem_cons_self _ _) d hd
    rw [Node.deepCopyLoop_cons, emplace_fresh copied _ hfresh]
    simp only [Iter.put, List.nil_append]
    rw [ih _ hnd.2]
    · simp
    · intro x hx d hd
      rcases List.mem_cons.1 hd with rfl | hd
      · rw [Node.deepCopy_s]
        intro h
        exact hnd.1 (List.mem_map.2 ⟨x, hx, h.symm⟩)
      · exact hdis x (List.mem_cons_of_mem _ hx) d hd

theorem Node.deepCopy_children (s : List Char) (tw : Bool) (tc : Int) (cs : List Node)
    (hnd : (cs.map Node.s).Nodup) :
    Node.deepCopy (.mk s tw tc cs) = .mk s tw tc (cs.map Node.deepCopy).reverse := by
  rw [Node.deepCopy_mk, Node.deepCopyLoop_eq cs [] hnd (by simp)]
  simp

theorem Node.deepCopy_keysDistinct_aux (n : Nat) :
    ∀ a : Node, sizeOf a < n → a.KeysDistinct → (Node.deepCopy a).KeysDistinct := by
  induction n with
  | zero => intro a h; omega
  | succ n ih =>
    intro a hsz hka
    cases a with
    | mk s tw tc cs =>
      obtain ⟨hnd, hkc⟩ := (Node.keysDistinct_iff _ _ _ _).1 hka
      rw [Node.deepCopy_children s tw tc cs hnd]
      refine (Node.keysDistinct_iff _ _ _ _).2 ⟨?_, ?_⟩
      · rw [List.map_reverse, List.nodup_reverse, List.map_map]
        have : (Node.s ∘ Node.deepCopy) = Node.s := by
          funext x; exact Node.deepCopy_s x
        rw [this]; exact hnd
      · intro c hc
        obtain ⟨c0, hc0, rfl⟩ := List.mem_map.1 (List.mem_reverse.1 hc)
        have := Node.sizeOf_child s tw tc cs c0 hc0
        exact ih c0 (by omega) (hkc c0 hc0)

theorem Node.deepCopy_keysDistinct (a : Node) (h : a.KeysDistinct) :
    (Node.deepCopy a).KeysDistinct :=
  Node.deepCopy_keysDistinct_aux (sizeOf a + 1) a (by omega) h

theorem Node.deepEqual_deepCopy_aux (n : Nat) :
    ∀ a : Node, sizeOf a < n → a.KeysDistinct →
      Node.deepEqual (Node.deepCopy a) a = true := by
  induction n with
  | zero => intro a h; omega
  | succ n ih =>
    intro a hsz hka
    cases a with
    | mk s tw tc cs =>
      obtain ⟨hnd, hkc⟩ := (Node.keysDistinct_iff _ _ _ _).1 hka
      rw [Node.deepCopy_children s tw tc cs hnd, Node.deepEqual_iff]
      simp only [Node.s_mk, Node.terminalWord_mk, Node.terminalCount_mk,
        Node.childNodes_mk, List.length_reverse, List.length_map, true_and]
      intro c hc
      obtain ⟨c0, hc0, rfl⟩ := List.mem_map.1 (List.mem_reverse.1 hc)
      have := Node.sizeOf_child s tw tc cs c0 hc0
      exact ⟨c0, by rw [Node.deepCopy_s]; exact Node.child_of_mem cs hnd c0 hc0,
        ih c0 (by omega) (hkc c0 hc0)⟩

/-- A deep copy is `deepEqual` to the node it was copied from. -/
theorem Node.deepEqual_deepCopy (a : Node) (h : a.KeysDistinct) :
    Node.deepEqual (Node.deepCopy a) a = true :=
  Node.deepEqual_deepCopy_aux (sizeOf a + 1) a (by omega) h

theorem Node.compactAt_iff (live : List Char → Prop) (pre s : List Char) (tw : Bool)
    (tc : Int) (cs : List Node) :
    (Node.mk s tw tc cs).CompactAt live pre ↔
      (∀ c ∈ cs, live (pre ++ c.s) ∨ 2 ≤ c.childNodes.length) ∧
        (∀ c ∈ cs, Node.CompactAt live (pre ++ c.s) c) := by
  constructor
  · intro h
    cases h with
    | mk _ _ _ _ _ h1 h2 => exact ⟨h1, h2⟩
  · rintro ⟨h1, h2⟩
    exact Node.CompactAt.mk pre s tw tc cs h1 h2

/-- Compression with respect to a set of paths holds with respect to every larger set. -/
theorem Node.compactAt_mono (l1 l2 : List Char → Prop) (hl : ∀ p, l1 p → l2 p) (n : Node) :
    ∀ pre, n.CompactAt l1 pre → n.CompactAt l2 pre := by
  induction n using Node.induct with
  | step s tw tc cs ih =>
    intro pre h
    obtain ⟨h1, h2⟩ := (Node.compactAt_iff _ _ _ _ _ _).1 h
    refine (Node.compactAt_iff _ _ _ _ _ _).2
      ⟨fun c hc => ?_, fun c hc => ih c hc _ (h2 c hc)⟩
    rcases h1 c hc with h | h
    · exact Or.inl (hl _ h)
    · exact Or.inr h

/-- Compression below a node depends on its children only. -/
theorem Node.compactAt_congr (live : List Char → Prop) (pre : List Char) (n1 n2 : Node)
    (h : n1.childNodes = n2.childNodes) (hc : n1.CompactAt live pre) :
    n2.CompactAt live pre := by
  cases n1 with
  | mk s1 tw1 tc1 cs1 =>
    cases n2 with
    | mk s2 tw2 tc2 cs2 =>
      simp only [Node.childNodes_mk] at h
      subst h
      exact (Node.compactAt_iff _ _ _ _ _ _).2 ((Node.compactAt_iff _ _ _ _ _ _).1 hc)

/-- The paths below a node depend on its children only. -/
theorem Node.has_congr (n1 n2 : Node) (h : n1.childNodes = n2.childNodes) (p : List Char)
    (hp : n1.Has p) : n2.Has p := by
  cases hp with
  | here => exact Node.Has.here n2
  | step _ c q hc hq => exact Node.Has.step n2 c q (h ▸ hc) hq

/-- A non-empty path to a node runs through a child and goes on below it. -/
theorem Node.has_through (n : Node) (p : List Char) (hp : p ≠ []) (h : n.Has p) :
    ∃ c ∈ n.childNodes, ∃ q, p = c.s ++ q ∧ c.Has q := by
  cases h with
  | here => exact absurd rfl hp
  | step _ c q hc hq => exact ⟨c, hc, q, rfl, hq⟩

theorem Node.count_mk (s : List Char) (tw : Bool) (tc : Int) (cs : List Node) :
    (Node.mk s tw tc cs).count = Node.countList cs + 1 := by
  rw [Node.count]

theorem Node.countList_nil : Node.countList [] = 0 := by
  rw [Node.countList]

theorem Node.countList_cons (c : Node) (cs : List Node) :
    Node.countList (c :: cs) = c.count + Node.countList cs := by
  rw [Node.countList]

theorem Node.countList_eq_sum (cs : List Node) :
    Node.countList cs = (cs.map Node.count).sum := by
  induction cs with
  | nil => simp [Node.countList_nil]
  | cons c cs ih => simp [Node.countList_cons, ih]

theorem Node.countList_append (as bs : List Node) :
    Node.countList (as ++ bs) = Node.countList as + Node.countList bs := by
  simp [Node.countList_eq_sum]

theorem Node.countList_perm (as bs : List Node) (h : as.Perm bs) :
    Node.countList as = Node.countList bs := by
  rw [Node.countList_eq_sum, Node.countList_eq_sum]
  exact (h.map Node.count).sum_eq

/-- Unfolding of the pass on the empty string. -/
theorem Node.insert_nil_eq (fuel : Nat) (node : Node) (isWord : Bool) (size wc : Nat) :
    Node.insert (fuel + 1) node [] isWord size wc
      = if (isWord && node.terminalWord) = true then some ⟨false, node, size, wc⟩
        else some ⟨true,
          .mk node.s (node.terminalWord || isWord) (intInc node.terminalCount) node.childNodes,
          size, if isWord = true then sizeInc wc else wc⟩ := by
  rw [Node.insert]
  cases isWord <;> cases h : node.terminalWord <;> simp [h]

/-- Unfolding of the pass when no child starts with the first character of `sv`: a new
leaf labelled `sv` is stored and the pass goes on in it with the empty string. -/
theorem Node.insert_new_eq (fuel : Nat) (s : List Char) (tw : Bool) (tc : Int)
    (cs : List Node) (sv : List Char) (isWord : Bool) (size wc : Nat) (hsv : sv ≠ [])
    (hnone : ∀ c ∈ cs, c.s.head? ≠ sv.head?) :
    Node.insert (fuel + 1) (Node.mk s tw tc cs) sv isWord size wc
      = match Node.insert fuel (Node.mk sv false 0 []) [] isWord (sizeInc size) wc with
        | none => none
        | some r => some ⟨r.res, .mk s tw tc (r.node :: cs), r.size, r.wordCount⟩ := by
  have hfbp : (Node.mk s tw tc cs).findByDeterminingPrefix sv = none := by
    rcases Node.fbp_cases (Node.mk s tw tc cs) sv hsv with
      ⟨h, -, -⟩ | ⟨pre, c, post, hcs, -, hc, -, -⟩
    · exact h
    · exact absurd hc (hnone c (by simp at hcs; simp [hcs]))
  have hfresh : ∀ c ∈ cs, c.s ≠ (Node.mk sv false 0 []).s := by
    intro c hc h
    exact hnone c hc (by rw [h]; rfl)
  have hemp := emplace_fresh cs (Node.mk sv false 0 []) hfresh
  rw [Node.insert]
  simp only [hsv, if_false, hfbp, Node.childNodes_mk, Node.s_mk, Node.terminalWord_mk,
    Node.terminalCount_mk, hemp, List.drop_length]
  rfl

/-- Unfolding of the pass when the child `c` that starts like `sv` has its whole label
as a prefix of `sv`: the pass goes on in `c` with the rest of `sv`. -/
theorem Node.insert_full_eq (fuel : Nat) (s : List Char) (tw : Bool) (tc : Int)
    (pre post : List Node) (c : Node) (sv : List Char) (isWord : Bool) (size wc : Nat)
    (hsv : sv ≠ []) (hpre : ∀ b ∈ pre, b.s.head? ≠ sv.head?) (hc : c.s.head? = sv.head?)
    (hfbp : (Node.mk s tw tc (pre ++ c :: post)).findByDeterminingPrefix sv
      = some (⟨pre, c, post⟩, lcpLen c.s sv))
    (he : ¬ lcpLen c.s sv < c.s.length) :
    Node.insert (fuel + 1) (Node.mk s tw tc (pre ++ c :: post)) sv isWord size wc
      = match Node.insert fuel c (sv.drop c.s.length) isWord size wc with
        | none => none
        | some r => some ⟨r.res, .mk s tw tc (pre ++ r.node :: post), r.size, r.wordCount⟩ := by
  have hle := lcpLen_le_left c.s sv
  have hpfx : c.s <+: sv := (lcpLen_ge_iff c.s sv).1 (by omega)
  have heq : lcpLen c.s sv = c.s.length := by omega
  have htake : sv.take c.s.length = c.s := by
    obtain ⟨q, rfl⟩ := hpfx
    simp
  have hkey : findKey (sv.take c.s.length) [] (pre ++ c :: post) = some ⟨pre, c, post⟩ := by
    have := findKey_append (sv.take c.s.length) [] pre post c ?_ htake.symm
    · simpa using this
    · intro b hb h
      apply hpre b hb
      rw [h, htake]
      exact hc
  rw [Node.insert]
  simp only [hsv, if_false, hfbp, heq, lt_self_iff_false, Node.childNodes_mk,
    Node.s_mk, Node.terminalWord_mk, Node.terminalCount_mk, hkey]
  rfl

/-- Unfolding of the pass when the child `c` that starts like `sv` parts from `sv` inside
its label: `c` is cut at the first position `e` where the two differ, the front part
replaces it (stored first) with the back part as its only child, and the pass goes on in
the front part with the rest of `sv`. -/
theorem Node.insert_split_eq (fuel : Nat) (s : List Char) (tw : Bool) (tc : Int)
    (pre post : List Node) (c : Node) (sv : List Char) (isWord : Bool) (size wc : Nat)
    (hsv : sv ≠ []) (hc : c.s.head? = sv.head?)
    (hother : ∀ x ∈ pre ++ post, x.s.head? ≠ c.s.head?)
    (hfbp : (Node.mk s tw tc (pre ++ c :: post)).findByDeterminingPrefix sv
      = some (⟨pre, c, post⟩, lcpLen c.s sv))
    (he : lcpLen c.s sv < c.s.length) :
    Node.insert (fuel + 1) (Node.mk s tw tc (pre ++ c :: post)) sv isWord size wc
      = match Node.insert fuel
          (Node.mk (c.s.take (lcpLen c.s sv)) false 0
            [Node.mk (c.s.drop (lcpLen c.s sv)) c.terminalWord c.terminalCount c.childNodes])
          (sv.drop (lcpLen c.s sv)) isWord (sizeInc size) wc with
        | none => none
        | some r =>
          some ⟨r.res, .mk s tw tc (r.node :: (pre ++ post)), r.size, r.wordCount⟩ := by
  have hpos := lcpLen_pos c.s sv hsv hc
  have hahead : (c.s.take (lcpLen c.s sv)).head? = c.s.head? := head_take _ _ hpos
  have hemp : emplace (pre ++ post)
      (Node.mk (c.s.take (lcpLen c.s sv)) false 0 c.childNodes)
      = ⟨[], Node.mk (c.s.take (lcpLen c.s sv)) false 0 c.childNodes, pre ++ post⟩ := by
    apply emplace_fresh
    intro x hx h
    apply hother x hx
    rw [h]
    exact hahead
  have hemp3 : ∀ n : Node, emplace [] n = ⟨[], n, []⟩ := fun n =>
    emplace_fresh [] n (by simp)
  rw [Node.insert]
  simp only [hsv, if_false, hfbp, he, if_true, Node.childNodes_mk,
    Node.s_mk, Node.terminalWord_mk, Node.terminalCount_mk, Iter.remove, hemp, hemp3,
    Iter.put, List.nil_append]

theorem growth_nil (live : List Char → Prop) (P : List Char) (fuel : Nat) (node : Node)
    (isWord : Bool) (size wc : Nat) (hcp : node.CompactAt live P) (r : Pass)
    (h : Node.insert (fuel + 1) node [] isWord size wc = some r) :
    GrowthPost live P node [] size r := by
  have hmono : node.CompactAt (fun p => live p ∨ p = P ++ []) P :=
    Node.compactAt_mono live _ (fun p hp => Or.inl hp) node P hcp
  rw [Node.insert_nil_eq] at h
  split at h
  · simp only [Option.some.injEq] at h
    subst h
    exact ⟨hmono, ⟨0, rfl, rfl⟩, rfl, le_refl _, fun hh => absurd rfl hh, fun hs => hs,
      Node.Has.here _, fun p hp => hp⟩
  · simp only [Option.some.injEq] at h
    subst h
    refine ⟨Node.compactAt_congr _ _ node _ rfl hmono, ⟨0, ?_, rfl⟩, rfl, le_refl _,
      fun hh => absurd rfl hh, fun hs => hs, Node.Has.here _,
      fun p hp => Node.has_congr node (Node.mk node.s _ _ node.childNodes) rfl p hp⟩
    cases node
    simp [Node.count_mk]

theorem growth_new (live : List Char → Prop) (P : List Char) (fuel : Nat) (s : List Char)
    (tw : Bool) (tc : Int) (cs : List Node) (sv : List Char) (isWord : Bool)
    (size wc : Nat) (hf : sv.length < fuel + 1) (hsv : sv ≠ [])
    (hcp : (Node.mk s tw tc cs).CompactAt live P)
    (hnone : ∀ c ∈ cs, c.s.head? ≠ sv.head?) (r : Pass)
    (h : Node.insert (fuel + 1) (Node.mk s tw tc cs) sv isWord size wc = some r) :
    GrowthPost live P (Node.mk s tw tc cs) sv size r := by
  obtain ⟨h1, h2⟩ := (Node.compactAt_iff _ _ _ _ _ _).1 hcp
  have hlen : 0 < sv.length := List.length_pos.2 hsv
  obtain ⟨f, rfl⟩ : ∃ f, fuel = f + 1 := ⟨fuel - 1, by omega⟩
  rw [Node.insert_new_eq _ s tw tc cs sv isWord size wc hsv hnone, Node.insert_nil_eq] at h
  simp only [Node.terminalWord_mk, Bool.and_false, Bool.false_eq_true, if_false,
    Node.s_mk, Node.terminalCount_mk, Node.childNodes_mk, Option.some.injEq] at h
  subst h
  refine ⟨(Node.compactAt_iff _ _ _ _ _ _).2 ⟨?_, ?_⟩, ⟨1, ?_, ?_⟩, rfl, ?_,
    fun _ _ => ?_, fun _ => Nat.mod_lt _ (by decide), ?_, ?_⟩
  · intro c hc
    rcases List.mem_cons.1 hc with rfl | hc
    · left; right; rfl
    · rcases h1 c hc with h | h
      · exact Or.inl (Or.inl h)
      · exact Or.inr h
  · intro c hc
    rcases List.mem_cons.1 hc with rfl | hc
    · exact (Node.compactAt_iff _ _ _ _ _ _).2 ⟨by simp, by simp⟩
    · exact Node.compactAt_mono live _ (fun p hp => Or.inl hp) c _ (h2 c hc)
  · simp [Node.count_mk, Node.countList_cons, Node.countList_nil]; omega
  · simp [sizeInc]
  · simp
  · simp
  · have := Node.Has.step
      (Node.mk s tw tc (Node.mk sv (false || isWord) (intInc 0) [] :: cs))
      (Node.mk sv (false || isWord) (intInc 0) []) [] (by simp) (Node.Has.here _)
    simpa using this
  · intro p hp
    cases hp with
    | here => exact Node.Has.here _
    | step _ c q hc hq =>
      exact Node.Has.step _ c q (List.mem_cons_of_mem _ hc) hq

theorem growth_full (live : List Char → Prop) (P : List Char) (fuel : Nat) (s : List Char)
    (tw : Bool) (tc : Int) (pre post : List Node) (c : Node) (sv : List Char)
    (isWord : Bool) (size wc : Nat)
    (ih : ∀ r, Node.insert fuel c (sv.drop c.s.length) isWord size wc = some r →
      GrowthPost live (P ++ c.s) c (sv.drop c.s.length) size r)
    (hsv : sv ≠ []) (hcp : (Node.mk s tw tc (pre ++ c :: post)).CompactAt live P)
    (hpre : ∀ b ∈ pre, b.s.head? ≠ sv.head?) (hc : c.s.head? = sv.head?)
    (hfbp : (Node.mk s tw tc (pre ++ c :: post)).findByDeterminingPrefix sv
      = some (⟨pre, c, post⟩, lcpLen c.s sv))
    (he : ¬ lcpLen c.s sv < c.s.length) (r : Pass)
    (h : Node.insert (fuel + 1) (Node.mk s tw tc (pre ++ c :: post)) sv isWord size wc
      = some r) :
    GrowthPost live P (Node.mk s tw tc (pre ++ c :: post)) sv size r := by
  obtain ⟨h1, h2⟩ := (Node.compactAt_iff _ _ _ _ _ _).1 hcp
  have hpfx : c.s <+: sv := (lcpLen_ge_iff c.s sv).1 (by omega)
  have hsplit : c.s ++ sv.drop c.s.length = sv := by
    obtain ⟨q, rfl⟩ := hpfx
    simp
  rw [Node.insert_full_eq fuel s tw tc pre post c sv isWord size wc hsv hpre hc hfbp he] at h
  split at h
  · simp at h
  · rename_i r1 hr1
    simp only [Option.some.injEq] at h
    subst h
    obtain ⟨g1, ⟨k, gk, gs⟩, g3, g4, -, g6, g7, g8⟩ := ih r1 hr1
    have hcat : live (P ++ c.s) ∨ 2 ≤ c.childNodes.length := h1 c (by simp)
    have hpath : (P ++ c.s) ++ sv.drop c.s.length = P ++ sv := by
      rw [List.append_assoc, hsplit]
    refine ⟨(Node.compactAt_iff _ _ _ _ _ _).2 ⟨?_, ?_⟩, ⟨k, ?_, gs⟩, rfl, ?_,
      fun _ hno => absurd hc (hno c (by simp)), g6, ?_, ?_⟩
    · intro x hx
      rcases List.mem_append.1 hx with hx | hx
      · rcases h1 x (by simp [hx]) with h | h
        · exact Or.inl (Or.inl h)
        · exact Or.inr h
      · rcases List.mem_cons.1 hx with rfl | hx
        · rcases hcat with h | h
          · left; left; rw [g3]; exact h
          · right; omega
        · rcases h1 x (by simp [hx]) with h | h
          · exact Or.inl (Or.inl h)
          · exact Or.inr h
    · intro x hx
      rcases List.mem_append.1 hx with hx | hx
      · exact Node.compactAt_mono live _ (fun p hp => Or.inl hp) x _ (h2 x (by simp [hx]))
      · rcases List.mem_cons.1 hx with rfl | hx
        · rw [g3]
          refine Node.compactAt_mono _ _ (fun p hp => ?_) _ _ g1
          rcases hp with hp | hp
          · exact Or.inl hp
          · exact Or.inr (hp.trans hpath)
        · exact Node.compactAt_mono live _ (fun p hp => Or.inl hp) x _ (h2 x (by simp [hx]))
    · simp only [Node.count_mk, Node.countList_append, Node.countList_cons, gk]
      omega
    · simp
    · have := Node.Has.step (Node.mk s tw tc (pre ++ r1.node :: post)) r1.node
        (sv.drop c.s.length) (by simp) g7
      rwa [g3, hsplit] at this
    · intro p hp
      cases hp with
      | here => exact Node.Has.here _
      | step _ x q hx hq =>
        simp only [Node.childNodes_mk, List.mem_append, List.mem_cons] at hx
        rcases hx with hx | rfl | hx
        · exact Node.Has.step _ x q (by simp [hx]) hq
        · have := Node.Has.step (Node.mk s tw tc (pre ++ r1.node :: post)) r1.node q
            (by simp) (g8 q hq)
          rwa [g3] at this
        · exact Node.Has.step _ x q (by simp [hx]) hq

theorem growth_split (live : List Char → Prop) (P : List Char) (fuel : Nat) (s : List Char)
    (tw : Bool) (tc : Int) (pre post : List Node) (c : Node) (sv : List Char)
    (isWord : Bool) (size wc : Nat)
    (ih : ∀ r, Node.insert fuel
        (Node.mk (c.s.take (lcpLen c.s sv)) false 0
          [Node.mk (c.s.drop (lcpLen c.s sv)) c.terminalWord c.terminalCount c.childNodes])
        (sv.drop (lcpLen c.s sv)) isWord (sizeInc size) wc = some r →
      GrowthPost live (P ++ c.s.take (lcpLen c.s sv))
        (Node.mk (c.s.take (lcpLen c.s sv)) false 0
          [Node.mk (c.s.drop (lcpLen c.s sv)) c.terminalWord c.terminalCount c.childNodes])
        (sv.drop (lcpLen c.s sv)) (sizeInc size) r)
    (hsv : sv ≠ []) (hcp : (Node.mk s tw tc (pre ++ c :: post)).CompactAt live P)
    (hc : c.s.head? = sv.head?)
    (hother : ∀ x ∈ pre ++ post, x.s.head? ≠ c.s.head?)
    (hfbp : (Node.mk s tw tc (pre ++ c :: post)).findByDeterminingPrefix sv
      = some (⟨pre, c, post⟩, lcpLen c.s sv))
    (he : lcpLen c.s sv < c.s.length) (r : Pass)
    (h : Node.insert (fuel + 1) (Node.mk s tw tc (pre ++ c :: post)) sv isWord size wc
      = some r) :
    GrowthPost live P (Node.mk s tw tc (pre ++ c :: post)) sv size r := by
  obtain ⟨h1, h2⟩ := (Node.compactAt_iff _ _ _ _ _ _).1 hcp
  have hler := lcpLen_le_right c.s sv
  have htake := lcpLen_take c.s sv
  have hsplit : c.s.take (lcpLen c.s sv) ++ sv.drop (lcpLen c.s sv) = sv := by
    rw [htake, List.take_append_drop]
  have hpath : (P ++ c.s.take (lcpLen c.s sv)) ++ sv.drop (lcpLen c.s sv) = P ++ sv := by
    rw [List.append_assoc, hsplit]
  rw [Node.insert_split_eq fuel s tw tc pre post c sv isWord size wc hsv hc hother hfbp he]
    at h
  split at h
  · simp at h
  · rename_i r1 hr1
    simp only [Option.some.injEq] at h
    subst h
    obtain ⟨g1, ⟨k, gk, gs⟩, g3, g4, g5, g6, g7, g8⟩ := ih r1 hr1
    simp only [Node.childNodes_mk, List.length_singleton, List.mem_singleton, forall_eq,
      Node.s_mk] at g3 g4 g5
    have hat : (live (P ++ r1.node.s) ∨ P ++ r1.node.s = P ++ sv)
        ∨ 2 ≤ r1.node.childNodes.length := by
      by_cases h0 : sv.drop (lcpLen c.s sv) = []
      · left; right
        rw [g3]
        rw [h0, List.append_nil] at hsplit
        rw [hsplit]
      · right
        have hlt : lcpLen c.s sv < sv.length := by
          by_contra hge
          exact h0 (List.drop_eq_nil_of_le (by omega))
        rw [g5 h0 (lcpLen_head_ne c.s sv he hlt)]
    refine ⟨(Node.compactAt_iff _ _ _ _ _ _).2 ⟨?_, ?_⟩, ⟨1 + k, ?_, ?_⟩, rfl, ?_,
      fun _ hno => absurd hc (hno c (by simp)),
      fun _ => g6 (Nat.mod_lt _ (by decide)), ?_, ?_⟩
    · intro x hx
      rcases List.mem_cons.1 hx with rfl | hx
      · exact hat
      · rcases List.mem_append.1 hx with hx | hx
        · rcases h1 x (by simp [hx]) with h | h
          · exact Or.inl (Or.inl h)
          · exact Or.inr h
        · rcases h1 x (by simp [hx]) with h | h
          · exact Or.inl (Or.inl h)
          · exact Or.inr h
    · intro x hx
      rcases List.mem_cons.1 hx with rfl | hx
      · rw [g3]
        refine Node.compactAt_mono _ _ (fun p hp => ?_) _ _ g1
        rcases hp with hp | hp
        · exact Or.inl hp
        · exact Or.inr (hp.trans hpath)
      · rcases List.mem_append.1 hx with hx | hx
        · exact Node.compactAt_mono live _ (fun p hp => Or.inl hp) x _ (h2 x (by simp [hx]))
        · exact Node.compactAt_mono live _ (fun p hp => Or.inl hp) x _ (h2 x (by simp [hx]))
    · have hcc : c.count = Node.countList c.childNodes + 1 := by
        cases c; simp [Node.count_mk]
      simp only [Node.count_mk, Node.countList_append, Node.countList_cons,
        Node.countList_nil] at gk ⊢
      rw [gk, hcc]
      omega
    · rw [gs]
      simp only [sizeInc]
      omega
    · simp; omega
    · have := Node.Has.step (Node.mk s tw tc (r1.node :: (pre ++ post))) r1.node
        (sv.drop (lcpLen c.s sv)) (by simp) g7
      rwa [g3, hsplit] at this
    · intro p hp
      cases hp with
      | here => exact Node.Has.here _
      | step _ x q hx hq =>
        simp only [Node.childNodes_mk, List.mem_append, List.mem_cons] at hx
        rcases hx with hx | rfl | hx
        · exact Node.Has.step _ x q (by simp [hx]) hq
        · have hback : (Node.mk (x.s.drop (lcpLen x.s sv)) x.terminalWord x.terminalCount
              x.childNodes).Has q :=
            Node.has_congr x (Node.mk _ x.terminalWord x.terminalCount x.childNodes) rfl q hq
          have hfront := Node.Has.step
            (Node.mk (x.s.take (lcpLen x.s sv)) false 0
              [Node.mk (x.s.drop (lcpLen x.s sv)) x.terminalWord x.terminalCount
                x.childNodes])
            (Node.mk (x.s.drop (lcpLen x.s sv)) x.terminalWord x.terminalCount
              x.childNodes) q (by simp) hback
          have := Node.Has.step (Node.mk s tw tc (r1.node :: (pre ++ post))) r1.node _
            (by simp) (g8 _ hfront)
          rw [g3] at this
          simpa [← List.append_assoc, List.take_append_drop] using this
        · exact Node.Has.step _ x q (by simp [hx]) hq

theorem Node.insert_growth (isWord : Bool) (fuel : Nat) :
    ∀ (live : List Char → Prop) (P : List Char) (node : Node) (sv : List Char)
      (size wc : Nat), sv.length < fuel → node.WF → node.CompactAt live P →
      ∀ r, Node.insert fuel node sv isWord size wc = some r →
        GrowthPost live P node sv size r := by
  induction fuel with
  | zero => intro live P node sv size wc hf; omega
  | succ fuel ih =>
    intro live P node sv size wc hf hwf hcp r h
    by_cases hsv : sv = []
    · subst hsv
      exact growth_nil live P fuel node isWord size wc hcp r h
    · have hlen : 0 < sv.length := List.length_pos.2 hsv
      cases node with
      | mk s tw tc cs =>
        obtain ⟨hne, hpw, hwfc⟩ := (Node.wf_iff _ _ _ _).1 hwf
        obtain ⟨h1, h2⟩ := (Node.compactAt_iff _ _ _ _ _ _).1 hcp
        rcases Node.fbp_cases (Node.mk s tw tc cs) sv hsv with
          ⟨-, -, hnone⟩ | ⟨pre, c, post, hcs, hpre, hc, hfbp, -⟩
        · exact growth_new live P fuel s tw tc cs sv isWord size wc hf hsv hcp hnone r h
        · simp only [Node.childNodes_mk] at hcs
          subst hcs
          have hcmem : c ∈ pre ++ c :: post := by simp
          have hpos := lcpLen_pos c.s sv hsv hc
          have hler := lcpLen_le_right c.s sv
          have hlel := lcpLen_le_left c.s sv
          by_cases he : lcpLen c.s sv < c.s.length
          · obtain ⟨-, hother⟩ := pairwise_mid pre post c hpw
            have hbne : c.s.drop (lcpLen c.s sv) ≠ [] := by
              intro h
              have := congrArg List.length h
              simp at this
              omega
            have hwf2 : (Node.mk (c.s.take (lcpLen c.s sv)) false 0
                [Node.mk (c.s.drop (lcpLen c.s sv)) c.terminalWord c.terminalCount
                  c.childNodes]).WF := by
              refine (Node.wf_iff _ _ _ _).2 ⟨?_, by simp, ?_⟩
              · intro x hx
                simp at hx
                subst hx
                exact hbne
              · intro x hx
                simp at hx
                subst hx
                exact Node.wf_congr c _ rfl (hwfc c hcmem)
            have hpc : (P ++ c.s.take (lcpLen c.s sv)) ++ c.s.drop (lcpLen c.s sv)
                = P ++ c.s := by
              rw [List.append_assoc, List.take_append_drop]
            have hcp2 : (Node.mk (c.s.take (lcpLen c.s sv)) false 0
                [Node.mk (c.s.drop (lcpLen c.s sv)) c.terminalWord c.terminalCount
                  c.childNodes]).CompactAt live (P ++ c.s.take (lcpLen c.s sv)) := by
              refine (Node.compactAt_iff _ _ _ _ _ _).2 ⟨?_, ?_⟩
              · intro x hx
                simp at hx
                subst hx
                simp only [Node.s_mk, Node.childNodes_mk]
                rw [hpc]
                exact h1 c hcmem
              · intro x hx
                simp at hx
                subst hx
                simp only [Node.s_mk]
                rw [hpc]
                exact Node.compactAt_congr _ _ c _ rfl (h2 c hcmem)
            exact growth_split live P fuel s tw tc pre post c sv isWord size wc
              (ih _ _ _ _ _ _ (by simp; omega) hwf2 hcp2) hsv hcp hc hother hfbp he r h
          · exact growth_full live P fuel s tw tc pre post c sv isWord size wc
              (ih _ _ _ _ _ _ (by simp; omega) (hwfc c hcmem) (h2 c hcmem)) hsv hcp hpre hc
              hfbp he r h

theorem compressed_new : Compressed (fun _ => False) CompressedSuffixTree.new := by
  refine ⟨(Node.compactAt_iff _ _ _ _ _ _).2 ⟨by simp, by simp⟩, fun p hp => hp.elim,
    by simp [CompressedSuffixTree.new], ?_⟩
  simp [CompressedSuffixTree.new, Node.count_mk, Node.countList_nil]

/-- The invariant depends on the set of live paths only. -/
theorem compressed_congr (l1 l2 : List Char → Prop) (hl : ∀ p, l1 p ↔ l2 p)
    (t : CompressedSuffixTree) (h : Compressed l1 t) : Compressed l2 t := by
  obtain ⟨h1, h2, h3, h4⟩ := h
  exact ⟨Node.compactAt_mono l1 l2 (fun p hp => (hl p).1 hp) _ _ h1,
    fun p hp => h2 p ((hl p).2 hp), h3, h4⟩

theorem pass_compressed (live : List Char → Prop) (t : CompressedSuffixTree)
    (hwf : t._root.WF) (hc : Compressed live t)
    (sv : List Char) (isWord : Bool) (r : Pass)
    (h : Node.insert (sv.length + 1) t._root sv isWord t._size t._wordCount = some r) :
    Compressed (fun p => live p ∨ p = sv) ⟨r.size, r.wordCount, r.node⟩ := by
  obtain ⟨h1, h2, h3, h4⟩ := hc
  obtain ⟨g1, ⟨k, gk, gs⟩, -, -, -, g6, g7, g8⟩ :=
    Node.insert_growth isWord (sv.length + 1) live [] t._root sv t._size t._wordCount
      (by omega) hwf h1 r h
  refine ⟨?_, ?_, g6 h3, ?_⟩
  · simpa using g1
  · rintro p (hp | rfl)
    · exact g8 p (h2 p hp)
    · exact g7
  · simp only
    rw [gk]
    omega

theorem pass_wf (t : CompressedSuffixTree) (hwf : t._root.WF)
    (sv : List Char) (isWord : Bool) (r : Pass)
    (h : Node.insert (sv.length + 1) t._root sv isWord t._size t._wordCount = some r) :
    r.node.WF ∧ r.node.s = t._root.s := by
  obtain ⟨r2, hr2, -, hfalse, htrue⟩ :=
    Node.insert_pass_spec isWord (sv.length + 1) t._root sv t._size t._wordCount
      (by omega) hwf
  rw [h] at hr2
  simp only [Option.some.injEq] at hr2
  subst hr2
  cases hres : r.res with
  | true => exact ⟨(htrue hres).1, (htrue hres).2.1⟩
  | false => rw [(hfalse hres).1]; exact ⟨hwf, rfl⟩

theorem CompressedSuffixTree.insertLoop_compressed (word : List Char) :
    ∀ (ns : List Nat) (live : List Char → Prop) (t t2 : CompressedSuffixTree),
      t._root.WF → Compressed live t → insertLoop word ns t = some t2 →
        t2._root.WF ∧ Compressed (fun p => live p ∨ ∃ n ∈ ns, p = word.drop n) t2
          ∧ t2._root.s = t._root.s := by
  intro ns
  induction ns with
  | nil =>
    intro live t t2 hwf hc h
    simp only [insertLoop, Option.some.injEq] at h
    subst h
    exact ⟨hwf, compressed_congr live _ (fun p => by simp) _ hc, rfl⟩
  | cons n ns ih =>
    intro live t t2 hwf hc h
    simp only [insertLoop] at h
    split at h
    · simp at h
    · rename_i r hr
      split at h
      · obtain ⟨g1, g2, g3⟩ :=
          ih _ _ _ (pass_wf t hwf _ _ r hr).1 (pass_compressed live t hwf hc _ _ r hr) h
        refine ⟨g1, compressed_congr _ _ (fun p => ?_) _ g2,
          g3.trans (pass_wf t hwf _ _ r hr).2⟩
        simp only [List.mem_cons, exists_eq_or_imp]
        tauto
      · simp at h

/-- The non-empty suffixes of a non-empty word are the word itself and the strings that
the suffix loop of `insert` passes. -/
theorem nonempty_suffix_iff (w p : List Char) (hw : w ≠ []) :
    (p ≠ [] ∧ p <:+ w) ↔ (p = w ∨ ∃ n ∈ List.range' 1 (w.length - 1), p = w.drop n) := by
  have hlen : 0 < w.length := List.length_pos.2 hw
  constructor
  · rintro ⟨hp, hsuf⟩
    have hpl : 0 < p.length := List.length_pos.2 hp
    have hle := hsuf.length_le
    have heq := List.suffix_iff_eq_drop.1 hsuf
    by_cases h0 : w.length - p.length = 0
    · left
      rw [heq, h0, List.drop_zero]
    · right
      refine ⟨w.length - p.length, ?_, heq⟩
      rw [List.mem_range'_1]
      omega
  · rintro (rfl | ⟨n, hn, rfl⟩)
    · exact ⟨hw, List.suffix_refl _⟩
    · rw [List.mem_range'_1] at hn
      refine ⟨?_, List.drop_suffix _ _⟩
      intro h
      have := congrArg List.length h
      simp at this
      omega

/-- A public `insert` that returns true keeps the tree well-formed and compressed, with
the non-empty suffixes of the word added to the live paths. -/
theorem CompressedSuffixTree.insert_compressed (live : List Char → Prop)
    (t : CompressedSuffixTree) (hwf : t._root.WF) (hc : Compressed live t) (w : List Char)
    (t2 : CompressedSuffixTree) (h : t.insert w = some (true, t2)) :
    t2._root.WF ∧ Compressed (fun p => live p ∨ (p ≠ [] ∧ p <:+ w)) t2
      ∧ t2._root.s = t._root.s := by
  unfold CompressedSuffixTree.insert at h
  split at h
  · simp at h
  · rename_i hw
    split at h
    · simp at h
    · rename_i r hr
      split at h
      · simp at h
      · split at h
        · simp at h
        · rename_i t3 ht3
          simp only [Option.some.injEq, Prod.mk.injEq, true_and] at h
          subst h
          obtain ⟨g1, g2, g3⟩ := insertLoop_compressed w _ _ _ _ (pass_wf t hwf _ _ r hr).1
            (pass_compressed live t hwf hc _ _ r hr) ht3
          refine ⟨g1, compressed_congr _ _ (fun p => ?_) _ g2,
            g3.trans (pass_wf t hwf _ _ r hr).2⟩
          rw [nonempty_suffix_iff w p hw]
          tauto

/-- One more insertion into an index that represents the list `A` of accepted words and
is compressed with respect to the non-empty suffixes of `A`. -/
theorem compressed_insert (t : CompressedSuffixTree) (A : List (List Char))
    (h : Represents t A) (hcomp : Compressed (SuffixOf A) t)
    (hc : t._wordCount = A.length % 2 ^ 64) (w : List Char) :
    ∃ b t2 A2, t.insert w = some (b, t2) ∧ Represents t2 A2 ∧ Compressed (SuffixOf A2) t2
      ∧ (∀ x, x ∈ A2 ↔ x ∈ A ∨ (x = w ∧ x ≠ []))
      ∧ t2._wordCount = A2.length % 2 ^ 64 ∧ t2._root.s = t._root.s := by
  obtain ⟨b, t2, A2, hins, hrep, hmem, hwc⟩ := represents_insert_count t A h hc w
  obtain ⟨hwf, -, -, hfl⟩ := h
  have hsearch : t.search w = decide (w ∈ A) := by
    rw [search_eq_flags, hfl]
  cases b with
  | true =>
    obtain ⟨-, g2, g3⟩ := CompressedSuffixTree.insert_compressed _ t hwf hcomp w t2 hins
    refine ⟨true, t2, A2, hins, hrep, compressed_congr _ _ (fun p => ?_) _ g2, hmem, hwc, g3⟩
    unfold SuffixOf
    constructor
    · rintro (⟨hp, x, hx, hsuf⟩ | ⟨hp, hsuf⟩)
      · exact ⟨hp, x, (hmem x).2 (Or.inl hx), hsuf⟩
      · have hw : w ≠ [] := by
          rintro rfl
          exact hp (List.suffix_nil.1 hsuf)
        exact ⟨hp, w, (hmem w).2 (Or.inr ⟨rfl, hw⟩), hsuf⟩
    · rintro ⟨hp, x, hx, hsuf⟩
      rcases (hmem x).1 hx with hx | ⟨rfl, -⟩
      · exact Or.inl ⟨hp, x, hx, hsuf⟩
      · exact Or.inr ⟨hp, hsuf⟩
  | false =>
    obtain ⟨t3, h3, hsame, -⟩ := CompressedSuffixTree.insert_call_spec t hwf w
    rw [hins] at h3
    simp only [Option.some.injEq, Prod.mk.injEq] at h3
    obtain ⟨hb, rfl⟩ := h3
    have hc2 : (decide (w = []) || t.search w) = true := by
      cases hcc : (decide (w = []) || t.search w)
      · rw [hcc] at hb; simp at hb
      · rfl
    have ht : t2 = t := hsame hc2
    subst ht
    refine ⟨false, t2, A2, hins, hrep, compressed_congr _ _ (fun p => ?_) _ hcomp, hmem,
      hwc, rfl⟩
    unfold SuffixOf
    constructor
    · rintro ⟨hp, x, hx, hsuf⟩
      exact ⟨hp, x, (hmem x).2 (Or.inl hx), hsuf⟩
    · rintro ⟨hp, x, hx, hsuf⟩
      rcases (hmem x).1 hx with hx | ⟨rfl, hxne⟩
      · exact ⟨hp, x, hx, hsuf⟩
      · simp only [Bool.or_eq_true, decide_eq_true_eq, hsearch] at hc2
        rcases hc2 with hc2 | hc2
        · exact absurd hc2 hxne
        · exact ⟨hp, x, hc2, hsuf⟩

/-- The index built by inserting the words of `W` one by one represents the list of the
accepted words and is compressed with respect to their non-empty suffixes. -/
theorem compressed_insertAll (W : List (List Char)) :
    ∀ (t : CompressedSuffixTree) (A : List (List Char)), Represents t A →
      Compressed (SuffixOf A) t → t._wordCount = A.length % 2 ^ 64 →
      ∃ t2 A2, insertAll W t = some t2 ∧ Represents t2 A2 ∧ Compressed (SuffixOf A2) t2
        ∧ (∀ x, x ∈ A2 ↔ x ∈ A ∨ (x ∈ W ∧ x ≠ []))
        ∧ t2._wordCount = A2.length % 2 ^ 64 ∧ t2._root.s = t._root.s := by
  induction W with
  | nil =>
    intro t A h hcomp hc
    exact ⟨t, A, rfl, h, hcomp, by simp, hc, rfl⟩
  | cons w W ih =>
    intro t A h hcomp hc
    obtain ⟨b, t1, A1, h1, hr1, hcomp1, hm1, hc1, hs1⟩ := compressed_insert t A h hcomp hc w
    obtain ⟨t2, A2, h2, hr2, hcomp2, hm2, hc2, hs2⟩ := ih t1 A1 hr1 hcomp1 hc1
    refine ⟨t2, A2, ?_, hr2, hcomp2, ?_, hc2, hs2.trans hs1⟩
    · simp only [insertAll, h1, h2]
    · intro x
      rw [hm2, hm1, List.mem_cons]
      constructor
      · rintro ((hx | ⟨rfl, hx⟩) | ⟨hx, hx2⟩)
        · exact Or.inl hx
        · exact Or.inr ⟨Or.inl rfl, hx⟩
        · exact Or.inr ⟨Or.inr hx, hx2⟩
      · rintro (hx | ⟨rfl | hx, hx2⟩)
        · exact Or.inl (Or.inl hx)
        · exact Or.inl (Or.inr ⟨rfl, hx2⟩)
        · exact Or.inr ⟨hx, hx2⟩

theorem compressed_suffixOf_nil : Compressed (SuffixOf []) CompressedSuffixTree.new :=
  compressed_congr _ _ (fun p => by simp [SuffixOf]) _ compressed_new

/-- In a well-formed node the child that a path is matched against is the one child that
starts with the first character of the path. -/
theorem Node.find_child (n : Node) (hwf : n.WF) (c : Node) (hc : c ∈ n.childNodes)
    (p : List Char) (hp : c.s.head? = p.head?) :
    n.childNodes.find? (fun c => c.s.head? == p.head?) = some c := by
  obtain ⟨-, hpw, -⟩ := Node.wf_children n hwf
  obtain ⟨pre, post, hcs⟩ := List.append_of_mem hc
  rw [hcs] at hpw ⊢
  obtain ⟨-, hother⟩ := pairwise_mid pre post c hpw
  exact find_mid pre post c p
    (fun b hb => by rw [← hp]; exact hother b (by simp [hb])) hp

/-- Flags below a child, read from its parent. -/
theorem Node.flagsAt_child (n : Node) (hwf : n.WF) (c : Node) (hc : c ∈ n.childNodes)
    (q : List Char) : n.flagsAt (c.s ++ q) = c.flagsAt q := by
  obtain ⟨hne, -, -⟩ := Node.wf_children n hwf
  have hcne := hne c hc
  have hp : c.s ++ q ≠ [] := by simp [hcne]
  have hh : c.s.head? = (c.s ++ q).head? :=
    prefix_head_eq c.s _ hcne (List.prefix_append _ _)
  rw [Node.flagsAt_cons n _ hp, Node.find_child n hwf c hc _ hh]
  simp

/-- A non-empty path to a node below a well-formed node runs through the one child that
starts with its first character. -/
theorem Node.has_child (n : Node) (hwf : n.WF) (c : Node) (hc : c ∈ n.childNodes)
    (p : List Char) (hp : p ≠ []) (hh : c.s.head? = p.head?) (h : n.Has p) :
    ∃ q, p = c.s ++ q ∧ c.Has q := by
  obtain ⟨c2, hc2, q, rfl, hq⟩ := Node.has_through n p hp h
  obtain ⟨hne, -, -⟩ := Node.wf_children n hwf
  have hh2 : c2.s.head? = (c2.s ++ q).head? :=
    prefix_head_eq c2.s _ (hne c2 hc2) (List.prefix_append _ _)
  have e1 := Node.find_child n hwf c hc _ hh
  have e2 := Node.find_child n hwf c2 hc2 _ hh2
  rw [e1] at e2
  have e3 := Option.some.inj e2
  subst e3
  exact ⟨q, rfl, hq⟩

/-- Below every node that lies on a live path or branches, some path is live. -/
theorem Node.exists_live (live : List Char → Prop) (c : Node) :
    ∀ P : List Char, c.WF → c.CompactAt live P →
      (live P ∨ 2 ≤ c.childNodes.length) → ∃ q, live (P ++ q) := by
  induction c using Node.induct with
  | step s tw tc cs ih =>
    intro P hwf hcp hat
    rcases hat with hat | hat
    · exact ⟨[], by simpa using hat⟩
    · obtain ⟨h1, h2⟩ := (Node.compactAt_iff _ _ _ _ _ _).1 hcp
      obtain ⟨-, -, hwfc⟩ := (Node.wf_iff _ _ _ _).1 hwf
      simp only [Node.childNodes_mk] at hat
      cases cs with
      | nil => simp at hat
      | cons c1 rest =>
        have hm : c1 ∈ c1 :: rest := List.mem_cons_self _ _
        obtain ⟨q, hq⟩ := ih c1 hm (P ++ c1.s) (hwfc c1 hm) (h2 c1 hm) (h1 c1 hm)
        exact ⟨c1.s ++ q, by rwa [← List.append_assoc]⟩

/-- What compression says of a child of the node with path `P`. -/
theorem Node.compactAt_child (live : List Char → Prop) (P : List Char) (m : Node)
    (hmc : m.CompactAt live P) (d : Node) (hd : d ∈ m.childNodes) :
    (live (P ++ d.s) ∨ 2 ≤ d.childNodes.length) ∧ d.CompactAt live (P ++ d.s) := by
  cases m with
  | mk s tw tc cs =>
    obtain ⟨h1, h2⟩ := (Node.compactAt_iff _ _ _ _ _ _).1 hmc
    exact ⟨h1 d hd, h2 d hd⟩

/-- When a node lies on every live path below `n`, and `m` is compressed with respect to
the live paths, no child of `n` carries a label that extends the label of a child of
`m`. -/
theorem Node.label_not_longer (live : List Char → Prop) (P : List Char) (n m : Node)
    (hn : n.WF) (hm : m.WF) (hmc : m.CompactAt live P)
    (hcov : ∀ q, live (P ++ q) → n.Has q) (c : Node) (hc : c ∈ n.childNodes)
    (d : Node) (hd : d ∈ m.childNodes) (e : List Char) (he : e ≠ [])
    (hce : c.s = d.s ++ e) : False := by
  obtain ⟨hmne, -, hmwf⟩ := Node.wf_children m hm
  have hdne := hmne d hd
  have hdwf := hmwf d hd
  have hhead : c.s.head? = d.s.head? := by
    rw [hce]
    exact (prefix_head_eq d.s _ hdne (List.prefix_append _ _)).symm
  obtain ⟨hat, hdc⟩ := Node.compactAt_child live P m hmc d hd
  rcases hat with hat | hat
  · obtain ⟨q, hq, -⟩ := Node.has_child n hn c hc d.s hdne hhead (hcov d.s hat)
    have := congrArg List.length hq
    rw [hce] at this
    simp only [List.length_append] at this
    have := List.length_pos.2 he
    omega
  · obtain ⟨hne, hpw, hwfc⟩ := Node.wf_children d hdwf
    have key : ∀ x ∈ d.childNodes, e.head? = x.s.head? := by
      intro x hx
      obtain ⟨hxat, hxc⟩ := Node.compactAt_child live (P ++ d.s) d hdc x hx
      obtain ⟨q, hq⟩ := Node.exists_live live x ((P ++ d.s) ++ x.s) (hwfc x hx) hxc hxat
      have hxne := hne x hx
      have hlive : live (P ++ (d.s ++ (x.s ++ q))) := by
        simpa [List.append_assoc] using hq
      have hpne : d.s ++ (x.s ++ q) ≠ [] := by simp [hdne]
      have hh2 : c.s.head? = (d.s ++ (x.s ++ q)).head? := by
        rw [hhead]
        exact prefix_head_eq d.s _ hdne (List.prefix_append _ _)
      obtain ⟨q2, hq2, -⟩ := Node.has_child n hn c hc _ hpne hh2 (hcov _ hlive)
      rw [hce, List.append_assoc] at hq2
      have h3 : x.s ++ q = e ++ q2 := List.append_cancel_left hq2
      have h4 : e <+: x.s ++ q := ⟨q2, h3.symm⟩
      rw [prefix_head_eq e _ he h4]
      exact (prefix_head_eq x.s _ hxne (List.prefix_append _ _)).symm
    match hdcs : d.childNodes, hat, hpw, key with
    | d1 :: d2 :: rest, _, hpw, key =>
      have k1 := key d1 (by simp)
      have k2 := key d2 (by simp)
      rw [List.pairwise_cons] at hpw
      exact hpw.1 d2 (by simp) (k1.symm.trans k2)

/-- Two well-formed nodes that are compressed with respect to the same live paths, and
below each of which a node lies on every live path, have children with the same labels. -/
theorem Node.child_label_match (live : List Char → Prop) (P : List Char) (a b : Node)
    (ha : a.WF) (hb : b.WF) (hac : a.CompactAt live P) (hbc : b.CompactAt live P)
    (hca : ∀ q, live (P ++ q) → a.Has q) (hcb : ∀ q, live (P ++ q) → b.Has q)
    (c : Node) (hc : c ∈ a.childNodes) : ∃ d ∈ b.childNodes, d.s = c.s := by
  obtain ⟨hane, -, hawf⟩ := Node.wf_children a ha
  obtain ⟨hcat, hcc⟩ := Node.compactAt_child live P a hac c hc
  obtain ⟨q, hq⟩ := Node.exists_live live c (P ++ c.s) (hawf c hc) hcc hcat
  have hlive : live (P ++ (c.s ++ q)) := by simpa [List.append_assoc] using hq
  have hpne : c.s ++ q ≠ [] := by simp [hane c hc]
  obtain ⟨d, hd, q2, hq2, -⟩ := Node.has_through b _ hpne (hcb _ hlive)
  refine ⟨d, hd, ?_⟩
  have hdpre : d.s <+: c.s ++ q := ⟨q2, hq2.symm⟩
  rcases List.prefix_or_prefix_of_prefix hdpre (List.prefix_append c.s q) with h | h
  · obtain ⟨e, he⟩ := h
    by_cases h0 : e = []
    · rw [h0, List.append_nil] at he
      exact he
    · exact (Node.label_not_longer live P a b ha hb hbc hca c hc d hd e h0 he.symm).elim
  · obtain ⟨e, he⟩ := h
    by_cases h0 : e = []
    · rw [h0, List.append_nil] at he
      exact he.symm
    · exact (Node.label_not_longer live P b a hb ha hac hcb d hd c hc e h0 he.symm).elim

/-- The paths below a child, read from its parent. -/
theorem Node.has_below_child (n : Node) (hwf : n.WF) (c : Node) (hc : c ∈ n.childNodes)
    (q : List Char) (h : n.Has (c.s ++ q)) : c.Has q := by
  obtain ⟨hne, -, -⟩ := Node.wf_children n hwf
  have hp : c.s ++ q ≠ [] := by simp [hne c hc]
  obtain ⟨q2, hq2, hq3⟩ := Node.has_child n hwf c hc _ hp
    (prefix_head_eq c.s _ (hne c hc) (List.prefix_append _ _)) h
  rw [List.append_cancel_left hq2]
  exact hq3

/-- Two well-formed trees with the same label at the top and the same flags on every
path, both compressed with respect to one set of live paths and with a node on each of
these paths, are equal for `deepEqual`. -/
theorem Node.deepEqual_of_live (live : List Char → Prop) (a : Node) :
    ∀ (b : Node) (P : List Char), a.WF → b.WF → a.CompactAt live P → b.CompactAt live P →
      (∀ q, live (P ++ q) → a.Has q) → (∀ q, live (P ++ q) → b.Has q) → a.s = b.s →
      (∀ p, a.flagsAt p = b.flagsAt p) → Node.deepEqual a b = true := by
  induction a using Node.induct with
  | step s tw tc cs ih =>
    intro b P ha hb hac hbc hca hcb hs hfl
    have hka := Node.WF.keysDistinct _ ha
    have hkb := Node.WF.keysDistinct b hb
    have h0 := hfl []
    rw [Node.flagsAt_nil, Node.flagsAt_nil, Prod.mk.injEq] at h0
    cases b with
    | mk s2 tw2 tc2 ds =>
      obtain ⟨hnda, -⟩ := (Node.keysDistinct_iff _ _ _ _).1 hka
      obtain ⟨hndb, -⟩ := (Node.keysDistinct_iff _ _ _ _).1 hkb
      obtain ⟨-, -, hawf⟩ := (Node.wf_iff _ _ _ _).1 ha
      obtain ⟨-, -, hbwf⟩ := (Node.wf_iff _ _ _ _).1 hb
      have hsub1 : cs.map Node.s ⊆ ds.map Node.s := by
        intro k hk
        obtain ⟨c, hc, rfl⟩ := List.mem_map.1 hk
        obtain ⟨d, hd, hds⟩ :=
          Node.child_label_match live P _ _ ha hb hac hbc hca hcb c hc
        exact List.mem_map.2 ⟨d, hd, hds⟩
      have hsub2 : ds.map Node.s ⊆ cs.map Node.s := by
        intro k hk
        obtain ⟨d, hd, rfl⟩ := List.mem_map.1 hk
        obtain ⟨c, hc, hcs⟩ :=
          Node.child_label_match live P _ _ hb ha hbc hac hcb hca d hd
        exact List.mem_map.2 ⟨c, hc, hcs⟩
      have hl1 := (List.subperm_of_subset hnda hsub1).length_le
      have hl2 := (List.subperm_of_subset hndb hsub2).length_le
      simp only [List.length_map] at hl1 hl2
      rw [Node.deepEqual_iff]
      simp only [Node.s_mk, Node.terminalWord_mk, Node.terminalCount_mk,
        Node.childNodes_mk] at h0 hs ⊢
      refine ⟨hs, h0.1, h0.2, by omega, fun c hc => ?_⟩
      obtain ⟨d, hd, hds⟩ := Node.child_label_match live P _ _ ha hb hac hbc hca hcb c hc
      have hcc := (Node.compactAt_child live P _ hac c hc).2
      have hdc := (Node.compactAt_child live P _ hbc d hd).2
      rw [hds] at hdc
      refine ⟨d, ?_, ih c hc d (P ++ c.s) (hawf c hc) (hbwf d hd) hcc hdc ?_ ?_ hds.symm ?_⟩
      · rw [← hds]
        exact Node.child_of_mem ds hndb d hd
      · intro q hq
        rw [List.append_assoc] at hq
        exact Node.has_below_child _ ha c hc q (hca _ hq)
      · intro q hq
        rw [List.append_assoc, ← hds] at hq
        exact Node.has_below_child _ hb d hd q (hcb _ hq)
      · intro q
        rw [← Node.flagsAt_child _ ha c hc q, ← Node.flagsAt_child _ hb d hd q, hds]
        exact hfl _

theorem Node.isoList_countList (cs : List Node) :
    ∀ ds : List Node, Node.IsoList cs ds →
      (∀ c ∈ cs, ∀ d, Node.Iso c d → c.count = d.count) →
      Node.countList cs = Node.countList ds := by
  induction cs with
  | nil =>
    intro ds h _
    rw [Node.isoList_nil] at h
    rw [h]
  | cons c cs ih =>
    intro ds h hc
    rw [Node.isoList_cons] at h
    obtain ⟨d, rest, rfl, hcd, hrest⟩ := h
    rw [Node.countList_cons, Node.countList_cons, hc c (List.mem_cons_self _ _) d hcd,
      ih rest hrest (fun x hx => hc x (List.mem_cons_of_mem _ hx))]

theorem Node.iso_count_aux (n : Nat) :
    ∀ a b : Node, sizeOf a < n → Node.Iso a b → a.count = b.count := by
  induction n with
  | zero => intro a b h; omega
  | succ n ih =>
    intro a b hsz hab
    cases a with
    | mk s tw tc cs =>
    cases b with
    | mk s2 tw2 tc2 ds =>
      rw [Node.iso_mk] at hab
      obtain ⟨-, -, -, es, hperm, hlist⟩ := hab
      simp only [Node.childNodes_mk] at hperm
      rw [Node.count_mk, Node.count_mk, Node.countList_perm ds es hperm,
        Node.isoList_countList cs es hlist]
      intro c hc d hcd
      have := Node.sizeOf_child s tw tc cs c hc
      exact ih c d (by omega) hcd

/-- Isomorphic trees have the same number of nodes. -/
theorem Node.iso_count (a b : Node) (h : Node.Iso a b) : a.count = b.count :=
  Node.iso_count_aux (sizeOf a + 1) a b (by omega) h

theorem reachable_stateCABalt : Reachable stateCABalt :=
  ⟨[.insert ['c', 'a', 'b'], .insert ['a'], .insert ['a', 'b']], [true, true, true], rfl⟩

/-- Claim C11: for every list `L` of strings, the construction from `L` completes and
`search(s)` is true on the result exactly when `s` is non-empty and occurs in `L`; in
particular a string that is not an element of `L` (a proper suffix or a prefix of stored
words, say) is not matched. -/
theorem search_after_construction (L : List (List Char)) :
    ∃ t, ofList L = some t ∧
      (∀ s, t.search s = true ↔ s ≠ [] ∧ s ∈ L) ∧
      (∀ s, s ∉ L → t.search s = false) := by
  obtain ⟨t, A, ht, hrep, hmem⟩ := represents_insertAll L _ _ represents_new
  have hiff : ∀ s, t.search s = true ↔ s ≠ [] ∧ s ∈ L := by
    intro s
    obtain ⟨-, -, -, hfl⟩ := hrep
    rw [search_eq_flags, hfl]
    simp only [decide_eq_true_eq, hmem s, List.not_mem_nil, false_or]
    exact ⟨fun h => ⟨h.2, h.1⟩, fun h => ⟨h.2, h.1⟩⟩
  refine ⟨t, ht, hiff, fun s hs => ?_⟩
  cases h : t.search s
  · rfl
  · exact absurd ((hiff s).1 h).2 hs

/-- Claim C12: for every two lists of strings with the same non-empty members (in any
order, with any repetitions and empty strings), the two constructions complete and the
indexes they build compare equal under `operator==`: same `size()`, same `wordCount()`
and `deepEqual` trees. -/
theorem construction_order_irrelevant (L1 L2 : List (List Char))
    (h : ∀ s, s ≠ [] → (s ∈ L1 ↔ s ∈ L2)) :
    ∃ t1 t2, ofList L1 = some t1 ∧ ofList L2 = some t2 ∧ t1.eq t2 = true ∧
      t1.size = t2.size ∧ t1.wordCount = t2.wordCount ∧
      Node.deepEqual t1._root t2._root = true := by
  obtain ⟨t1, A1, ht1, hrep1, hc1, hmem1, hw1, hs1⟩ :=
    compressed_insertAll L1 _ _ represents_new compressed_suffixOf_nil
      (by simp [CompressedSuffixTree.new])
  obtain ⟨t2, A2, ht2, hrep2, hc2, hmem2, hw2, hs2⟩ :=
    compressed_insertAll L2 _ _ represents_new compressed_suffixOf_nil
      (by simp [CompressedSuffixTree.new])
  obtain ⟨hwf1, hnd1, -, hfl1⟩ := hrep1
  obtain ⟨hwf2, hnd2, -, hfl2⟩ := hrep2
  have hperm : A1.Perm A2 := by
    rw [List.perm_ext_iff_of_nodup hnd1 hnd2]
    intro x
    rw [hmem1 x, hmem2 x]
    by_cases hx : x = []
    · simp [hx]
    · simp [hx, h x hx]
  have hfl : ∀ p, t1._root.flagsAt p = t2._root.flagsAt p := by
    intro p
    rw [hfl1, hfl2, hperm.countP_eq, decide_eq_decide.2 hperm.mem_iff]
  have hc2' : Compressed (SuffixOf A1) t2 :=
    compressed_congr _ _ (fun p => by unfold SuffixOf; simp only [hperm.mem_iff]) _ hc2
  have hdeep : Node.deepEqual t1._root t2._root = true :=
    Node.deepEqual_of_live (SuffixOf A1) t1._root t2._root [] hwf1 hwf2 hc1.1 hc2'.1
      (fun q hq => hc1.2.1 q (by simpa using hq)) (fun q hq => hc2'.2.1 q (by simpa using hq))
      (hs1.trans hs2.symm) hfl
  have hcount : t1._root.count = t2._root.count :=
    Node.iso_count _ _ ((Node.deepEqual_iff_iso _ _ (Node.WF.keysDistinct _ hwf1)
      (Node.WF.keysDistinct _ hwf2)).1 hdeep)
  have hsize : t1._size = t2._size := by
    obtain ⟨-, -, hb1, he1⟩ := hc1
    obtain ⟨-, -, hb2, he2⟩ := hc2
    rw [hcount] at he1
    omega
  have hwc : t1._wordCount = t2._wordCount := by
    rw [hw1, hw2, hperm.length_eq]
  refine ⟨t1, t2, ht1, ht2, ?_, hsize, hwc, hdeep⟩
  simp [CompressedSuffixTree.eq, hsize, hwc, hdeep]

theorem construction_order_irrelevant_witness :
    (∀ s : List Char, s ≠ [] →
      (s ∈ [['a'], ['a', 'b'], ['c', 'a', 'b']] ↔
        s ∈ [['c', 'a', 'b'], [], ['a', 'b'], ['a'], ['a', 'b']])) ∧
    ∃ t1 t2, ofList [['a'], ['a', 'b'], ['c', 'a', 'b']] = some t1 ∧
      ofList [['c', 'a', 'b'], [], ['a', 'b'], ['a'], ['a', 'b']] = some t2 ∧
      t1.eq t2 = true ∧ t1.size = t2.size ∧ t1.wordCount = t2.wordCount ∧
      Node.deepEqual t1._root t2._root = true :=
  ⟨fun s hs => by simp [hs]; tauto,
    construction_order_irrelevant [['a'], ['a', 'b'], ['c', 'a', 'b']]
      [['c', 'a', 'b'], [], ['a', 'b'], ['a'], ['a', 'b']] (fun s hs => by simp [hs]; tauto)⟩

/-- Claim C13 as stated fails: after `insert("a")`, `insert("ab")`, `insert("cab")`,
`erase("a")` on the empty index it is not the case that all four calls return true, the
size is 3, the word count is 2 and `search("ab")` is false. -/
theorem scenario_c_search_ab_not_false :
    ¬ ((exec [.insert ['a'], .insert ['a', 'b'], .insert ['c', 'a', 'b'], .erase ['a']]
        CompressedSuffixTree.new).map
      (fun r => (r.1, r.2.size, r.2.wordCount, r.2.search ['a', 'b']))
      = some ([true, true, true, true], 3, 2, false)) := by
  decide

/-- Claim C13, amended: after `insert("a")`, `insert("ab")`, `insert("cab")`,
`erase("a")` on the empty index all four calls have returned true, the size is 3, the
word count is 2, and `search("ab")` is true (`search("a")` and `endsWith("a")` are
false). -/
theorem scenario_c_search_ab_true :
    (exec [.insert ['a'], .insert ['a', 'b'], .insert ['c', 'a', 'b'], .erase ['a']]
        CompressedSuffixTree.new).map
      (fun r => (r.1, r.2.size, r.2.wordCount,
        [r.2.search ['a', 'b'], r.2.search ['a'], r.2.endsWith ['a']]))
      = some ([true, true, true, true], 3, 2, [true, false, false]) := by
  decide

/-- Claim C14: inserting "abde", "abc", "b", "abd", "b" into the empty index gives size
12 and word count 4, the second "b" being rejected; a following `erase("abde")` returns
true and gives size 8, word count 3, `search("abd")` true, `search("abde")` false and
`endsWith` false on "e", "de" and "bde". -/
theorem scenario_d :
    (exec [.insert ['a', 'b', 'd', 'e'], .insert ['a', 'b', 'c'], .insert ['b'],
        .insert ['a', 'b', 'd'], .insert ['b']] CompressedSuffixTree.new).map
      (fun r => (r.1, r.2.size, r.2.wordCount))
      = some ([true, true, true, true, false], 12, 4) ∧
    (exec [.insert ['a', 'b', 'd', 'e'], .insert ['a', 'b', 'c'], .insert ['b'],
        .insert ['a', 'b', 'd'], .insert ['b'], .erase ['a', 'b', 'd', 'e']]
        CompressedSuffixTree.new).map
      (fun r => (r.1, r.2.size, r.2.wordCount,
        [r.2.search ['a', 'b', 'd'], r.2.search ['a', 'b', 'd', 'e'],
          r.2.endsWith ['e'], r.2.endsWith ['d', 'e'], r.2.endsWith ['b', 'd', 'e']]))
      = some ([true, true, true, true, false, true], 8, 3,
          [true, false, false, false, false]) := by
  constructor <;> decide

/-- Claim C15: in every state reached from the empty index by fewer than `2 ^ 64 - 1`
calls (so that the `size_t` counter cannot wrap), every `insert(w)` that returns true
raises `wordCount()` by exactly one and every `erase(v)` that returns true lowers it by
exactly one; and after the construction from a list `L` shorter than `2 ^ 64`,
`wordCount()` is the number of distinct non-empty strings of `L`. -/
theorem wordCount_tracks_words (ops : List Op) (bs : List Bool) (t : CompressedSuffixTree)
    (h : exec ops CompressedSuffixTree.new = some (bs, t)) (hlen : ops.length + 1 < 2 ^ 64) :
    (∀ (w : List Char) (t2 : CompressedSuffixTree), t.insert w = some (true, t2) →
      t2.wordCount = t.wordCount + 1) ∧
    (∀ (v : List Char) (t3 : CompressedSuffixTree), t.erase v = some (true, t3) →
      t3.wordCount + 1 = t.wordCount) ∧
    (∀ L : List (List Char), L.length < 2 ^ 64 →
      ∃ t4, ofList L = some t4 ∧
        t4.wordCount = ((L.filter (fun s => decide (s ≠ []))).dedup).length) := by
  have hwf : t._root.WF := exec_wf ops _ bs t CompressedSuffixTree.new_wf h
  have hb := exec_wordBound ops 0 _ bs t CompressedSuffixTree.new_wf wordBound_new
    (by omega) h
  obtain ⟨A, hA, hAlen, hle⟩ := hb
  refine ⟨fun w t2 hi => ?_, fun v t3 he => ?_, fun L hL => ofList_wordCount L hL⟩
  · have hinc : sizeInc t._wordCount = t._wordCount + 1 := by
      unfold sizeInc
      exact Nat.mod_eq_of_lt (by omega)
    show t2._wordCount = t._wordCount + 1
    rw [CompressedSuffixTree.insert_wordCount t w t2 hi, hinc]
  · obtain ⟨hbv, -, -⟩ := CompressedSuffixTree.erase_call_spec t hwf v true t3 he
    have hsv : t.search v = true := by
      have := hbv.symm
      simp only [Bool.and_eq_true] at this
      exact this.2
    have hApos : 0 < A.length := List.length_pos_of_mem (hA v hsv)
    have hdec : sizeDec t._wordCount = t._wordCount - 1 := by
      unfold sizeDec
      have : t._wordCount + (2 ^ 64 - 1) = (t._wordCount - 1) + 2 ^ 64 := by omega
      rw [this, Nat.add_mod_right]
      exact Nat.mod_eq_of_lt (by omega)
    show t3._wordCount + 1 = t._wordCount
    rw [CompressedSuffixTree.erase_wordCount t v t3 he, hdec]
    omega

theorem wordCount_tracks_words_witness :
    exec [] CompressedSuffixTree.new = some ([], CompressedSuffixTree.new) ∧
    ([] : List Op).length + 1 < 2 ^ 64 ∧
    CompressedSuffixTree.new.insert ['a']
      = some (true, ⟨1, 1, .mk [] false 0 [.mk ['a'] true 1 []]⟩) ∧
    (⟨1, 1, .mk [] false 0 [.mk ['a'] true 1 []]⟩ : CompressedSuffixTree).wordCount
      = CompressedSuffixTree.new.wordCount + 1 ∧
    exec [.insert ['a'], .insert ['a', 'b'], .insert ['c', 'a', 'b']]
        CompressedSuffixTree.new = some ([true, true, true], stateCAB) ∧
    [Op.insert ['a'], Op.insert ['a', 'b'], Op.insert ['c', 'a', 'b']].length + 1 < 2 ^ 64 ∧
    stateCAB.insert ['x'] = some (true, stateCABX) ∧
    stateCAB.erase ['a'] = some (true, stateErased) ∧
    [['a'], [], ['a', 'b'], ['a']].length < 2 ^ 64 ∧
    stateCABX.wordCount = stateCAB.wordCount + 1 ∧
    stateErased.wordCount + 1 = stateCAB.wordCount ∧
    (∃ t4, ofList [['a'], [], ['a', 'b'], ['a']] = some t4 ∧
      t4.wordCount
        = (([['a'], [], ['a', 'b'], ['a']].filter (fun s => decide (s ≠ []))).dedup).length) :=
  ⟨rfl, by decide, rfl,
    (wordCount_tracks_words [] [] CompressedSuffixTree.new rfl (by decide)).1 ['a'] _ rfl,
    rfl, by decide, rfl, rfl, by decide,
    (wordCount_tracks_words [.insert ['a'], .insert ['a', 'b'], .insert ['c', 'a', 'b']]
      [true, true, true] stateCAB rfl (by decide)).1 ['x'] stateCABX rfl,
    (wordCount_tracks_words [.insert ['a'], .insert ['a', 'b'], .insert ['c', 'a', 'b']]
      [true, true, true] stateCAB rfl (by decide)).2.1 ['a'] stateErased rfl,
    (wordCount_tracks_words [.insert ['a'], .insert ['a', 'b'], .insert ['c', 'a', 'b']]
      [true, true, true] stateCAB rfl (by decide)).2.2 [['a'], [], ['a', 'b'], ['a']]
      (by decide)⟩

/-- Claim C16: on indexes whose nodes have pairwise distinct child labels, `operator==`
is reflexive, symmetric and transitive, and `a == b` holds exactly when the sizes and
the word counts are equal and the two trees are isomorphic: same label, `isWordEnd`,
`refCount` and, recursively, the same children at every node, in any storage order. -/
theorem eq_is_equivalence (a b c : CompressedSuffixTree) (ha : a._root.KeysDistinct)
    (hb : b._root.KeysDistinct) (hc : c._root.KeysDistinct) :
    a.eq a = true ∧ (a.eq b = true → b.eq a = true) ∧
      (a.eq b = true → b.eq c = true → a.eq c = true) ∧
      (a.eq b = true ↔
        a.size = b.size ∧ a.wordCount = b.wordCount ∧ Node.Iso a._root b._root) := by
  have _ := hc
  refine ⟨?_, ?_, ?_, ?_⟩
  · simp [CompressedSuffixTree.eq, Node.deepEqual_refl a._root ha]
  · intro h
    simp only [CompressedSuffixTree.eq, Bool.and_eq_true, beq_iff_eq] at h ⊢
    exact ⟨⟨h.1.1.symm, h.1.2.symm⟩, Node.deepEqual_symm _ _ ha hb h.2⟩
  · intro h1 h2
    simp only [CompressedSuffixTree.eq, Bool.and_eq_true, beq_iff_eq] at h1 h2 ⊢
    exact ⟨⟨h1.1.1.trans h2.1.1, h1.1.2.trans h2.1.2⟩,
      Node.deepEqual_trans _ _ _ h1.2 h2.2⟩
  · simp only [CompressedSuffixTree.eq, Bool.and_eq_true, beq_iff_eq,
      Node.deepEqual_iff_iso _ _ ha hb, CompressedSuffixTree.size,
      CompressedSuffixTree.wordCount, and_assoc]

theorem eq_is_equivalence_witness :
    stateCAB._root.KeysDistinct ∧ stateCABalt._root.KeysDistinct ∧
    stateAB._root.KeysDistinct ∧
    (stateCAB.eq stateCAB = true ∧
      (stateCAB.eq stateCABalt = true → stateCABalt.eq stateCAB = true) ∧
      (stateCAB.eq stateCABalt = true → stateCABalt.eq stateAB = true →
        stateCAB.eq stateAB = true) ∧
      (stateCAB.eq stateCABalt = true ↔
        stateCAB.size = stateCABalt.size ∧ stateCAB.wordCount = stateCABalt.wordCount ∧
          Node.Iso stateCAB._root stateCABalt._root)) :=
  ⟨Node.WF.keysDistinct _ (Reachable.wf _ reachable_stateCAB),
    Node.WF.keysDistinct _ (Reachable.wf _ reachable_stateCABalt),
    Node.WF.keysDistinct _ (Reachable.wf _ reachable_stateAB),
    eq_is_equivalence stateCAB stateCABalt stateAB
      (Node.WF.keysDistinct _ (Reachable.wf _ reachable_stateCAB))
      (Node.WF.keysDistinct _ (Reachable.wf _ reachable_stateCABalt))
      (Node.WF.keysDistinct _ (Reachable.wf _ reachable_stateAB))⟩

/-- Claim C17: for every index `t` whose nodes have pairwise distinct child keys (what
the child container guarantees), the index made by the copy constructor and the index
left by a copy assignment from `t` (to another object, or to `t` itself) have the size
and the word count of `t` and compare equal to `t` under `operator==`, in both
directions. -/
theorem copy_equals_source (t self : CompressedSuffixTree) (sameObject : Bool)
    (ht : t._root.KeysDistinct) (hsame : sameObject = true → self = t) :
    ((copyConstruct t).size = t.size ∧ (copyConstruct t).wordCount = t.wordCount ∧
        (copyConstruct t).eq t = true ∧ t.eq (copyConstruct t) = true) ∧
      ((copyAssign self t sameObject).size = t.size ∧
        (copyAssign self t sameObject).wordCount = t.wordCount ∧
        (copyAssign self t sameObject).eq t = true ∧
        t.eq (copyAssign self t sameObject) = true) := by
  have hcopy : (copyConstruct t).size = t.size ∧ (copyConstruct t).wordCount = t.wordCount ∧
      (copyConstruct t).eq t = true ∧ t.eq (copyConstruct t) = true := by
    refine ⟨rfl, rfl, ?_, ?_⟩
    · simp [CompressedSuffixTree.eq, copyConstruct, Node.deepEqual_deepCopy _ ht]
    · simp [CompressedSuffixTree.eq, copyConstruct,
        Node.deepEqual_symm _ _ (Node.deepCopy_keysDistinct _ ht) ht
          (Node.deepEqual_deepCopy _ ht)]
  refine ⟨hcopy, ?_⟩
  cases sameObject with
  | false => exact hcopy
  | true =>
    rw [hsame rfl]
    refine ⟨rfl, rfl, ?_, ?_⟩ <;>
      simp [copyAssign, CompressedSuffixTree.eq, Node.deepEqual_refl _ ht]

theorem copy_equals_source_witness :
    stateCAB._root.KeysDistinct ∧ (false = true → stateAB = stateCAB) ∧
    (((copyConstruct stateCAB).size = stateCAB.size ∧
        (copyConstruct stateCAB).wordCount = stateCAB.wordCount ∧
        (copyConstruct stateCAB).eq stateCAB = true ∧
        stateCAB.eq (copyConstruct stateCAB) = true) ∧
      ((copyAssign stateAB stateCAB false).size = stateCAB.size ∧
        (copyAssign stateAB stateCAB false).wordCount = stateCAB.wordCount ∧
        (copyAssign stateAB stateCAB false).eq stateCAB = true ∧
        stateCAB.eq (copyAssign stateAB stateCAB false) = true)) :=
  ⟨Node.WF.keysDistinct _ (Reachable.wf _ reachable_stateCAB),
    fun h => absurd h (by decide),
    copy_equals_source stateCAB stateAB false
      (Node.WF.keysDistinct _ (Reachable.wf _ reachable_stateCAB))
      (fun h => absurd h (by decide))⟩

/-- Claim C19: move construction from `t`, and move assignment of `t` into a different
object `d`, give an object with the size, word count and tree that `t` had, and leave
`t` as the canonical empty index: `empty()` true, size 0, word count 0, a root with an
empty label, `terminalWord` false, `terminalCount` 0 and no children. -/
theorem move_transfers_and_empties (t d : CompressedSuffixTree) :
    ((moveConstruct t).1 = t ∧ (moveAssign d t false).1 = t) ∧
    ((moveConstruct t).2 = CompressedSuffixTree.new
      ∧ (moveAssign d t false).2 = CompressedSuffixTree.new) ∧
    (CompressedSuffixTree.new.empty = true ∧ CompressedSuffixTree.new.size = 0
      ∧ CompressedSuffixTree.new.wordCount = 0
      ∧ CompressedSuffixTree.new._root = Node.mk [] false 0 []) := by
  refine ⟨⟨rfl, rfl⟩, ⟨rfl, rfl⟩, rfl, rfl, rfl, rfl⟩

/-- Claim C20: after `clear()` an index is empty, has size 0 and word count 0, compares
equal to a default-constructed index, and compares unequal (in both argument orders) to
every index whose root has at least one child. -/
theorem clear_gives_empty_index (t x : CompressedSuffixTree)
    (hx : x._root.childNodes ≠ []) :
    (t.clear.empty = true ∧ t.clear.size = 0 ∧ t.clear.wordCount = 0) ∧
    t.clear.eq CompressedSuffixTree.new = true ∧
    (t.clear.eq x = false ∧ x.eq t.clear = false) := by
  refine ⟨⟨rfl, rfl, rfl⟩, rfl, ?_, ?_⟩
  · cases x with
    | mk sz wc root =>
      cases root with
      | mk s tw tc cs =>
        cases cs with
        | nil => exact absurd rfl hx
        | cons c cs =>
          simp [CompressedSuffixTree.eq, clear, CompressedSuffixTree.new, Node.deepEqual]
  · cases x with
    | mk sz wc root =>
      cases root with
      | mk s tw tc cs =>
        cases cs with
        | nil => exact absurd rfl hx
        | cons c cs =>
          simp [CompressedSuffixTree.eq, clear, CompressedSuffixTree.new, Node.deepEqual]

theorem clear_gives_empty_index_witness :
    stateAB._root.childNodes ≠ [] ∧
    ((stateCAB.clear.empty = true ∧ stateCAB.clear.size = 0
        ∧ stateCAB.clear.wordCount = 0) ∧
      stateCAB.clear.eq CompressedSuffixTree.new = true ∧
      (stateCAB.clear.eq stateAB = false ∧ stateAB.eq stateCAB.clear = false)) :=
  ⟨by simp [stateAB], clear_gives_empty_index stateCAB stateAB (by simp [stateAB])⟩

/-- Claim C21, evaluated on the calls `insert("a")`, `insert("ab")`, `insert("abc")`,
`erase("a")` on the empty index: all four return true, and then `size()` is 5 while the
tree has 4 nodes below the root, and `wordCount()` is 2 while one node has its
`terminalWord` flag set. -/
theorem counters_off_after_contraction :
    exec [.insert ['a'], .insert ['a', 'b'], .insert ['a', 'b', 'c'], .erase ['a']]
        CompressedSuffixTree.new = some ([true, true, true, true], stateABCundone) ∧
    stateABCundone.size = 5 ∧ stateABCundone.nonRootNodes.length = 4 ∧
    stateABCundone.wordCount = 2 ∧ stateABCundone.wordNodes.length = 1 := by
  refine ⟨rfl, rfl, ?_, rfl, ?_⟩
  · decide
  · decide

/-- Claim C23, evaluated on the calls `insert("abc")`, `insert("abd")`, `insert("a")`,
`erase("a")` on the empty index: all four return true, and the tree then has a node below
the root with `terminalCount == 0` and no children (the node labelled "ab"). -/
theorem dead_leaf_after_contraction :
    exec [.insert ['a', 'b', 'c'], .insert ['a', 'b', 'd'], .insert ['a'], .erase ['a']]
        CompressedSuffixTree.new = some ([true, true, true, true], stateDeadLeaf) ∧
    Node.mk ['a', 'b'] false 0 [] ∈ stateDeadLeaf.nonRootNodes ∧
    stateDeadLeaf.nonRootNodes.any
      (fun n => n.terminalCount == 0 && n.childNodes.isEmpty) = true := by
  refine ⟨rfl, ?_, ?_⟩
  · simp [CompressedSuffixTree.nonRootNodes, stateDeadLeaf, Node.nodesList, Node.nodes]
  · decide

/-- Claim C27, evaluated in the state reached from the empty index by `insert("a")`,
`insert("ab")`, `insert("cabc")`, `erase("a")` (all return true): the word pass
`erase(root, "cabc", true)` returns true and the next pass `erase(root, "abc", false)`
returns false. -/
theorem erase_suffix_pass_fails :
    ((exec [.insert ['a'], .insert ['a', 'b'], .insert ['c', 'a', 'b', 'c'], .erase ['a']]
        CompressedSuffixTree.new).bind
      (fun r => (Node.erase 5 r.2._root ['c', 'a', 'b', 'c'] true r.2._size
          r.2._wordCount).bind
        (fun p1 => (Node.erase 4 p1.node ['a', 'b', 'c'] false p1.size p1.wordCount).map
          (fun p2 => (r.1, p1.res, p2.res)))))
      = some ([true, true, true, true], true, false) := by
  decide

/-- Claim C30, evaluated on the calls `insert("a")`, `insert("ab")`, `insert("cabc")`,
`erase("a")`, `insert("abca")`, `insert("abcb")`, `erase("cabc")`, `erase("abcb")`,
`erase("abca")`, `erase("ab")` on the empty index: all ten return true, and then
`empty()` is true while `size()` is 2. -/
theorem empty_with_nonzero_size :
    (exec [.insert ['a'], .insert ['a', 'b'], .insert ['c', 'a', 'b', 'c'], .erase ['a'],
        .insert ['a', 'b', 'c', 'a'], .insert ['a', 'b', 'c', 'b'],
        .erase ['c', 'a', 'b', 'c'], .erase ['a', 'b', 'c', 'b'],
        .erase ['a', 'b', 'c', 'a'], .erase ['a', 'b']] CompressedSuffixTree.new).map
      (fun r => (r.1, r.2.empty, r.2.size, r.2.nonRootNodes.length))
      = some ([true, true, true, true, true, true, true, true, true, true], true, 2, 0) := by
  decide

theorem Node.nodes_mk (s : List Char) (tw : Bool) (tc : Int) (cs : List Node) :
    (Node.mk s tw tc cs).nodes = Node.mk s tw tc cs :: Node.nodesList cs := by
  rw [Node.nodes]

theorem Node.nodes_eq (n : Node) : n.nodes = n :: Node.nodesList n.childNodes := by
  cases n; rw [Node.nodes_mk]; rfl

theorem Node.nodesList_nil : Node.nodesList [] = [] := by
  rw [Node.nodesList]

theorem Node.nodesList_cons (c : Node) (cs : List Node) :
    Node.nodesList (c :: cs) = c.nodes ++ Node.nodesList cs := by
  rw [Node.nodesList]

theorem Node.nodesList_append (as bs : List Node) :
    Node.nodesList (as ++ bs) = Node.nodesList as ++ Node.nodesList bs := by
  induction as with
  | nil => simp [Node.nodesList_nil]
  | cons a as ih => simp [Node.nodesList_cons, ih]

theorem Node.mem_nodesList (m : Node) (cs : List Node) :
    m ∈ Node.nodesList cs ↔ ∃ c ∈ cs, m ∈ c.nodes := by
  induction cs with
  | nil => simp [Node.nodesList_nil]
  | cons c cs ih => simp [Node.nodesList_cons, ih]

theorem Node.self_mem_nodes (n : Node) : n ∈ n.nodes := by
  rw [Node.nodes_eq]; exact List.mem_cons_self _ _

theorem Node.nodes_length (n : Node) : n.nodes.length = n.count := by
  induction n using Node.induct with
  | step s tw tc cs ih =>
    rw [Node.nodes_mk, Node.count_mk, List.length_cons]
    congr 1
    induction cs with
    | nil => simp [Node.nodesList_nil, Node.countList_nil]
    | cons c cs ih2 =>
      rw [Node.nodesList_cons, Node.countList_cons, List.length_append,
        ih c (List.mem_cons_self _ _), ih2 (fun x hx => ih x (List.mem_cons_of_mem _ hx))]

/-- In a well-formed tree every node has children with non-empty labels that start with
pairwise different characters. -/
theorem Node.WF.at_every_node (n : Node) (h : n.WF) :
    ∀ m ∈ n.nodes, m.WF := by
  induction n using Node.induct with
  | step s tw tc cs ih =>
    intro m hm
    rw [Node.nodes_mk, List.mem_cons, Node.mem_nodesList] at hm
    rcases hm with rfl | ⟨c, hc, hm⟩
    · exact h
    · exact ih c hc (((Node.wf_iff _ _ _ _).1 h).2.2 c hc) m hm

theorem pairwise_filter_le_one (cs : List Node) (p : List Char)
    (h : cs.Pairwise (fun a b => a.s.head? ≠ b.s.head?)) :
    (cs.filter (fun c => c.s.head? == p.head?)).length ≤ 1 := by
  have h2 := h.filter (fun c => c.s.head? == p.head?)
  generalize hf : cs.filter (fun c => c.s.head? == p.head?) = l at h2
  match l, hf, h2 with
  | [], _, _ => simp
  | [_], _, _ => simp
  | a :: b :: rest, hf, h2 =>
    exfalso
    have ha : a ∈ cs.filter (fun c => c.s.head? == p.head?) := by rw [hf]; simp
    have hb : b ∈ cs.filter (fun c => c.s.head? == p.head?) := by rw [hf]; simp
    rw [List.mem_filter] at ha hb
    rw [List.pairwise_cons] at h2
    have := h2.1 b (by simp)
    simp only [beq_iff_eq] at ha hb
    exact absurd (ha.2.trans hb.2.symm) this

/-- Claim C25: in every state reachable from the empty index by `insert` and `erase`
calls, at every node of the tree the labels of the children begin with pairwise
different characters, so that for every non-empty string at most one child begins with
its first character. -/
theorem distinct_first_characters (t : CompressedSuffixTree) (h : Reachable t) :
    ∀ n ∈ t._root.nodes,
      n.childNodes.Pairwise (fun a b => a.s.head? ≠ b.s.head?) ∧
      (∀ c ∈ n.childNodes, c.s.head? ≠ none) ∧
      ∀ p : List Char, (n.childNodes.filter (fun c => c.s.head? == p.head?)).length ≤ 1 := by
  intro n hn
  have hwf := Node.WF.at_every_node t._root (Reachable.wf t h) n hn
  obtain ⟨hne, hpw, -⟩ := Node.wf_children n hwf
  refine ⟨hpw, fun c hc hh => hne c hc ?_, fun p => pairwise_filter_le_one _ p hpw⟩
  cases hs : c.s with
  | nil => rfl
  | cons a l => rw [hs] at hh; simp at hh

theorem distinct_first_characters_witness :
    Reachable stateCAB ∧
    ∀ n ∈ stateCAB._root.nodes,
      n.childNodes.Pairwise (fun a b => a.s.head? ≠ b.s.head?) ∧
      (∀ c ∈ n.childNodes, c.s.head? ≠ none) ∧
      ∀ p : List Char, (n.childNodes.filter (fun c => c.s.head? == p.head?)).length ≤ 1 :=
  ⟨reachable_stateCAB, distinct_first_characters stateCAB reachable_stateCAB⟩

/-- A private `insert` pass on a non-empty string leaves the label and the flags of the
node it starts at as they are. -/
theorem Node.insert_top (fuel : Nat) (node : Node) (sv : List Char) (isWord : Bool)
    (size wc : Nat) (r : Pass) (hsv : sv ≠ [])
    (h : Node.insert fuel node sv isWord size wc = some r) :
    r.node.s = node.s ∧ r.node.terminalWord = node.terminalWord ∧
      r.node.terminalCount = node.terminalCount := by
  cases fuel with
  | zero => simp [Node.insert] at h
  | succ fuel =>
    rw [Node.insert] at h
    simp only [hsv, if_false] at h
    split at h
    · split at h
      · simp at h
      · simp only [Option.some.injEq] at h
        subst h
        exact ⟨rfl, rfl, rfl⟩
    · split at h
      · split at h
        · simp at h
        · simp only [Option.some.injEq] at h
          subst h
          exact ⟨rfl, rfl, rfl⟩
      · split at h
        · simp at h
        · split at h
          · simp at h
          · simp only [Option.some.injEq] at h
            subst h
            exact ⟨rfl, rfl, rfl⟩

/-- A private `erase` pass on a non-empty string leaves the label and the flags of the
node it starts at as they are. -/
theorem Node.erase_top (fuel : Nat) (node : Node) (sv : List Char) (isWord : Bool)
    (size wc : Nat) (r : Pass) (hsv : sv ≠ [])
    (h : Node.erase fuel node sv isWord size wc = some r) :
    r.node.s = node.s ∧ r.node.terminalWord = node.terminalWord ∧
      r.node.terminalCount = node.terminalCount := by
  cases fuel with
  | zero => simp [Node.erase] at h
  | succ fuel =>
    rw [Node.erase] at h
    simp only [hsv, if_false] at h
    split at h
    · simp only [Option.some.injEq] at h
      subst h
      exact ⟨rfl, rfl, rfl⟩
    · split at h
      · simp only [Option.some.injEq] at h
        subst h
        exact ⟨rfl, rfl, rfl⟩
      · split at h
        · simp at h
        · split at h
          · split at h
            · simp only [Option.some.injEq] at h
              subst h
              exact ⟨rfl, rfl, rfl⟩
            · split at h
              · split at h
                · simp at h
                · simp only [Option.some.injEq] at h
                  subst h
                  exact ⟨rfl, rfl, rfl⟩
              · simp only [Option.some.injEq] at h
                subst h
                exact ⟨rfl, rfl, rfl⟩
          · simp only [Option.some.injEq] at h
            subst h
            exact ⟨rfl, rfl, rfl⟩

theorem CompressedSuffixTree.insertLoop_top (word : List Char) :
    ∀ (ns : List Nat) (t t2 : CompressedSuffixTree), (∀ n ∈ ns, word.drop n ≠ []) →
      insertLoop word ns t = some t2 →
      t2._root.s = t._root.s ∧ t2._root.terminalWord = t._root.terminalWord ∧
        t2._root.terminalCount = t._root.terminalCount := by
  intro ns
  induction ns with
  | nil =>
    intro t t2 _ h
    simp only [insertLoop, Option.some.injEq] at h
    subst h
    exact ⟨rfl, rfl, rfl⟩
  | cons n ns ih =>
    intro t t2 hns h
    simp only [insertLoop] at h
    split at h
    · simp at h
    · rename_i r hr
      split at h
      · obtain ⟨a1, a2, a3⟩ := Node.insert_top _ _ _ _ _ _ r (hns n (List.mem_cons_self _ _)) hr
        obtain ⟨b1, b2, b3⟩ := ih _ t2 (fun m hm => hns m (List.mem_cons_of_mem _ hm)) h
        exact ⟨b1.trans a1, b2.trans a2, b3.trans a3⟩
      · simp at h

theorem CompressedSuffixTree.eraseLoop_top (word : List Char) :
    ∀ (ns : List Nat) (t t2 : CompressedSuffixTree), (∀ n ∈ ns, word.drop n ≠ []) →
      eraseLoop word ns t = some t2 →
      t2._root.s = t._root.s ∧ t2._root.terminalWord = t._root.terminalWord ∧
        t2._root.terminalCount = t._root.terminalCount := by
  intro ns
  induction ns with
  | nil =>
    intro t t2 _ h
    simp only [eraseLoop, Option.some.injEq] at h
    subst h
    exact ⟨rfl, rfl, rfl⟩
  | cons n ns ih =>
    intro t t2 hns h
    simp only [eraseLoop] at h
    split at h
    · simp at h
    · rename_i r hr
      split at h
      · obtain ⟨a1, a2, a3⟩ := Node.erase_top _ _ _ _ _ _ r (hns n (List.mem_cons_self _ _)) hr
        obtain ⟨b1, b2, b3⟩ := ih _ t2 (fun m hm => hns m (List.mem_cons_of_mem _ hm)) h
        exact ⟨b1.trans a1, b2.trans a2, b3.trans a3⟩
      · simp at h

theorem drop_ne_nil_of_mem_range (word : List Char) :
    ∀ n ∈ List.range' 1 (word.length - 1), word.drop n ≠ [] := by
  intro n hn h
  rw [List.mem_range'_1] at hn
  have := congrArg List.length h
  simp at this
  omega

/-- A public `insert` leaves the label and the flags of the root as they are. -/
theorem CompressedSuffixTree.insert_call_top (t : CompressedSuffixTree) (w : List Char)
    (b : Bool) (t2 : CompressedSuffixTree) (h : t.insert w = some (b, t2)) :
    t2._root.s = t._root.s ∧ t2._root.terminalWord = t._root.terminalWord ∧
      t2._root.terminalCount = t._root.terminalCount := by
  unfold CompressedSuffixTree.insert at h
  split at h
  · simp only [Option.some.injEq, Prod.mk.injEq] at h
    obtain ⟨-, rfl⟩ := h
    exact ⟨rfl, rfl, rfl⟩
  · rename_i hw
    split at h
    · simp at h
    · rename_i r hr
      have a := Node.insert_top _ _ _ _ _ _ r hw hr
      split at h
      · simp only [Option.some.injEq, Prod.mk.injEq] at h
        obtain ⟨-, rfl⟩ := h
        exact a
      · split at h
        · simp at h
        · rename_i t3 ht3
          simp only [Option.some.injEq, Prod.mk.injEq] at h
          obtain ⟨-, rfl⟩ := h
          obtain ⟨b1, b2, b3⟩ := insertLoop_top w _ _ _ (drop_ne_nil_of_mem_range w) ht3
          exact ⟨b1.trans a.1, b2.trans a.2.1, b3.trans a.2.2⟩

/-- A public `erase` leaves the label and the flags of the root as they are. -/
theorem CompressedSuffixTree.erase_call_top (t : CompressedSuffixTree) (w : List Char)
    (b : Bool) (t2 : CompressedSuffixTree) (h : t.erase w = some (b, t2)) :
    t2._root.s = t._root.s ∧ t2._root.terminalWord = t._root.terminalWord ∧
      t2._root.terminalCount = t._root.terminalCount := by
  unfold CompressedSuffixTree.erase at h
  split at h
  · simp only [Option.some.injEq, Prod.mk.injEq] at h
    obtain ⟨-, rfl⟩ := h
    exact ⟨rfl, rfl, rfl⟩
  · rename_i hw
    split at h
    · simp at h
    · rename_i r hr
      have a := Node.erase_top _ _ _ _ _ _ r hw hr
      split at h
      · simp only [Option.some.injEq, Prod.mk.injEq] at h
        obtain ⟨-, rfl⟩ := h
        exact a
      · split at h
        · simp at h
        · rename_i t3 ht3
          simp only [Option.some.injEq, Prod.mk.injEq] at h
          obtain ⟨-, rfl⟩ := h
          obtain ⟨b1, b2, b3⟩ := eraseLoop_top w _ _ _ (drop_ne_nil_of_mem_range w) ht3
          exact ⟨b1.trans a.1, b2.trans a.2.1, b3.trans a.2.2⟩

theorem Call.apply_top (t t2 : CompressedSuffixTree) (c : Call)
    (ht : t._root.s = [] ∧ t._root.terminalWord = false ∧ t._root.terminalCount = 0)
    (h : c.apply t = some t2) :
    t2._root.s = [] ∧ t2._root.terminalWord = false ∧ t2._root.terminalCount = 0 := by
  cases c with
  | insert w =>
    simp only [Call.apply, Option.map_eq_some', Prod.exists] at h
    obtain ⟨b, t3, hi, rfl⟩ := h
    obtain ⟨a1, a2, a3⟩ := CompressedSuffixTree.insert_call_top t w b t3 hi
    exact ⟨a1.trans ht.1, a2.trans ht.2.1, a3.trans ht.2.2⟩
  | erase w =>
    simp only [Call.apply, Option.map_eq_some', Prod.exists] at h
    obtain ⟨b, t3, hi, rfl⟩ := h
    obtain ⟨a1, a2, a3⟩ := CompressedSuffixTree.erase_call_top t w b t3 hi
    exact ⟨a1.trans ht.1, a2.trans ht.2.1, a3.trans ht.2.2⟩
  | clear =>
    simp only [Call.apply, Option.some.injEq] at h
    subst h
    exact ⟨rfl, rfl, rfl⟩

theorem run_top (cs : List Call) :
    ∀ (t t2 : CompressedSuffixTree),
      (t._root.s = [] ∧ t._root.terminalWord = false ∧ t._root.terminalCount = 0) →
      run cs t = some t2 →
      t2._root.s = [] ∧ t2._root.terminalWord = false ∧ t2._root.terminalCount = 0 := by
  induction cs with
  | nil =>
    intro t t2 ht h
    simp only [run, Option.some.injEq] at h
    subst h
    exact ht
  | cons c cs ih =>
    intro t t2 ht h
    simp only [run] at h
    split at h
    · simp at h
    · rename_i t1 h1
      exact ih t1 t2 (Call.apply_top t t1 c ht h1) h

/-- Claim C26: in every state reachable from the empty index by `insert`, `erase` and
`clear` calls the root has an empty label, `terminalWord == false` and
`terminalCount == 0`; hence `search("")` and `endsWith("")` return false, and
`insert("")` and `erase("")` return false and change nothing. -/
theorem root_stays_clean (cs : List Call) (t : CompressedSuffixTree)
    (h : run cs CompressedSuffixTree.new = some t) :
    (t._root.s = [] ∧ t._root.terminalWord = false ∧ t._root.terminalCount = 0) ∧
      t.search [] = false ∧ t.endsWith [] = false ∧
      t.insert [] = some (false, t) ∧ t.erase [] = some (false, t) := by
  have key := run_top cs CompressedSuffixTree.new t ⟨rfl, rfl, rfl⟩ h
  refine ⟨key, ?_, ?_, ?_, ?_⟩
  · simp [CompressedSuffixTree.search, Node.search, key.2.1]
  · simp [CompressedSuffixTree.endsWith, Node.endsWith, key.2.1, key.2.2]
  · simp [CompressedSuffixTree.insert]
  · simp [CompressedSuffixTree.erase]

theorem root_stays_clean_witness :
    run [.insert ['x'], .clear, .insert ['a'], .insert ['a', 'b'], .erase ['b']]
        CompressedSuffixTree.new = some stateAB ∧
    ((stateAB._root.s = [] ∧ stateAB._root.terminalWord = false ∧
        stateAB._root.terminalCount = 0) ∧
      stateAB.search [] = false ∧ stateAB.endsWith [] = false ∧
      stateAB.insert [] = some (false, stateAB) ∧
      stateAB.erase [] = some (false, stateAB)) :=
  ⟨rfl, root_stays_clean
    [.insert ['x'], .clear, .insert ['a'], .insert ['a', 'b'], .erase ['b']] stateAB rfl⟩

/-- When `findByDeterminingPrefix` returns a child whose whole label is matched, the
lookup of the matched part of `sv` as a key returns that child. -/
theorem findKey_of_fbp (n : Node) (sv : List Char) (it : Iter) (endPos : Nat)
    (h : n.findByDeterminingPrefix sv = some (it, endPos))
    (he : ¬ endPos < it.cur.s.length) :
    findKey (sv.take endPos) [] n.childNodes = some it := by
  have hsv : sv ≠ [] := by
    rintro rfl
    simp [Node.findByDeterminingPrefix] at h
  rcases Node.fbp_cases n sv hsv with ⟨h0, -, -⟩ | ⟨pre, c, post, hcs, hpre, hc, hf, -⟩
  · rw [h0] at h; simp at h
  · rw [hf] at h
    simp only [Option.some.injEq, Prod.mk.injEq] at h
    obtain ⟨rfl, rfl⟩ := h
    simp only at he
    have hle := lcpLen_le_left c.s sv
    have hpfx : c.s <+: sv := (lcpLen_ge_iff c.s sv).1 (by omega)
    have heq : lcpLen c.s sv = c.s.length := by omega
    have htake : sv.take c.s.length = c.s := by
      obtain ⟨q, rfl⟩ := hpfx
      simp
    rw [hcs, heq]
    have := findKey_append (sv.take c.s.length) [] pre post c ?_ htake.symm
    · simpa using this
    · intro b hb hb2
      apply hpre b hb
      rw [hb2, htake]
      exact hc

/-- In a well-formed node, when `findByDeterminingPrefix` returns a child that `sv` leaves
inside its label, the front part of that child is stored again as a new entry, which the
returned iterator designates. -/
theorem emplace_of_fbp (n : Node) (hwf : n.WF) (sv : List Char) (it : Iter) (endPos : Nat)
    (h : n.findByDeterminingPrefix sv = some (it, endPos)) :
    emplace it.remove (Node.mk (it.cur.s.take endPos) false 0 it.cur.childNodes)
      = ⟨[], Node.mk (it.cur.s.take endPos) false 0 it.cur.childNodes, it.remove⟩ := by
  have hsv : sv ≠ [] := by
    rintro rfl
    simp [Node.findByDeterminingPrefix] at h
  obtain ⟨-, hpw, -⟩ := Node.wf_children n hwf
  rcases Node.fbp_cases n sv hsv with ⟨h0, -, -⟩ | ⟨pre, c, post, hcs, hpre, hc, hf, -⟩
  · rw [h0] at h; simp at h
  · rw [hf] at h
    simp only [Option.some.injEq, Prod.mk.injEq] at h
    obtain ⟨rfl, rfl⟩ := h
    rw [hcs] at hpw
    obtain ⟨-, hother⟩ := pairwise_mid pre post c hpw
    have hpos := lcpLen_pos c.s sv hsv hc
    apply emplace_fresh
    intro x hx hx2
    apply hother x hx
    rw [hx2]
    exact head_take _ _ hpos

/-- Claim C28: in every state reachable from the empty index by `insert` and `erase`
calls, for every word `w`, the call `insert(w)` returns without tripping an assertion.
In detail: on every well-formed tree a non-word pass returns true and leaves a
well-formed tree (so every pass of the loop succeeds); at every node of the tree, when
`findByDeterminingPrefix` returns a child with its whole label matched, `find` on the
matched part of the string returns that very child; and when it returns a child that is
left inside its label, the re-inserted front part and the new grandchild are stored and
designated by the iterators `it2` and `it3`. -/
theorem insert_never_trips (t : CompressedSuffixTree) (h : Reachable t) (w : List Char) :
    (∃ b t2, t.insert w = some (b, t2)) ∧
    (∀ (node : Node) (sv : List Char) (size wc : Nat), node.WF →
      ∃ r, Node.insert (sv.length + 1) node sv false size wc = some r ∧ r.res = true ∧
        r.node.WF) ∧
    (∀ n ∈ t._root.nodes, ∀ (sv : List Char) (it : Iter) (endPos : Nat),
      n.findByDeterminingPrefix sv = some (it, endPos) →
      (¬ endPos < it.cur.s.length →
        findKey (sv.take endPos) [] n.childNodes = some it) ∧
      (endPos < it.cur.s.length →
        emplace it.remove (Node.mk (it.cur.s.take endPos) false 0 it.cur.childNodes)
          = ⟨[], Node.mk (it.cur.s.take endPos) false 0 it.cur.childNodes, it.remove⟩ ∧
        ∀ childNode2 : Node, emplace [] childNode2 = ⟨[], childNode2, []⟩)) := by
  have hwf := Reachable.wf t h
  refine ⟨?_, ?_, ?_⟩
  · obtain ⟨t2, h2, -⟩ := CompressedSuffixTree.insert_call_spec t hwf w
    exact ⟨_, t2, h2⟩
  · intro node sv size wc hn
    obtain ⟨r, hr, hres, -, hpost⟩ :=
      Node.insert_pass_spec false (sv.length + 1) node sv size wc (by omega) hn
    have hrt : r.res = true := by simpa using hres
    exact ⟨r, hr, hrt, (hpost hrt).1⟩
  · intro n hn sv it endPos hf
    refine ⟨findKey_of_fbp n sv it endPos hf, fun _ => ⟨?_, fun c => emplace_fresh [] c (by simp)⟩⟩
    exact emplace_of_fbp n (Node.WF.at_every_node t._root hwf n hn) sv it endPos hf

theorem insert_never_trips_witness :
    Reachable stateAB ∧
    ((∃ b t2, stateAB.insert ['c', 'a', 'b'] = some (b, t2)) ∧
    (∀ (node : Node) (sv : List Char) (size wc : Nat), node.WF →
      ∃ r, Node.insert (sv.length + 1) node sv false size wc = some r ∧ r.res = true ∧
        r.node.WF) ∧
    (∀ n ∈ stateAB._root.nodes, ∀ (sv : List Char) (it : Iter) (endPos : Nat),
      n.findByDeterminingPrefix sv = some (it, endPos) →
      (¬ endPos < it.cur.s.length →
        findKey (sv.take endPos) [] n.childNodes = some it) ∧
      (endPos < it.cur.s.length →
        emplace it.remove (Node.mk (it.cur.s.take endPos) false 0 it.cur.childNodes)
          = ⟨[], Node.mk (it.cur.s.take endPos) false 0 it.cur.childNodes, it.remove⟩ ∧
        ∀ childNode2 : Node, emplace [] childNode2 = ⟨[], childNode2, []⟩))) :=
  ⟨reachable_stateAB, insert_never_trips stateAB reachable_stateAB ['c', 'a', 'b']⟩

theorem Node.wordMarks_mk (s : List Char) (tw : Bool) (tc : Int) (cs : List Node) :
    (Node.mk s tw tc cs).wordMarks
      = (if tw = true then 1 else 0) + (Node.nodesList cs).countP (fun m => m.terminalWord) := by
  rw [Node.wordMarks, Node.nodes_mk, List.countP_cons]
  simp only [Node.terminalWord_mk]
  omega

theorem Node.marks_cons (c : Node) (cs : List Node) :
    (Node.nodesList (c :: cs)).countP (fun m => m.terminalWord)
      = c.wordMarks + (Node.nodesList cs).countP (fun m => m.terminalWord) := by
  rw [Node.nodesList_cons, List.countP_append, Node.wordMarks]

theorem Node.marks_append (as bs : List Node) :
    (Node.nodesList (as ++ bs)).countP (fun m => m.terminalWord)
      = (Node.nodesList as).countP (fun m => m.terminalWord)
        + (Node.nodesList bs).countP (fun m => m.terminalWord) := by
  rw [Node.nodesList_append, List.countP_append]

theorem Node.marks_nil :
    (Node.nodesList []).countP (fun m => m.terminalWord) = 0 := by
  rw [Node.nodesList_nil]; rfl

theorem countersFollow_refl (t : CompressedSuffixTree) : CountersFollow t t :=
  ⟨0, 0, rfl, rfl, rfl, rfl, fun h => h, fun h => h⟩

theorem countersFollow_trans (t t1 t2 : CompressedSuffixTree) (h1 : CountersFollow t t1)
    (h2 : CountersFollow t1 t2) : CountersFollow t t2 := by
  obtain ⟨k1, j1, a1, a2, a3, a4, a5, a6⟩ := h1
  obtain ⟨k2, j2, b1, b2, b3, b4, b5, b6⟩ := h2
  refine ⟨k1 + k2, j1 + j2, by omega, by omega, ?_, ?_, fun h => b5 (a5 h),
    fun h => b6 (a6 h)⟩
  · omega
  · omega

/-- A private `insert` pass counts the nodes it adds in `_size` and the flags it sets in
`_wordCount`. -/
theorem Node.insert_counts (isWord : Bool) (fuel : Nat) :
    ∀ (node : Node) (sv : List Char) (size wc : Nat), sv.length < fuel → node.WF →
      ∀ r, Node.insert fuel node sv isWord size wc = some r →
        CountersFollow ⟨size, wc, node⟩ ⟨r.size, r.wordCount, r.node⟩ := by
  induction fuel with
  | zero => intro node sv size wc hf; omega
  | succ fuel ih =>
    intro node sv size wc hf hwf r h
    by_cases hsv : sv = []
    · subst hsv
      rw [Node.insert_nil_eq] at h
      cases node with
      | mk s tw tc cs =>
        split at h
        · simp only [Option.some.injEq] at h
          subst h
          exact countersFollow_refl _
        · rename_i hc
          simp only [Option.some.injEq] at h
          subst h
          simp only [Node.terminalWord_mk, Node.s_mk, Node.terminalCount_mk,
            Node.childNodes_mk] at hc ⊢
          cases isWord with
          | false =>
            refine ⟨0, 0, by simp [Node.count_mk], ?_, rfl, rfl, fun h => h, fun h => h⟩
            simp [Node.wordMarks_mk]
          | true =>
            have htw : tw = false := by
              cases tw with
              | false => rfl
              | true => simp at hc
            subst htw
            refine ⟨0, 1, by simp [Node.count_mk], ?_, rfl, ?_, fun h => h,
              fun _ => Nat.mod_lt _ (by decide)⟩
            · simp [Node.wordMarks_mk]; omega
            · simp [sizeInc]
    · have hlen : 0 < sv.length := List.length_pos.2 hsv
      cases node with
      | mk s tw tc cs =>
        obtain ⟨hne, hpw, hwfc⟩ := (Node.wf_iff _ _ _ _).1 hwf
        rcases Node.fbp_cases (Node.mk s tw tc cs) sv hsv with
          ⟨-, -, hnone⟩ | ⟨pre, c, post, hcs, hpre, hc, hfbp, -⟩
        · rw [Node.insert_new_eq fuel s tw tc cs sv isWord size wc hsv hnone] at h
          split at h
          · simp at h
          · rename_i r1 hr1
            simp only [Option.some.injEq] at h
            subst h
            have hwfl : (Node.mk sv false 0 []).WF := (Node.wf_iff _ _ _ _).2 (by simp)
            obtain ⟨k, j, a1, a2, a3, a4, a5, a6⟩ :=
              ih (Node.mk sv false 0 []) [] (sizeInc size) wc (by simp; omega) hwfl r1 hr1
            simp only [Node.count_mk, Node.countList_nil, Node.wordMarks_mk,
              Node.marks_nil] at a1 a2 a3 a4 a5 a6
            refine ⟨1 + k, j, ?_, ?_, ?_, a4, fun _ => a5 (Nat.mod_lt _ (by decide)), a6⟩
            · simp only [Node.count_mk, Node.countList_cons, a1]
              omega
            · simp only [Node.wordMarks_mk, Node.marks_cons, a2]
              simp
              omega
            · simp only [sizeInc] at a3 ⊢
              omega
        · simp only [Node.childNodes_mk] at hcs
          subst hcs
          have hcmem : c ∈ pre ++ c :: post := by simp
          have hpos := lcpLen_pos c.s sv hsv hc
          have hler := lcpLen_le_right c.s sv
          have hlel := lcpLen_le_left c.s sv
          by_cases he : lcpLen c.s sv < c.s.length
          · obtain ⟨-, hother⟩ := pairwise_mid pre post c hpw
            have hbne : c.s.drop (lcpLen c.s sv) ≠ [] := by
              intro h
              have := congrArg List.length h
              simp at this
              omega
            have hwf2 : (Node.mk (c.s.take (lcpLen c.s sv)) false 0
                [Node.mk (c.s.drop (lcpLen c.s sv)) c.terminalWord c.terminalCount
                  c.childNodes]).WF := by
              refine (Node.wf_iff _ _ _ _).2 ⟨?_, by simp, ?_⟩
              · intro x hx
                simp at hx
                subst hx
                exact hbne
              · intro x hx
                simp at hx
                subst hx
                exact Node.wf_congr c _ rfl (hwfc c hcmem)
            rw [Node.insert_split_eq fuel s tw tc pre post c sv isWord size wc hsv hc hother
              hfbp he] at h
            split at h
            · simp at h
            · rename_i r1 hr1
              simp only [Option.some.injEq] at h
              subst h
              obtain ⟨k, j, a1, a2, a3, a4, a5, a6⟩ :=
                ih _ (sv.drop (lcpLen c.s sv)) (sizeInc size) wc (by simp; omega) hwf2 r1 hr1
              have hcc : c.count = Node.countList c.childNodes + 1 := by
                cases c; simp [Node.count_mk]
              have hcm : c.wordMarks = (if c.terminalWord = true then 1 else 0)
                  + (Node.nodesList c.childNodes).countP (fun m => m.terminalWord) := by
                cases c; simp [Node.wordMarks_mk]
              simp only [Node.count_mk, Node.countList_cons, Node.countList_nil,
                Node.wordMarks_mk, Node.marks_cons, Node.marks_nil] at a1 a2 a3 a4 a5 a6
              refine ⟨1 + k, j, ?_, ?_, ?_, a4, fun _ => a5 (Nat.mod_lt _ (by decide)), a6⟩
              · simp only [Node.count_mk, Node.countList_cons, Node.countList_append, a1, hcc]
                omega
              · simp only [Node.wordMarks_mk, Node.marks_cons, Node.marks_append, a2, hcm]
                simp
                omega
              · simp only [sizeInc] at a3 ⊢
                omega
          · rw [Node.insert_full_eq fuel s tw tc pre post c sv isWord size wc hsv hpre hc
              hfbp he] at h
            split at h
            · simp at h
            · rename_i r1 hr1
              simp only [Option.some.injEq] at h
              subst h
              obtain ⟨k, j, a1, a2, a3, a4, a5, a6⟩ :=
                ih c (sv.drop c.s.length) size wc (by simp; omega) (hwfc c hcmem) r1 hr1
              simp only at a1 a2 a3 a4 a5 a6
              refine ⟨k, j, ?_, ?_, a3, a4, a5, a6⟩
              · simp only [Node.count_mk, Node.countList_cons, Node.countList_append, a1]
                omega
              · simp only [Node.wordMarks_mk, Node.marks_cons, Node.marks_append, a2]
                omega

theorem CompressedSuffixTree.insertLoop_counts (word : List Char) :
    ∀ (ns : List Nat) (t t2 : CompressedSuffixTree), t._root.WF →
      insertLoop word ns t = some t2 → CountersFollow t t2 := by
  intro ns
  induction ns with
  | nil =>
    intro t t2 _ h
    simp only [insertLoop, Option.some.injEq] at h
    subst h
    exact countersFollow_refl _
  | cons n ns ih =>
    intro t t2 hwf h
    simp only [insertLoop] at h
    split at h
    · simp at h
    · rename_i r hr
      split at h
      · exact countersFollow_trans _ _ _
          (Node.insert_counts false _ t._root _ t._size t._wordCount (by omega) hwf r hr)
          (ih _ t2 (pass_wf t hwf _ _ r hr).1 h)
      · simp at h

/-- A public `insert` counts the nodes it adds in `_size` and the flags it sets in
`_wordCount`, whatever it returns. -/
theorem CompressedSuffixTree.insert_call_counts (t : CompressedSuffixTree) (hwf : t._root.WF)
    (w : List Char) (b : Bool) (t2 : CompressedSuffixTree) (h : t.insert w = some (b, t2)) :
    CountersFollow t t2 := by
  unfold CompressedSuffixTree.insert at h
  split at h
  · simp only [Option.some.injEq, Prod.mk.injEq] at h
    obtain ⟨-, rfl⟩ := h
    exact countersFollow_refl _
  · split at h
    · simp at h
    · rename_i r hr
      have c1 := Node.insert_counts true _ t._root _ t._size t._wordCount (by omega) hwf r hr
      split at h
      · simp only [Option.some.injEq, Prod.mk.injEq] at h
        obtain ⟨-, rfl⟩ := h
        exact c1
      · split at h
        · simp at h
        · rename_i t3 ht3
          simp only [Option.some.injEq, Prod.mk.injEq] at h
          obtain ⟨-, rfl⟩ := h
          exact countersFollow_trans _ _ _ c1
            (insertLoop_counts w _ _ _ (pass_wf t hwf _ _ r hr).1 ht3)

theorem CompressedSuffixTree.nonRootNodes_length (t : CompressedSuffixTree) :
    t.nonRootNodes.length + 1 = t._root.count := by
  rw [← Node.nodes_length, Node.nodes_eq, List.length_cons]
  rfl

theorem CompressedSuffixTree.wordNodes_length (t : CompressedSuffixTree) :
    t.wordNodes.length = t._root.wordMarks := by
  rw [CompressedSuffixTree.wordNodes, Node.wordMarks, List.countP_eq_length_filter]

/-- Claim C22: on a well-formed tree in which `size()` is the number of nodes below the
root and `wordCount()` is the number of nodes with the `terminalWord` flag set, every
`insert` call returns, and after it, whether it returned true or false, `size()` is again
the number of nodes below the root and `wordCount()` the number of flagged nodes (both
as long as the numbers fit a `size_t`); the tree has not lost a node or a flag, so `size()`
has grown by the number of nodes created. -/
theorem insert_keeps_counters (t : CompressedSuffixTree) (hwf : t._root.WF)
    (hsize : t.size = t.nonRootNodes.length) (hwc : t.wordCount = t.wordNodes.length)
    (w : List Char) :
    ∃ b t2, t.insert w = some (b, t2) ∧
      (t2.nonRootNodes.length < 2 ^ 64 → t2.size = t2.nonRootNodes.length) ∧
      (t2.wordNodes.length < 2 ^ 64 → t2.wordCount = t2.wordNodes.length) ∧
      t.nonRootNodes.length ≤ t2.nonRootNodes.length ∧
      t.wordNodes.length ≤ t2.wordNodes.length ∧
      t2.size % 2 ^ 64
        = (t.size + (t2.nonRootNodes.length - t.nonRootNodes.length)) % 2 ^ 64 := by
  obtain ⟨t2, h2, -⟩ := CompressedSuffixTree.insert_call_spec t hwf w
  obtain ⟨k, j, a1, a2, a3, a4, a5, a6⟩ := CompressedSuffixTree.insert_call_counts t hwf w _ t2 h2
  have n1 := CompressedSuffixTree.nonRootNodes_length t
  have n2 := CompressedSuffixTree.nonRootNodes_length t2
  have m1 := CompressedSuffixTree.wordNodes_length t
  have m2 := CompressedSuffixTree.wordNodes_length t2
  simp only [CompressedSuffixTree.size, CompressedSuffixTree.wordCount] at hsize hwc ⊢
  refine ⟨_, t2, h2, fun hb => ?_, fun hb => ?_, by omega, by omega, ?_⟩
  · have := a5 (by omega)
    omega
  · have := a6 (by omega)
    omega
  · have : t2.nonRootNodes.length - t.nonRootNodes.length = k := by omega
    rw [this]
    exact a3

theorem insert_keeps_counters_witness :
    stateAB._root.WF ∧ stateAB.size = stateAB.nonRootNodes.length ∧
    stateAB.wordCount = stateAB.wordNodes.length ∧
    ∃ b t2, stateAB.insert ['c', 'a', 'b'] = some (b, t2) ∧
      (t2.nonRootNodes.length < 2 ^ 64 → t2.size = t2.nonRootNodes.length) ∧
      (t2.wordNodes.length < 2 ^ 64 → t2.wordCount = t2.wordNodes.length) ∧
      stateAB.nonRootNodes.length ≤ t2.nonRootNodes.length ∧
      stateAB.wordNodes.length ≤ t2.wordNodes.length ∧
      t2.size % 2 ^ 64
        = (stateAB.size + (t2.nonRootNodes.length - stateAB.nonRootNodes.length)) % 2 ^ 64 :=
  ⟨Reachable.wf _ reachable_stateAB, by decide, by decide,
    insert_keeps_counters stateAB (Reachable.wf _ reachable_stateAB) (by decide) (by decide)
      ['c', 'a', 'b']⟩

/-- Two well-formed trees that are equal for `deepEqual` carry the same flags on every
path, in whatever order their children are stored. -/
theorem Node.flagsAt_of_deepEqual (a : Node) :
    ∀ b : Node, a.WF → b.WF → Node.deepEqual a b = true →
      ∀ p, a.flagsAt p = b.flagsAt p := by
  induction a using Node.induct with
  | step s tw tc cs ih =>
    intro b ha hb hab p
    have hka := Node.WF.keysDistinct _ ha
    obtain ⟨hnda, -⟩ := (Node.keysDistinct_iff _ _ _ _).1 hka
    obtain ⟨-, -, hawf⟩ := (Node.wf_iff _ _ _ _).1 ha
    obtain ⟨-, -, hbwf⟩ := Node.wf_children b hb
    rw [Node.deepEqual_iff] at hab
    simp only [Node.s_mk, Node.terminalWord_mk, Node.terminalCount_mk,
      Node.childNodes_mk] at hab
    obtain ⟨-, h2, h3, h4, h5⟩ := hab
    by_cases hp : p = []
    · subst hp
      rw [Node.flagsAt_nil, Node.flagsAt_nil, Node.terminalWord_mk, Node.terminalCount_mk,
        h2, h3]
    · rw [Node.flagsAt_cons _ p hp, Node.flagsAt_cons _ p hp, Node.childNodes_mk]
      cases hf : cs.find? (fun c => c.s.head? == p.head?) with
      | some c =>
        have hc : c ∈ cs := List.mem_of_find?_eq_some hf
        have hh : c.s.head? = p.head? := by simpa using List.find?_some hf
        obtain ⟨d, hd, hcd⟩ := h5 c hc
        obtain ⟨hdm, hds⟩ := Node.child_some _ _ _ hd
        rw [Node.find_child b hb d hdm p (by rw [hds]; exact hh)]
        simp only [hds]
        rw [ih c hc d (hawf c hc) (hbwf d hdm) hcd]
      | none =>
        have hnone : ∀ c ∈ cs, ¬ (c.s.head? = p.head?) := by
          simpa [List.find?_eq_none] using hf
        have honto := keys_onto cs b.childNodes hnda
          (fun c hc => by
            obtain ⟨d, hd, -⟩ := h5 c hc
            exact ⟨d, (Node.child_some _ _ _ hd).1, (Node.child_some _ _ _ hd).2⟩) h4
        have hb0 : b.childNodes.find? (fun c => c.s.head? == p.head?) = none := by
          rw [List.find?_eq_none]
          intro d hd hdh
          obtain ⟨c, hc, hcs⟩ := honto d hd
          apply hnone c hc
          rw [hcs]
          simpa using hdh
        rw [hb0]

/-- Claim C31: for all indexes `a` and `b` reachable from the empty index by `insert` and
`erase` calls, if `a == b` then `search(s)` and `endsWith(s)` return the same result on
`a` and on `b` for every string `s`, whatever the order in which the children are
stored. -/
theorem equal_indexes_answer_alike (a b : CompressedSuffixTree) (ha : Reachable a)
    (hb : Reachable b) (h : a.eq b = true) (s : List Char) :
    a.search s = b.search s ∧ a.endsWith s = b.endsWith s := by
  simp only [CompressedSuffixTree.eq, Bool.and_eq_true] at h
  have hfl := Node.flagsAt_of_deepEqual a._root b._root (Reachable.wf a ha)
    (Reachable.wf b hb) h.2 s
  rw [search_eq_flags, search_eq_flags, endsWith_eq_flags, endsWith_eq_flags, hfl]
  exact ⟨rfl, rfl⟩

theorem equal_indexes_answer_alike_witness :
    Reachable stateCAB ∧ Reachable stateCABalt ∧ stateCAB.eq stateCABalt = true ∧
    (stateCAB.search ['a', 'b'] = stateCABalt.search ['a', 'b'] ∧
      stateCAB.endsWith ['a', 'b'] = stateCABalt.endsWith ['a', 'b']) :=
  ⟨reachable_stateCAB, reachable_stateCABalt, by decide,
    equal_indexes_answer_alike stateCAB stateCABalt reachable_stateCAB
      reachable_stateCABalt (by decide) ['a', 'b']⟩

/-- In a well-formed tree every node below the top one has a non-empty label. -/
theorem Node.WF.labels (n : Node) :
    n.WF → ∀ m ∈ Node.nodesList n.childNodes, m.s ≠ [] := by
  induction n using Node.induct with
  | step s tw tc cs ih =>
    intro hwf m hm
    obtain ⟨hne, -, hwfc⟩ := (Node.wf_iff _ _ _ _).1 hwf
    rw [Node.childNodes_mk, Node.mem_nodesList] at hm
    obtain ⟨c, hc, hm⟩ := hm
    rw [Node.nodes_eq, List.mem_cons] at hm
    rcases hm with rfl | hm
    · exact hne m hc
    · exact ih c hc (hwfc c hc) m hm

/-- Claim C32: in every state reachable from the empty index by `insert` and `erase`
calls every node below the root has a non-empty label. So at every node of the tree
each child label that `findByDeterminingPrefix` looks at has a first character, and when
`findByDeterminingPrefix` returns a child for the string `sv`, the position `endPos` is
at least 1 and at most the length of `sv`, so that the rest of `sv` handed to the
recursive call is strictly shorter than `sv`. -/
theorem labels_are_nonempty (t : CompressedSuffixTree) (h : Reachable t) :
    (∀ n ∈ t.nonRootNodes, n.s ≠ []) ∧
    (∀ n ∈ t._root.nodes, ∀ c ∈ n.childNodes, c.s.head? ≠ none) ∧
    (∀ n ∈ t._root.nodes, ∀ (sv : List Char) (it : Iter) (endPos : Nat),
      n.findByDeterminingPrefix sv = some (it, endPos) →
      it.cur.s ≠ [] ∧ 1 ≤ endPos ∧ endPos ≤ sv.length ∧
        (sv.drop endPos).length < sv.length) := by
  have hwf := Reachable.wf t h
  refine ⟨Node.WF.labels t._root hwf, fun n hn c hc hh => ?_, fun n hn sv it endPos hf => ?_⟩
  · have hnwf := Node.WF.at_every_node t._root hwf n hn
    obtain ⟨hne, -, -⟩ := Node.wf_children n hnwf
    apply hne c hc
    cases hs : c.s with
    | nil => rfl
    | cons x l => rw [hs] at hh; simp at hh
  · have hnwf := Node.WF.at_every_node t._root hwf n hn
    obtain ⟨hne, -, -⟩ := Node.wf_children n hnwf
    have hsv : sv ≠ [] := by
      rintro rfl
      simp [Node.findByDeterminingPrefix] at hf
    rcases Node.fbp_cases n sv hsv with ⟨h0, -, -⟩ | ⟨pre, c, post, hcs, -, hc, hf2, -⟩
    · rw [h0] at hf; simp at hf
    · rw [hf2] at hf
      simp only [Option.some.injEq, Prod.mk.injEq] at hf
      obtain ⟨rfl, rfl⟩ := hf
      have hpos := lcpLen_pos c.s sv hsv hc
      have hle := lcpLen_le_right c.s sv
      refine ⟨hne c (by rw [hcs]; simp), hpos, hle, ?_⟩
      rw [List.length_drop]
      have := List.length_pos.2 hsv
      omega

theorem labels_are_nonempty_witness :
    Reachable stateCAB ∧
    ((∀ n ∈ stateCAB.nonRootNodes, n.s ≠ []) ∧
    (∀ n ∈ stateCAB._root.nodes, ∀ c ∈ n.childNodes, c.s.head? ≠ none) ∧
    (∀ n ∈ stateCAB._root.nodes, ∀ (sv : List Char) (it : Iter) (endPos : Nat),
      n.findByDeterminingPrefix sv = some (it, endPos) →
      it.cur.s ≠ [] ∧ 1 ≤ endPos ∧ endPos ≤ sv.length ∧
        (sv.drop endPos).length < sv.length)) :=
  ⟨reachable_stateCAB, labels_are_nonempty stateCAB reachable_stateCAB⟩

end container

namespace container

namespace Ptr

theorem Heap.next_write (h : Heap) (p : Nat) (n : Node) : (h.write p n).next = h.next := by
  simp [Heap.write, Heap.next]

theorem Heap.next_alloc (h : Heap) (n : Node) : (h.alloc n).next = h.next + 1 := by
  simp [Heap.alloc, Heap.next]

theorem Heap.read_write_ne (h : Heap) (p q : Nat) (n : Node) (hq : q ≠ p) :
    (h.write p n).read q = h.read q := by
  simp [Heap.write, Heap.read, List.getD_eq_getElem?_getD, List.getElem?_set_ne (Ne.symm hq)]

theorem Heap.read_write_children (h : Heap) (p q : Nat) (n : Node) (c : Nat)
    (hc : c ∈ ((h.write p n).read q).childNodes) :
    c ∈ n.childNodes ∨ c ∈ (h.read q).childNodes := by
  by_cases hq : q = p
  · subst hq
    by_cases hlt : q < h.next
    · left
      simp only [Heap.next] at hlt
      simpa [Heap.write, Heap.read, List.getD_eq_getElem?_getD, hlt] using hc
    · right
      simp only [Heap.next, not_lt] at hlt
      have h1 : (h.write q n).read q = h.read q := by
        have h2 : ¬ q < List.length h := by omega
        have h3 : h[q]? = none := List.getElem?_eq_none hlt
        simp [Heap.write, Heap.read, List.getD_eq_getElem?_getD, List.getElem?_set, h2, h3]
      rwa [h1] at hc
  · right
    rwa [Heap.read_write_ne h p q n hq] at hc

theorem Heap.read_alloc_lt (h : Heap) (q : Nat) (n : Node) (hq : q < h.next) :
    (h.alloc n).read q = h.read q := by
  simp only [Heap.next] at hq
  simp [Heap.alloc, Heap.read, List.getD_eq_getElem?_getD, List.getElem?_append_left hq]

theorem Heap.read_alloc_children (h : Heap) (q : Nat) (n : Node) (c : Nat)
    (hc : c ∈ ((h.alloc n).read q).childNodes) :
    c ∈ n.childNodes ∨ c ∈ (h.read q).childNodes := by
  by_cases hq : q < h.next
  · right
    rwa [Heap.read_alloc_lt h q n hq] at hc
  · simp only [Heap.next, not_lt] at hq
    by_cases hq2 : q = h.length
    · left
      subst hq2
      simpa [Heap.alloc, Heap.read, List.getD_eq_getElem?_getD] using hc
    · have hlt : h.length < q := lt_of_le_of_ne hq (Ne.symm hq2)
      have h1 : (h.alloc n).read q = ⟨[], false, 0, []⟩ := by
        simp only [Heap.alloc, Heap.read, List.getD_eq_getElem?_getD]
        rw [List.getElem?_eq_none]
        · rfl
        · simp; omega
      rw [h1] at hc
      simp at hc

theorem frame_refl (R : Nat → Prop) (h : Heap) (hs : Sep R h) : Frame R h h :=
  ⟨le_refl _, fun _ _ => rfl, hs⟩

theorem frame_trans (R : Nat → Prop) (h h1 h2 : Heap) (f1 : Frame R h h1)
    (f2 : Frame R h1 h2) : Frame R h h2 :=
  ⟨le_trans f1.1 f2.1, fun q hq => (f2.2.1 q hq).trans (f1.2.1 q hq), f2.2.2⟩

theorem frame_write (R : Nat → Prop) (h h1 : Heap) (f : Frame R h h1) (p : Nat) (n : Node)
    (hp : ¬ R p) (hn : ∀ c ∈ n.childNodes, ¬ R c) :
    Frame R h (h1.write p n) := by
  obtain ⟨f1, f2, f3⟩ := f
  refine ⟨by rw [Heap.next_write]; exact f1, fun q hq1 => ?_, fun q c hq hc => ?_⟩
  · rw [Heap.read_write_ne h1 p q n, f2 q hq1]
    rintro rfl
    exact hp hq1
  · rcases Heap.read_write_children h1 p q n c hc with hc | hc
    · exact hn c hc
    · exact f3 q c hq hc

theorem Heap.read_ge (h : Heap) (q : Nat) (hq : h.next ≤ q) :
    h.read q = ⟨[], false, 0, []⟩ := by
  simp only [Heap.next] at hq
  simp [Heap.read, List.getD_eq_getElem?_getD, List.getElem?_eq_none hq]

theorem Heap.read_alloc_ne (h : Heap) (q : Nat) (n : Node) (hq : q ≠ h.next) :
    (h.alloc n).read q = h.read q := by
  by_cases hlt : q < h.next
  · exact Heap.read_alloc_lt h q n hlt
  · rw [Heap.read_ge h q (by omega), Heap.read_ge (h.alloc n) q
      (by rw [Heap.next_alloc]; omega)]

theorem frame_alloc (R : Nat → Prop) (h h1 : Heap) (f : Frame R h h1) (n : Node)
    (hnew : ¬ R h1.next) (hn : ∀ c ∈ n.childNodes, ¬ R c) :
    Frame R h (h1.alloc n) := by
  obtain ⟨f1, f2, f3⟩ := f
  refine ⟨by rw [Heap.next_alloc]; omega, fun q hq1 => ?_, fun q c hq hc => ?_⟩
  · rw [Heap.read_alloc_ne h1 q n (by rintro rfl; exact hnew hq1), f2 q hq1]
  · rcases Heap.read_alloc_children h1 q n c hc with hc | hc
    · exact hn c hc
    · exact f3 q c hq hc

theorem findKey_all (h : Heap) (key : List Char) :
    ∀ (cs seen : List Nat) (it : Iter), findKey h key seen cs = some it →
      it.all = seen ++ cs := by
  intro cs
  induction cs with
  | nil => intro seen it hf; simp [findKey] at hf
  | cons c rest ih =>
    intro seen it hf
    simp only [findKey] at hf
    split at hf
    · simp only [Option.some.injEq] at hf
      subst hf
      rfl
    · rw [ih _ _ hf]
      simp

theorem scanChildren_all (h : Heap) (sv : List Char) :
    ∀ (cs seen : List Nat) (it : Iter) (e : Nat), scanChildren h sv seen cs = some (it, e) →
      it.all = seen ++ cs := by
  intro cs
  induction cs with
  | nil => intro seen it e hf; simp [scanChildren] at hf
  | cons c rest ih =>
    intro seen it e hf
    simp only [scanChildren] at hf
    split at hf
    · simp only [Option.some.injEq, Prod.mk.injEq] at hf
      obtain ⟨rfl, -⟩ := hf
      rfl
    · rw [ih _ _ _ hf]
      simp

theorem Iter.cur_mem (it : Iter) : it.cur ∈ it.all := by
  simp [Iter.all]

theorem Iter.remove_subset (it : Iter) : ∀ c ∈ it.remove, c ∈ it.all := by
  intro c hc
  simp only [Iter.remove, List.mem_append] at hc
  simp only [Iter.all, List.mem_append, List.mem_cons]
  tauto

theorem fbp_all (h : Heap) (node : Nat) (sv : List Char) (it : Iter) (e : Nat)
    (hf : findByDeterminingPrefix h node sv = some (it, e)) :
    it.all = (h.read node).childNodes := by
  unfold findByDeterminingPrefix at hf
  split at hf
  · simp at hf
  · simpa using scanChildren_all h sv _ [] it e hf

theorem emplace_all (h : Heap) (m : List Nat) (n : Nat) :
    ∀ c ∈ (emplace h m n).all, c = n ∨ c ∈ m := by
  intro c hc
  unfold emplace at hc
  split at hc
  · rename_i it hit
    rw [findKey_all h _ m [] it hit] at hc
    right
    simpa using hc
  · simpa [Iter.all] using hc

theorem Frame.children (R : Nat → Prop) (h0 h : Heap) (f : Frame R h0 h) (q : Nat)
    (hq : ¬ R q) : ∀ c ∈ (h.read q).childNodes, ¬ R c :=
  fun c hc => f.2.2 q c hq hc

/-- A private `insert` pass allocates and frees nothing that was allocated. -/
theorem insert_next (isWord : Bool) (fuel : Nat) :
    ∀ (h : Heap) (node : Nat) (sv : List Char) (size wc : Nat) (r : Pass),
      insert fuel h node sv isWord size wc = some r → h.next ≤ r.heap.next := by
  induction fuel with
  | zero => intro h node sv size wc r hins; simp [insert] at hins
  | succ fuel ih =>
    intro h node sv size wc r hins
    rw [insert] at hins
    split at hins
    · split at hins
      · split at hins
        · simp only [Option.some.injEq] at hins
          subst hins
          exact le_refl _
        · simp only [Option.some.injEq] at hins
          subst hins
          simp [Heap.next_write]
      · simp only [Option.some.injEq] at hins
        subst hins
        simp [Heap.next_write]
    · split at hins
      · simp only [] at hins
        have := ih _ _ _ _ _ r hins
        simp only [Heap.next_write, Heap.next_alloc] at this
        omega
      · split at hins
        · simp only [] at hins
          have := ih _ _ _ _ _ r hins
          simp only [Heap.next_write, Heap.next_alloc] at this
          omega
        · split at hins
          · simp at hins
          · exact ih _ _ _ _ _ r hins

/-- A private `insert` pass that starts at a node outside of the region `R`, and during
which no address of `R` is allocated, leaves the objects in `R` as they are and gives no
object outside of `R` a pointer into it. -/
theorem insert_frame (R : Nat → Prop) (h0 : Heap) (isWord : Bool) (fuel : Nat) :
    ∀ (h : Heap) (node : Nat) (sv : List Char) (size wc : Nat) (r : Pass),
      Frame R h0 h → ¬ R node → insert fuel h node sv isWord size wc = some r →
      (∀ n, h.next ≤ n → n < r.heap.next → ¬ R n) → Frame R h0 r.heap := by
  induction fuel with
  | zero => intro h node sv size wc r _ _ hins; simp [insert] at hins
  | succ fuel ih =>
    intro h node sv size wc r F hout hins hfree
    have hkids := Frame.children R h0 h F node hout
    rw [insert] at hins
    split at hins
    · -- the pass ends at `node`
      split at hins
      · split at hins
        · simp only [Option.some.injEq] at hins
          subst hins
          exact F
        · simp only [Option.some.injEq] at hins
          subst hins
          exact frame_write R h0 h F node _ hout hkids
      · simp only [Option.some.injEq] at hins
        subst hins
        exact frame_write R h0 h F node _ hout hkids
    · split at hins
      · -- a new leaf
        simp only [] at hins
        have hle := insert_next isWord fuel _ _ _ _ _ r hins
        simp only [Heap.next_write, Heap.next_alloc] at hle
        have hnew : ¬ R h.next := hfree h.next (le_refl _) (by omega)
        have F1 := frame_alloc R h0 h F ⟨sv, false, 0, []⟩ hnew (by simp)
        have hmem : ∀ c ∈ (emplace (h.alloc ⟨sv, false, 0, []⟩)
            ((h.alloc ⟨sv, false, 0, []⟩).read node).childNodes h.next).all, ¬ R c := by
          intro c hc
          rcases emplace_all _ _ _ c hc with rfl | hc
          · exact hnew
          · exact Frame.children R h0 _ F1 node hout c hc
        have F2 := frame_write R h0 _ F1 node
          ⟨((h.alloc ⟨sv, false, 0, []⟩).read node).s,
            ((h.alloc ⟨sv, false, 0, []⟩).read node).terminalWord,
            ((h.alloc ⟨sv, false, 0, []⟩).read node).terminalCount, _⟩ hout hmem
        refine ih _ _ _ _ _ r F2 (hmem _ (Iter.cur_mem _)) hins (fun n hn1 hn2 => ?_)
        simp only [Heap.next_write, Heap.next_alloc] at hn1
        exact hfree n (by omega) hn2
      · rename_i it endPos hfbp
        have hall := fbp_all h node sv it endPos hfbp
        have hitall : ∀ c ∈ it.all, ¬ R c := by
          intro c hc
          rw [hall] at hc
          exact hkids c hc
        have hcur : ¬ R it.cur := hitall _ (Iter.cur_mem it)
        split at hins
        · -- the child is split
          simp only [] at hins
          have hle := insert_next isWord fuel _ _ _ _ _ r hins
          simp only [Heap.next_write, Heap.next_alloc] at hle
          have hnew : ¬ R h.next := hfree h.next (le_refl _) (by omega)
          have F1 := frame_write R h0 h F node
            ⟨(h.read node).s, (h.read node).terminalWord, (h.read node).terminalCount,
              it.remove⟩ hout (fun c hc => hitall c (Iter.remove_subset it c hc))
          set h1 : Heap := h.write node
            ⟨(h.read node).s, (h.read node).terminalWord, (h.read node).terminalCount,
              it.remove⟩ with hh1
          have F2 := frame_write R h0 h1 F1 it.cur
            ⟨(h1.read it.cur).s.take endPos, false, 0, (h1.read it.cur).childNodes⟩ hcur
            (Frame.children R h0 h1 F1 it.cur hcur)
          set h2 : Heap := h1.write it.cur
            ⟨(h1.read it.cur).s.take endPos, false, 0, (h1.read it.cur).childNodes⟩ with hh2
          have hmem2 : ∀ c ∈ (emplace h2 (h2.read node).childNodes it.cur).all,
              ¬ R c := by
            intro c hc
            rcases emplace_all _ _ _ c hc with rfl | hc
            · exact hcur
            · exact Frame.children R h0 h2 F2 node hout c hc
          have hcur2 := hmem2 _ (Iter.cur_mem _)
          have F3 := frame_write R h0 h2 F2 node
            ⟨(h2.read node).s, (h2.read node).terminalWord, (h2.read node).terminalCount,
              (emplace h2 (h2.read node).childNodes it.cur).all⟩ hout hmem2
          set h3 : Heap := h2.write node
            ⟨(h2.read node).s, (h2.read node).terminalWord, (h2.read node).terminalCount,
              (emplace h2 (h2.read node).childNodes it.cur).all⟩ with hh3
          have F4 := frame_alloc R h0 h3 F3
            ⟨(h.read it.cur).s.drop endPos, (h1.read it.cur).terminalWord,
              (h1.read it.cur).terminalCount,
              (h3.read (emplace h2 (h2.read node).childNodes it.cur).cur).childNodes⟩
            (by rw [hh3, Heap.next_write, hh2, Heap.next_write, hh1, Heap.next_write]
                exact hnew)
            (Frame.children R h0 h3 F3 _ hcur2)
          set h4 : Heap := h3.alloc
            ⟨(h.read it.cur).s.drop endPos, (h1.read it.cur).terminalWord,
              (h1.read it.cur).terminalCount,
              (h3.read (emplace h2 (h2.read node).childNodes it.cur).cur).childNodes⟩
            with hh4
          have hmem3 : ∀ c ∈ (emplace h4 [] h3.next).all, ¬ R c := by
            intro c hc
            rcases emplace_all _ _ _ c hc with rfl | hc
            · rw [hh3, Heap.next_write, hh2, Heap.next_write, hh1, Heap.next_write]
              exact hnew
            · simp at hc
          have F5 := frame_write R h0 h4 F4
            (emplace h2 (h2.read node).childNodes it.cur).cur
            ⟨(h4.read (emplace h2 (h2.read node).childNodes it.cur).cur).s,
              (h4.read (emplace h2 (h2.read node).childNodes it.cur).cur).terminalWord,
              (h4.read (emplace h2 (h2.read node).childNodes it.cur).cur).terminalCount,
              (emplace h4 [] h3.next).all⟩ hcur2 hmem3
          refine ih _ _ _ _ _ r F5 hcur2 hins (fun n hn1 hn2 => ?_)
          simp only [Heap.next_write, Heap.next_alloc, hh4, hh3, hh2, hh1] at hn1
          exact hfree n (by omega) hn2
        · -- the pass goes on in the child
          split at hins
          · simp at hins
          · rename_i it2 hkey
            have hall2 := findKey_all h _ _ [] it2 hkey
            have hcur2 : ¬ R it2.cur := by
              apply hkids
              have := Iter.cur_mem it2
              rw [hall2] at this
              simpa using this
            exact ih _ _ _ _ _ r F hcur2 hins hfree

/-- A private `erase` pass that starts at a node outside of the region `R` leaves the
objects in `R` as they are and gives no object outside of `R` a pointer into it. -/
theorem erase_frame (R : Nat → Prop) (h0 : Heap) (isWord : Bool) (fuel : Nat) :
    ∀ (h : Heap) (node : Nat) (sv : List Char) (size wc : Nat) (r : Pass),
      Frame R h0 h → ¬ R node → erase fuel h node sv isWord size wc = some r →
      Frame R h0 r.heap := by
  induction fuel with
  | zero => intro h node sv size wc r _ _ hers; simp [erase] at hers
  | succ fuel ih =>
    intro h node sv size wc r F hout hers
    have hkids := Frame.children R h0 h F node hout
    rw [erase] at hers
    split at hers
    · -- the pass ends at `node`
      split at hers
      · split at hers
        · simp only [Option.some.injEq] at hers
          subst hers
          exact F
        · simp only [Option.some.injEq] at hers
          subst hers
          exact frame_write R h0 h F node _ hout hkids
      · simp only [Option.some.injEq] at hers
        subst hers
        exact frame_write R h0 h F node _ hout hkids
    · split at hers
      · simp only [Option.some.injEq] at hers
        subst hers
        exact F
      · rename_i it endPos hfbp
        have hall := fbp_all h node sv it endPos hfbp
        have hitall : ∀ c ∈ it.all, ¬ R c := by
          intro c hc
          rw [hall] at hc
          exact hkids c hc
        have hcur : ¬ R it.cur := hitall _ (Iter.cur_mem it)
        have hrem : ∀ c ∈ it.remove, ¬ R c :=
          fun c hc => hitall c (Iter.remove_subset it c hc)
        split at hers
        · simp only [Option.some.injEq] at hers
          subst hers
          exact F
        · split at hers
          · simp at hers
          · rename_i r1 hr1
            have F1 := ih _ _ _ _ _ r1 F hcur hr1
            have hkids1 := Frame.children R h0 r1.heap F1 it.cur hcur
            simp only [] at hers
            split at hers
            · split at hers
              · -- the child has become a dead leaf and is removed
                simp only [Option.some.injEq] at hers
                subst hers
                exact frame_write R h0 r1.heap F1 node _ hout hrem
              · split at hers
                · -- the child is contracted with its only child
                  split at hers
                  · simp at hers
                  · rename_i it2 rest hcs
                    simp only [Option.some.injEq] at hers
                    subst hers
                    have hrest : ∀ c ∈ rest, ¬ R c := by
                      intro c hc
                      apply hkids1
                      rw [hcs]
                      exact List.mem_cons_of_mem _ hc
                    have F2 := frame_write R h0 r1.heap F1 node
                      ⟨(r1.heap.read node).s, (r1.heap.read node).terminalWord,
                        (r1.heap.read node).terminalCount, it.remove⟩ hout hrem
                    set h2 : Heap := r1.heap.write node
                      ⟨(r1.heap.read node).s, (r1.heap.read node).terminalWord,
                        (r1.heap.read node).terminalCount, it.remove⟩ with hh2
                    have F3 := frame_write R h0 h2 F2 it.cur
                      ⟨(h2.read it.cur).s ++ (h2.read it2).s, (h2.read it2).terminalWord,
                        (h2.read it2).terminalCount, (h2.read it.cur).childNodes⟩ hcur
                      (Frame.children R h0 h2 F2 it.cur hcur)
                    set h3 : Heap := h2.write it.cur
                      ⟨(h2.read it.cur).s ++ (h2.read it2).s, (h2.read it2).terminalWord,
                        (h2.read it2).terminalCount, (h2.read it.cur).childNodes⟩ with hh3
                    have hmem3 : ∀ c ∈ (emplace h3 (h3.read node).childNodes it.cur).all,
                        ¬ R c := by
                      intro c hc
                      rcases emplace_all _ _ _ c hc with rfl | hc
                      · exact hcur
                      · exact Frame.children R h0 h3 F3 node hout c hc
                    have F4 := frame_write R h0 h3 F3 node
                      ⟨(h3.read node).s, (h3.read node).terminalWord,
                        (h3.read node).terminalCount,
                        (emplace h3 (h3.read node).childNodes it.cur).all⟩ hout hmem3
                    set h4 : Heap := h3.write node
                      ⟨(h3.read node).s, (h3.read node).terminalWord,
                        (h3.read node).terminalCount,
                        (emplace h3 (h3.read node).childNodes it.cur).all⟩ with hh4
                    exact frame_write R h0 h4 F4 it.cur _ hcur hrest
                · simp only [Option.some.injEq] at hers
                  subst hers
                  exact F1
            · simp only [Option.some.injEq] at hers
              subst hers
              exact F1

/-- A private `erase` pass allocates nothing. -/
theorem erase_next (isWord : Bool) (fuel : Nat) :
    ∀ (h : Heap) (node : Nat) (sv : List Char) (size wc : Nat) (r : Pass),
      erase fuel h node sv isWord size wc = some r → r.heap.next = h.next := by
  induction fuel with
  | zero => intro h node sv size wc r hers; simp [erase] at hers
  | succ fuel ih =>
    intro h node sv size wc r hers
    rw [erase] at hers
    split at hers
    · split at hers
      · split at hers
        · simp only [Option.some.injEq] at hers
          subst hers
          rfl
        · simp only [Option.some.injEq] at hers
          subst hers
          simp [Heap.next_write]
      · simp only [Option.some.injEq] at hers
        subst hers
        simp [Heap.next_write]
    · split at hers
      · simp only [Option.some.injEq] at hers
        subst hers
        rfl
      · split at hers
        · simp only [Option.some.injEq] at hers
          subst hers
          rfl
        · split at hers
          · simp at hers
          · rename_i r1 hr1
            have h1 := ih _ _ _ _ _ r1 hr1
            simp only [] at hers
            split at hers
            · split at hers
              · simp only [Option.some.injEq] at hers
                subst hers
                simp [Heap.next_write, h1]
              · split at hers
                · split at hers
                  · simp at hers
                  · simp only [Option.some.injEq] at hers
                    subst hers
                    simp [Heap.next_write, h1]
                · simp only [Option.some.injEq] at hers
                  subst hers
                  exact h1
            · simp only [Option.some.injEq] at hers
              subst hers
              exact h1

theorem CompressedSuffixTree.insertLoop_next (word : List Char) (root : Nat) :
    ∀ (ns : List Nat) (h : Heap) (size wc : Nat) (h2 : Heap) (size2 wc2 : Nat),
      CompressedSuffixTree.insertLoop word root ns h size wc = some (h2, size2, wc2) →
      h.next ≤ h2.next := by
  intro ns
  induction ns with
  | nil =>
    intro h size wc h2 size2 wc2 hl
    simp only [CompressedSuffixTree.insertLoop, Option.some.injEq, Prod.mk.injEq] at hl
    obtain ⟨rfl, -, -⟩ := hl
    exact le_refl _
  | cons n ns ih =>
    intro h size wc h2 size2 wc2 hl
    simp only [CompressedSuffixTree.insertLoop] at hl
    split at hl
    · simp at hl
    · rename_i r hr
      split at hl
      · exact le_trans (insert_next false _ _ _ _ _ _ r hr) (ih _ _ _ _ _ _ hl)
      · simp at hl

theorem CompressedSuffixTree.eraseLoop_next (word : List Char) (root : Nat) :
    ∀ (ns : List Nat) (h : Heap) (size wc : Nat) (h2 : Heap) (size2 wc2 : Nat),
      CompressedSuffixTree.eraseLoop word root ns h size wc = some (h2, size2, wc2) →
      h2.next = h.next := by
  intro ns
  induction ns with
  | nil =>
    intro h size wc h2 size2 wc2 hl
    simp only [CompressedSuffixTree.eraseLoop, Option.some.injEq, Prod.mk.injEq] at hl
    obtain ⟨rfl, -, -⟩ := hl
    rfl
  | cons n ns ih =>
    intro h size wc h2 size2 wc2 hl
    simp only [CompressedSuffixTree.eraseLoop] at hl
    split at hl
    · simp at hl
    · rename_i r hr
      split at hl
      · rw [ih _ _ _ _ _ _ hl, erase_next false _ _ _ _ _ _ r hr]
      · simp at hl

theorem CompressedSuffixTree.insertLoop_frame (R : Nat → Prop) (h0 : Heap)
    (word : List Char) (root : Nat) (hroot : ¬ R root) :
    ∀ (ns : List Nat) (h : Heap) (size wc : Nat) (h2 : Heap) (size2 wc2 : Nat),
      Frame R h0 h →
      CompressedSuffixTree.insertLoop word root ns h size wc = some (h2, size2, wc2) →
      (∀ n, h.next ≤ n → n < h2.next → ¬ R n) → Frame R h0 h2 := by
  intro ns
  induction ns with
  | nil =>
    intro h size wc h2 size2 wc2 F hl _
    simp only [CompressedSuffixTree.insertLoop, Option.some.injEq, Prod.mk.injEq] at hl
    obtain ⟨rfl, -, -⟩ := hl
    exact F
  | cons n ns ih =>
    intro h size wc h2 size2 wc2 F hl hfree
    simp only [CompressedSuffixTree.insertLoop] at hl
    split at hl
    · simp at hl
    · rename_i r hr
      split at hl
      · have hle1 := insert_next false _ _ _ _ _ _ r hr
        have hle2 := insertLoop_next word root _ _ _ _ _ _ _ hl
        exact ih _ _ _ _ _ _
          (insert_frame R h0 false _ _ _ _ _ _ r F hroot hr
            (fun n hn1 hn2 => hfree n hn1 (lt_of_lt_of_le hn2 hle2))) hl
          (fun n hn1 hn2 => hfree n (le_trans hle1 hn1) hn2)
      · simp at hl

theorem CompressedSuffixTree.eraseLoop_frame (R : Nat → Prop) (h0 : Heap)
    (word : List Char) (root : Nat) (hroot : ¬ R root) :
    ∀ (ns : List Nat) (h : Heap) (size wc : Nat) (h2 : Heap) (size2 wc2 : Nat),
      Frame R h0 h →
      CompressedSuffixTree.eraseLoop word root ns h size wc = some (h2, size2, wc2) →
      Frame R h0 h2 := by
  intro ns
  induction ns with
  | nil =>
    intro h size wc h2 size2 wc2 F hl
    simp only [CompressedSuffixTree.eraseLoop, Option.some.injEq, Prod.mk.injEq] at hl
    obtain ⟨rfl, -, -⟩ := hl
    exact F
  | cons n ns ih =>
    intro h size wc h2 size2 wc2 F hl
    simp only [CompressedSuffixTree.eraseLoop] at hl
    split at hl
    · simp at hl
    · rename_i r hr
      split at hl
      · exact ih _ _ _ _ _ _ (erase_frame R h0 false _ _ _ _ _ _ r F hroot hr) hl
      · simp at hl

/-- A public `insert` allocates and frees nothing that was allocated. -/
theorem CompressedSuffixTree.insert_call_next (h : Heap) (t : CompressedSuffixTree)
    (w : List Char) (res : Bool) (h2 : Heap) (t2 : CompressedSuffixTree)
    (hi : t.insert h w = some (res, h2, t2)) : h.next ≤ h2.next := by
  unfold CompressedSuffixTree.insert at hi
  split at hi
  · simp only [Option.some.injEq, Prod.mk.injEq] at hi
    obtain ⟨-, rfl, rfl⟩ := hi
    exact le_refl _
  · split at hi
    · simp at hi
    · rename_i r hr
      have hle1 := Ptr.insert_next true _ _ _ _ _ _ r hr
      split at hi
      · simp only [Option.some.injEq, Prod.mk.injEq] at hi
        obtain ⟨-, rfl, rfl⟩ := hi
        exact hle1
      · split at hi
        · simp at hi
        · rename_i h3 size3 wc3 hl
          simp only [Option.some.injEq, Prod.mk.injEq] at hi
          obtain ⟨-, rfl, rfl⟩ := hi
          exact le_trans hle1 (insertLoop_next w _ _ _ _ _ _ _ _ hl)

/-- A public `erase` allocates nothing. -/
theorem CompressedSuffixTree.erase_call_next (h : Heap) (t : CompressedSuffixTree)
    (w : List Char) (res : Bool) (h2 : Heap) (t2 : CompressedSuffixTree)
    (he : t.erase h w = some (res, h2, t2)) : h2.next = h.next := by
  unfold CompressedSuffixTree.erase at he
  split at he
  · simp only [Option.some.injEq, Prod.mk.injEq] at he
    obtain ⟨-, rfl, rfl⟩ := he
    rfl
  · split at he
    · simp at he
    · rename_i r hr
      have hle1 := Ptr.erase_next true _ _ _ _ _ _ r hr
      split at he
      · simp only [Option.some.injEq, Prod.mk.injEq] at he
        obtain ⟨-, rfl, rfl⟩ := he
        exact hle1
      · split at he
        · simp at he
        · rename_i h3 size3 wc3 hl
          simp only [Option.some.injEq, Prod.mk.injEq] at he
          obtain ⟨-, rfl, rfl⟩ := he
          rw [eraseLoop_next w _ _ _ _ _ _ _ _ hl, hle1]

/-- A public `insert` on an index whose root is outside of the region `R`, during which
no address of `R` is allocated. -/
theorem CompressedSuffixTree.insert_call_frame (R : Nat → Prop) (h : Heap)
    (hs : Sep R h) (t : CompressedSuffixTree) (hroot : ¬ R t._root)
    (w : List Char) (res : Bool) (h2 : Heap) (t2 : CompressedSuffixTree)
    (hi : t.insert h w = some (res, h2, t2))
    (hfree : ∀ n, h.next ≤ n → n < h2.next → ¬ R n) :
    Frame R h h2 ∧ t2._root = t._root := by
  have F := frame_refl R h hs
  unfold CompressedSuffixTree.insert at hi
  split at hi
  · simp only [Option.some.injEq, Prod.mk.injEq] at hi
    obtain ⟨-, rfl, rfl⟩ := hi
    exact ⟨F, rfl⟩
  · split at hi
    · simp at hi
    · rename_i r hr
      have hle1 := Ptr.insert_next true _ _ _ _ _ _ r hr
      split at hi
      · simp only [Option.some.injEq, Prod.mk.injEq] at hi
        obtain ⟨-, rfl, rfl⟩ := hi
        exact ⟨Ptr.insert_frame R h true _ _ _ _ _ _ r F hroot hr hfree, rfl⟩
      · split at hi
        · simp at hi
        · rename_i h3 size3 wc3 hl
          simp only [Option.some.injEq, Prod.mk.injEq] at hi
          obtain ⟨-, rfl, rfl⟩ := hi
          have hle2 := insertLoop_next w _ _ _ _ _ _ _ _ hl
          have F1 := Ptr.insert_frame R h true _ _ _ _ _ _ r F hroot hr
            (fun n hn1 hn2 => hfree n hn1 (lt_of_lt_of_le hn2 hle2))
          exact ⟨insertLoop_frame R h w _ hroot _ _ _ _ _ _ _ F1 hl
            (fun n hn1 hn2 => hfree n (le_trans hle1 hn1) hn2), rfl⟩

/-- A public `erase` on an index whose root is outside of the region `R`. -/
theorem CompressedSuffixTree.erase_call_frame (R : Nat → Prop) (h : Heap)
    (hs : Sep R h) (t : CompressedSuffixTree) (hroot : ¬ R t._root)
    (w : List Char) (res : Bool) (h2 : Heap) (t2 : CompressedSuffixTree)
    (he : t.erase h w = some (res, h2, t2)) : Frame R h h2 ∧ t2._root = t._root := by
  have F := frame_refl R h hs
  unfold CompressedSuffixTree.erase at he
  split at he
  · simp only [Option.some.injEq, Prod.mk.injEq] at he
    obtain ⟨-, rfl, rfl⟩ := he
    exact ⟨F, rfl⟩
  · split at he
    · simp at he
    · rename_i r hr
      have F1 := Ptr.erase_frame R h true _ _ _ _ _ _ r F hroot hr
      split at he
      · simp only [Option.some.injEq, Prod.mk.injEq] at he
        obtain ⟨-, rfl, rfl⟩ := he
        exact ⟨F1, rfl⟩
      · split at he
        · simp at he
        · rename_i h3 size3 wc3 hl
          simp only [Option.some.injEq, Prod.mk.injEq] at he
          obtain ⟨-, rfl, rfl⟩ := he
          exact ⟨eraseLoop_frame R h w _ hroot _ _ _ _ _ _ _ F1 hl, rfl⟩

/-- A mutating call allocates and frees nothing that was allocated. -/
theorem Op.apply_next (h : Heap) (t : CompressedSuffixTree) (op : Op) (h2 : Heap)
    (t2 : CompressedSuffixTree) (ho : op.apply h t = some (h2, t2)) : h.next ≤ h2.next := by
  cases op with
  | insert w =>
    simp only [Op.apply, Option.map_eq_some', Prod.exists] at ho
    obtain ⟨res, h3, t3, hi, heq⟩ := ho
    simp only [Prod.mk.injEq] at heq
    obtain ⟨rfl, rfl⟩ := heq
    exact CompressedSuffixTree.insert_call_next h t w res _ _ hi
  | erase w =>
    simp only [Op.apply, Option.map_eq_some', Prod.exists] at ho
    obtain ⟨res, h3, t3, hi, heq⟩ := ho
    simp only [Prod.mk.injEq] at heq
    obtain ⟨rfl, rfl⟩ := heq
    exact le_of_eq (CompressedSuffixTree.erase_call_next h t w res _ _ hi).symm
  | clear =>
    simp only [Op.apply, CompressedSuffixTree.clear, Option.some.injEq, Prod.mk.injEq] at ho
    obtain ⟨rfl, rfl⟩ := ho
    rw [Heap.next_alloc]
    omega

/-- A mutating call on an index whose root is outside of the region `R`, during which no
address of `R` is allocated, leaves the objects in `R` as they are, and the root of the
index stays outside of `R`. -/
theorem Op.apply_frame (R : Nat → Prop) (h : Heap) (hs : Sep R h)
    (t : CompressedSuffixTree) (hroot : ¬ R t._root) (op : Op) (h2 : Heap)
    (t2 : CompressedSuffixTree) (ho : op.apply h t = some (h2, t2))
    (hfree : ∀ n, h.next ≤ n → n < h2.next → ¬ R n) :
    Frame R h h2 ∧ ¬ R t2._root := by
  cases op with
  | insert w =>
    simp only [Op.apply, Option.map_eq_some', Prod.exists] at ho
    obtain ⟨res, h3, t3, hi, heq⟩ := ho
    simp only [Prod.mk.injEq] at heq
    obtain ⟨rfl, rfl⟩ := heq
    obtain ⟨F, hr⟩ :=
      CompressedSuffixTree.insert_call_frame R h hs t hroot w res _ _ hi hfree
    exact ⟨F, hr ▸ hroot⟩
  | erase w =>
    simp only [Op.apply, Option.map_eq_some', Prod.exists] at ho
    obtain ⟨res, h3, t3, hi, heq⟩ := ho
    simp only [Prod.mk.injEq] at heq
    obtain ⟨rfl, rfl⟩ := heq
    obtain ⟨F, hr⟩ := CompressedSuffixTree.erase_call_frame R h hs t hroot w res _ _ hi
    exact ⟨F, hr ▸ hroot⟩
  | clear =>
    simp only [Op.apply, CompressedSuffixTree.clear, Option.some.injEq, Prod.mk.injEq] at ho
    obtain ⟨rfl, rfl⟩ := ho
    have hnew : ¬ R h.next := hfree h.next (le_refl _) (by rw [Heap.next_alloc]; omega)
    exact ⟨frame_alloc R h h (frame_refl R h hs) _ hnew (by simp), hnew⟩

/-- A mutating call on an index whose root is allocated, in a memory without dangling
pointers, leaves no dangling pointer and an allocated root. -/
theorem Op.apply_valid (h : Heap) (hv : Valid h) (t : CompressedSuffixTree)
    (hroot : t._root < h.next) (op : Op) (h2 : Heap) (t2 : CompressedSuffixTree)
    (ho : op.apply h t = some (h2, t2)) : Valid h2 ∧ t2._root < h2.next := by
  have hle := Op.apply_next h t op h2 t2 ho
  have hs : Sep (fun q => h2.next ≤ q) h := by
    intro q c _ hc
    have := hv q c hc
    simp only [not_le]
    omega
  obtain ⟨F, hr⟩ := Op.apply_frame (fun q => h2.next ≤ q) h hs t
    (by simp only [not_le]; omega) op h2 t2 ho (fun n _ hn2 => by simp only [not_le]; exact hn2)
  refine ⟨fun q c hc => ?_, by simpa using hr⟩
  by_cases hq : q < h2.next
  · have := F.2.2 q c (by simp only [not_le]; exact hq) hc
    simpa using this
  · rw [Heap.read_ge h2 q (by omega)] at hc
    simp at hc

theorem valid_write (h : Heap) (hv : Valid h) (p : Nat) (n : Node)
    (hn : ∀ c ∈ n.childNodes, c < h.next) : Valid (h.write p n) := by
  intro q c hc
  rw [Heap.next_write]
  rcases Heap.read_write_children h p q n c hc with hc | hc
  · exact hn c hc
  · exact hv q c hc

theorem valid_alloc (h : Heap) (hv : Valid h) (n : Node)
    (hn : ∀ c ∈ n.childNodes, c < h.next) : Valid (h.alloc n) := by
  intro q c hc
  rw [Heap.next_alloc]
  rcases Heap.read_alloc_children h q n c hc with hc | hc
  · exact Nat.lt_succ_of_lt (hn c hc)
  · exact Nat.lt_succ_of_lt (hv q c hc)

/-- What `deepCopy` and its loop keep: the objects that were there before the copy began
(in `h0`) are as they were, the objects made since point to objects made since, and there
are no dangling pointers. -/
theorem deepCopyLoop_frame (h0 : Heap)
    (copy : Heap → Nat → Option (Heap × Nat))
    (hcopy : ∀ (h : Heap) (p : Nat) (h1 : Heap) (p1 : Nat),
      Frame (fun q => q < h0.next) h0 h →
      Valid h → copy h p = some (h1, p1) →
      Frame (fun q => q < h0.next) h0 h1 ∧ Valid h1 ∧ h0.next ≤ p1 ∧ p1 < h1.next ∧
        h.next ≤ h1.next)
    (node : Nat) (hnode : h0.next ≤ node) :
    ∀ (rest : List Nat) (h h2 : Heap), Frame (fun q => q < h0.next) h0 h → Valid h →
      deepCopyLoop copy node rest h = some h2 →
      Frame (fun q => q < h0.next) h0 h2 ∧ Valid h2 ∧ h.next ≤ h2.next := by
  intro rest
  induction rest with
  | nil =>
    intro h h2 F hv hl
    simp only [deepCopyLoop, Option.some.injEq] at hl
    subst hl
    exact ⟨F, hv, le_refl _⟩
  | cons c rest ih =>
    intro h h2 F hv hl
    simp only [deepCopyLoop] at hl
    split at hl
    · simp at hl
    · rename_i h1 p1 hc
      obtain ⟨F1, hv1, hp1, hp1lt, hle1⟩ := hcopy h c h1 p1 F hv hc
      have hout : ¬ node < h0.next := not_lt.2 hnode
      have hmem : ∀ x ∈ (emplace h1 (h1.read node).childNodes p1).all,
          ¬ x < h0.next ∧ x < h1.next := by
        intro x hx
        rcases emplace_all _ _ _ x hx with rfl | hx
        · exact ⟨not_lt.2 hp1, hp1lt⟩
        · exact ⟨Frame.children _ h0 h1 F1 node hout x hx, hv1 node x hx⟩
      have F2 := frame_write _ h0 h1 F1 node
        ⟨(h1.read node).s, (h1.read node).terminalWord, (h1.read node).terminalCount,
          (emplace h1 (h1.read node).childNodes p1).all⟩ hout (fun x hx => (hmem x hx).1)
      have hv2 := valid_write h1 hv1 node
        ⟨(h1.read node).s, (h1.read node).terminalWord, (h1.read node).terminalCount,
          (emplace h1 (h1.read node).childNodes p1).all⟩ (fun x hx => (hmem x hx).2)
      obtain ⟨F3, hv3, hle3⟩ := ih _ h2 F2 hv2 hl
      rw [Heap.next_write] at hle3
      exact ⟨F3, hv3, le_trans hle1 hle3⟩

theorem deepCopy_frame (h0 : Heap) (fuel : Nat) :
    ∀ (h : Heap) (p : Nat) (h1 : Heap) (p1 : Nat), Frame (fun q => q < h0.next) h0 h →
      Valid h → deepCopy fuel h p = some (h1, p1) →
      Frame (fun q => q < h0.next) h0 h1 ∧ Valid h1 ∧ h0.next ≤ p1 ∧ p1 < h1.next ∧
        h.next ≤ h1.next := by
  induction fuel with
  | zero => intro h p h1 p1 _ _ hd; simp [deepCopy] at hd
  | succ fuel ih =>
    intro h p h1 p1 F hv hd
    rw [deepCopy] at hd
    split at hd
    · simp at hd
    · rename_i h2 hl
      simp only [Option.some.injEq, Prod.mk.injEq] at hd
      obtain ⟨rfl, rfl⟩ := hd
      have F1 := frame_alloc _ h0 h F ⟨(h.read p).s, (h.read p).terminalWord,
          (h.read p).terminalCount, []⟩ (not_lt.2 F.1) (by simp)
      have hv1 := valid_alloc h hv ⟨(h.read p).s, (h.read p).terminalWord,
          (h.read p).terminalCount, []⟩ (by simp)
      obtain ⟨F2, hv2, hle2⟩ := deepCopyLoop_frame h0 (deepCopy fuel) ih h.next F.1 _ _
        h2 F1 hv1 hl
      rw [Heap.next_alloc] at hle2
      exact ⟨F2, hv2, F.1, by omega, by omega⟩

theorem scanChildren_congr (h h2 : Heap) (sv : List Char) :
    ∀ (cs seen : List Nat), (∀ c ∈ cs, h2.read c = h.read c) →
      scanChildren h2 sv seen cs = scanChildren h sv seen cs := by
  intro cs
  induction cs with
  | nil => intro seen _; simp [scanChildren]
  | cons c rest ih =>
    intro seen hc
    simp only [scanChildren, hc c (List.mem_cons_self _ _)]
    rw [ih _ (fun x hx => hc x (List.mem_cons_of_mem _ hx))]

theorem fbp_congr (h h2 : Heap) (node : Nat) (sv : List Char)
    (hnode : h2.read node = h.read node)
    (hk : ∀ c ∈ (h.read node).childNodes, h2.read c = h.read c) :
    findByDeterminingPrefix h2 node sv = findByDeterminingPrefix h node sv := by
  unfold findByDeterminingPrefix
  rw [hnode, scanChildren_congr h h2 sv _ [] hk]

/-- The private `search` reads the objects below its start node only. -/
theorem search_congr (R : Nat → Prop) (h h2 : Heap) (hin : Inside R h)
    (hag : ∀ q, R q → h2.read q = h.read q) (fuel : Nat) :
    ∀ (node : Nat) (w : List Char), R node →
      search fuel h2 node w = search fuel h node w := by
  induction fuel with
  | zero => intro node w _; simp [search]
  | succ fuel ih =>
    intro node w h1
    have hnode := hag node h1
    have hk : ∀ c ∈ (h.read node).childNodes, h2.read c = h.read c := fun c hc =>
      hag c (hin node c h1 hc)
    rw [search, search, hnode, fbp_congr h h2 node w hnode hk]
    split
    · rfl
    · split
      · rename_i it e hf
        have hcur : it.cur ∈ (h.read node).childNodes := by
          rw [← fbp_all h node w it e hf]
          exact Iter.cur_mem it
        rw [hk it.cur hcur, ih it.cur _ (hin node _ h1 hcur)]
      · rfl

/-- The private `endsWith` reads the objects below its start node only. -/
theorem endsWith_congr (R : Nat → Prop) (h h2 : Heap) (hin : Inside R h)
    (hag : ∀ q, R q → h2.read q = h.read q) (fuel : Nat) :
    ∀ (node : Nat) (w : List Char), R node →
      endsWith fuel h2 node w = endsWith fuel h node w := by
  induction fuel with
  | zero => intro node w _; simp [endsWith]
  | succ fuel ih =>
    intro node w h1
    have hnode := hag node h1
    have hk : ∀ c ∈ (h.read node).childNodes, h2.read c = h.read c := fun c hc =>
      hag c (hin node c h1 hc)
    rw [endsWith, endsWith, hnode, fbp_congr h h2 node w hnode hk]
    split
    · rfl
    · split
      · rename_i it e hf
        have hcur : it.cur ∈ (h.read node).childNodes := by
          rw [← fbp_all h node w it e hf]
          exact Iter.cur_mem it
        rw [hk it.cur hcur, ih it.cur _ (hin node _ h1 hcur)]
      · rfl

/-- A call on another object, whose root lies outside of the region `R` that holds the
tree of the object at `i`, changes no result of a query on the object at `i`. -/
theorem World.call_frame (R : Nat → Prop) (w w2 : World) (i j : Nat) (hij : j ≠ i)
    (hb : ∀ q, R q → q < w.heap.next) (hs : Sep R w.heap) (hin : Inside R w.heap)
    (hi : R (w.obj i)._root) (hj : ¬ R (w.obj j)._root)
    (op : Op) (hc : w.call j op = some w2) :
    w2.size i = w.size i ∧ w2.wordCount i = w.wordCount i ∧
      ∀ s, w2.search i s = w.search i s ∧ w2.endsWith i s = w.endsWith i s := by
  unfold World.call at hc
  split at hc
  · simp at hc
  · rename_i h2 t2 ho
    simp only [Option.some.injEq] at hc
    subst hc
    obtain ⟨F, -⟩ := Op.apply_frame R w.heap hs (w.obj j) hj op h2 t2 ho
      (fun n hn1 _ hn => absurd (hb n hn) (by omega))
    have hobj : (World.mk h2 (w.objs.set j t2)).obj i = w.obj i := by
      simp [World.obj, List.getD_eq_getElem?_getD, List.getElem?_set_ne hij]
    refine ⟨by rw [World.size, World.size, hobj], by rw [World.wordCount, World.wordCount, hobj],
      fun s => ⟨?_, ?_⟩⟩
    · rw [World.search, World.search, hobj]
      exact search_congr R w.heap h2 hin F.2.1 _ _ _ hi
    · rw [World.endsWith, World.endsWith, hobj]
      exact endsWith_congr R w.heap h2 hin F.2.1 _ _ _ hi

theorem World.obj_append_lt (h h1 : Heap) (objs : List CompressedSuffixTree)
    (x : CompressedSuffixTree) (i : Nat) (hi : i < objs.length) :
    (World.mk h1 (objs ++ [x])).obj i = (World.mk h objs).obj i := by
  simp [World.obj, List.getD_eq_getElem?_getD, List.getElem?_append_left hi]

theorem World.obj_append_length (h1 : Heap) (objs : List CompressedSuffixTree)
    (x : CompressedSuffixTree) : (World.mk h1 (objs ++ [x])).obj objs.length = x := by
  simp [World.obj, List.getD_eq_getElem?_getD]

theorem World.obj_set_ne (h h1 : Heap) (objs : List CompressedSuffixTree)
    (x : CompressedSuffixTree) (i j : Nat) (hij : j ≠ i) :
    (World.mk h1 (objs.set j x)).obj i = (World.mk h objs).obj i := by
  simp [World.obj, List.getD_eq_getElem?_getD, List.getElem?_set_ne hij]

theorem World.obj_set_eq (h1 : Heap) (objs : List CompressedSuffixTree)
    (x : CompressedSuffixTree) (j : Nat) (hj : j < objs.length) :
    (World.mk h1 (objs.set j x)).obj j = x := by
  simp [World.obj, List.getD_eq_getElem?_getD, hj]

/-- What a copy leaves: another object than the source, the source object as it was,
and a root for the copy that `deepCopy` made from the root of the source. -/
theorem World.copy_made (w0 w1 : World) (t c : Nat) (ht : t < w0.objs.length)
    (hcopy : w0.copyConstruct t = some (w1, c) ∨
      (c < w0.objs.length ∧ c ≠ t ∧ w0.copyAssign c t = some w1)) :
    c ≠ t ∧ t < w1.objs.length ∧ c < w1.objs.length ∧ w1.obj t = w0.obj t ∧
      deepCopy (w0.heap.next + 1) w0.heap (w0.obj t)._root
        = some (w1.heap, (w1.obj c)._root) := by
  rcases hcopy with hc | ⟨hclt, hct, hc⟩
  · unfold World.copyConstruct CompressedSuffixTree.copyConstruct at hc
    split at hc
    · simp at hc
    · rename_i h1 x hx
      simp only [Option.some.injEq, Prod.mk.injEq] at hc
      obtain ⟨rfl, rfl⟩ := hc
      split at hx
      · simp at hx
      · rename_i h2 root hd
        simp only [Option.some.injEq, Prod.mk.injEq] at hx
        obtain ⟨rfl, rfl⟩ := hx
        refine ⟨by omega, by simp; omega, by simp,
          World.obj_append_lt w0.heap _ _ _ t ht, ?_⟩
        rw [World.obj_append_length]
        exact hd
  · unfold World.copyAssign CompressedSuffixTree.copyAssign at hc
    rw [if_neg hct] at hc
    split at hc
    · simp at hc
    · rename_i h1 x hx
      simp only [Option.some.injEq] at hc
      subst hc
      split at hx
      · simp at hx
      · rename_i h2 root hd
        simp only [Option.some.injEq, Prod.mk.injEq] at hx
        obtain ⟨rfl, rfl⟩ := hx
        refine ⟨hct, by simpa using ht, by simpa using hclt,
          World.obj_set_ne w0.heap _ _ _ t c hct, ?_⟩
        rw [World.obj_set_eq _ _ _ c hclt]
        exact hd

/-- After a copy of the object at `t` into the object at `c`, made on a memory without
dangling pointers, the two objects are apart: the tree of the source lies in the region
of the addresses allocated before the copy, the tree of the copy outside of it. -/
theorem World.copy_apart (w0 w1 : World) (t c : Nat) (hv : Valid w0.heap)
    (ht : t < w0.objs.length) (hroot : (w0.obj t)._root < w0.heap.next)
    (hcopy : w0.copyConstruct t = some (w1, c) ∨
      (c < w0.objs.length ∧ c ≠ t ∧ w0.copyAssign c t = some w1)) :
    w1.Apart (fun q => q < w0.heap.next) t c := by
  obtain ⟨hct, ht1, hc1, hobj, hd⟩ := World.copy_made w0 w1 t c ht hcopy
  have hs0 : Sep (fun q => q < w0.heap.next) w0.heap := by
    intro q x hq hx
    rw [Heap.read_ge w0.heap q (by simpa using hq)] at hx
    simp at hx
  obtain ⟨F, hv1, hr1, hr2, hle⟩ :=
    deepCopy_frame w0.heap _ w0.heap _ w1.heap _ (frame_refl _ w0.heap hs0) hv hd
  refine ⟨hv1, fun q hq => lt_of_lt_of_le hq hle, ?_, F.2.2, ?_, not_lt.2 hr1, hr2,
    Ne.symm hct, ht1, hc1⟩
  · intro q x hq hx
    rw [F.2.1 q hq] at hx
    exact hv q x hx
  · show (w1.obj t)._root < w0.heap.next
    rw [hobj]
    exact hroot

/-- A call on the object at `j` keeps the two objects apart, with the same region on the
side of the object at `i`, and changes no result of a query on the object at `i`. -/
theorem World.call_other (R : Nat → Prop) (w w2 : World) (i j : Nat) (h : w.Apart R i j)
    (op : Op) (hc : w.call j op = some w2) :
    w2.Apart R i j ∧ (w2.size i = w.size i ∧ w2.wordCount i = w.wordCount i ∧
      ∀ s, w2.search i s = w.search i s ∧ w2.endsWith i s = w.endsWith i s) := by
  obtain ⟨hv, hb, hin, hs, hi, hj, hjlt, hij, hil, hjl⟩ := h
  refine ⟨?_, World.call_frame R w w2 i j (Ne.symm hij) hb hs hin hi hj op hc⟩
  unfold World.call at hc
  split at hc
  · simp at hc
  · rename_i h2 t2 ho
    simp only [Option.some.injEq] at hc
    subst hc
    obtain ⟨F, hr⟩ := Op.apply_frame R w.heap hs (w.obj j) hj op h2 t2 ho
      (fun n hn1 _ hn => absurd (hb n hn) (by omega))
    obtain ⟨hv2, hr2⟩ := Op.apply_valid w.heap hv (w.obj j) hjlt op h2 t2 ho
    have hobji : (World.mk h2 (w.objs.set j t2)).obj i = w.obj i :=
      World.obj_set_ne w.heap _ _ _ i j (Ne.symm hij)
    have hobjj : (World.mk h2 (w.objs.set j t2)).obj j = t2 :=
      World.obj_set_eq _ _ _ j hjl
    refine ⟨hv2, fun q hq => lt_of_lt_of_le (hb q hq) F.1, ?_, F.2.2, ?_, ?_, ?_, hij,
      by simpa using hil, by simpa using hjl⟩
    · intro q x hq hx
      simp only at hx
      rw [F.2.1 q hq] at hx
      exact hin q x hq hx
    · rw [hobji]; exact hi
    · rw [hobjj]; exact hr
    · rw [hobjj]; exact hr2

/-- A call on the object at `i` keeps the two objects apart, with the addresses allocated
during the call added to the region on the side of the object at `i`, and changes no
result of a query on the object at `j`. -/
theorem World.call_self (R : Nat → Prop) (w w2 : World) (i j : Nat) (h : w.Apart R i j)
    (op : Op) (hc : w.call i op = some w2) :
    w2.Apart (fun q => R q ∨ (w.heap.next ≤ q ∧ q < w2.heap.next)) i j ∧
      (w2.size j = w.size j ∧ w2.wordCount j = w.wordCount j ∧
        ∀ s, w2.search j s = w.search j s ∧ w2.endsWith j s = w.endsWith j s) := by
  obtain ⟨hv, hb, hin, hs, hi, hj, hjlt, hij, hil, hjl⟩ := h
  have hsC : Sep (fun q => ¬ R q ∧ q < w.heap.next) w.heap := by
    intro q x hq hx hxC
    by_cases hR : R q
    · exact hxC.1 (hin q x hR hx)
    · have hge : w.heap.next ≤ q := by
        by_contra hlt
        exact hq ⟨hR, by omega⟩
      rw [Heap.read_ge w.heap q hge] at hx
      simp at hx
  have hinC : Inside (fun q => ¬ R q ∧ q < w.heap.next) w.heap :=
    fun q x hq hx => ⟨hs q x hq.1 hx, hv q x hx⟩
  refine ⟨?_, World.call_frame _ w w2 j i hij (fun q hq => hq.2) hsC hinC ⟨hj, hjlt⟩
    (fun hC => hC.1 hi) op hc⟩
  unfold World.call at hc
  split at hc
  · simp at hc
  · rename_i h2 t2 ho
    simp only [Option.some.injEq] at hc
    subst hc
    obtain ⟨F, hr⟩ := Op.apply_frame _ w.heap hsC (w.obj i) (fun hC => hC.1 hi) op h2 t2 ho
      (fun n hn1 _ hn => by omega)
    obtain ⟨hv2, hr2⟩ := Op.apply_valid w.heap hv (w.obj i) (hb _ hi) op h2 t2 ho
    have hle := F.1
    have hobjj : (World.mk h2 (w.objs.set i t2)).obj j = w.obj j :=
      World.obj_set_ne w.heap _ _ _ j i hij
    have hobji : (World.mk h2 (w.objs.set i t2)).obj i = t2 :=
      World.obj_set_eq _ _ _ i hil
    have hside : ∀ x, x < h2.next → ¬ (¬ R x ∧ x < w.heap.next) →
        R x ∨ (w.heap.next ≤ x ∧ x < h2.next) := by
      intro x hx hC
      by_cases hR : R x
      · exact Or.inl hR
      · exact Or.inr ⟨by by_contra hlt; exact hC ⟨hR, by omega⟩, hx⟩
    refine ⟨hv2, ?_, ?_, ?_, ?_, ?_, ?_, hij, by simpa using hil, by simpa using hjl⟩
    · rintro q (hq | hq)
      · exact lt_of_lt_of_le (hb q hq) hle
      · exact hq.2
    · intro q x hq hx
      simp only at hx
      refine hside x (hv2 q x hx) (F.2.2 q x ?_ hx)
      rintro ⟨hnR, hlt⟩
      rcases hq with hq | hq
      · exact hnR hq
      · omega
    · intro q x hq hx hx2
      simp only at hx
      have hnR : ¬ R q := fun hR => hq (Or.inl hR)
      by_cases hlt : q < w.heap.next
      · rw [F.2.1 q ⟨hnR, hlt⟩] at hx
        have h1 := hs q x hnR hx
        have h2 := hv q x hx
        rcases hx2 with hx2 | hx2
        · exact h1 hx2
        · omega
      · by_cases hlt2 : q < h2.next
        · exact hq (Or.inr ⟨by omega, hlt2⟩)
        · rw [Heap.read_ge h2 q (by omega)] at hx
          simp at hx
    · rw [hobji]
      exact hside _ hr2 hr
    · rw [hobjj]
      rintro (hR | hR)
      · exact hj hR
      · omega
    · rw [hobjj]
      exact lt_of_lt_of_le hjlt hle

/-- Calls on two objects that are apart, in any number and order, leave them apart. -/
theorem World.run_apart (i j : Nat) :
    ∀ (calls : List (Nat × Op)) (R : Nat → Prop) (w w2 : World), w.Apart R i j →
      (∀ x ∈ calls, x.1 = i ∨ x.1 = j) → w.run calls = some w2 →
      ∃ R2, w2.Apart R2 i j := by
  intro calls
  induction calls with
  | nil =>
    intro R w w2 h _ hrun
    simp only [World.run, Option.some.injEq] at hrun
    subst hrun
    exact ⟨R, h⟩
  | cons x rest ih =>
    intro R w w2 h hx hrun
    obtain ⟨k, op⟩ := x
    simp only [World.run] at hrun
    split at hrun
    · simp at hrun
    · rename_i w1 hc
      have hrest : ∀ y ∈ rest, y.1 = i ∨ y.1 = j :=
        fun y hy => hx y (List.mem_cons_of_mem _ hy)
      rcases hx (k, op) (List.mem_cons_self _ _) with hk | hk
      · simp only at hk
        subst hk
        exact ih _ w1 w2 (World.call_self R w w1 k j h op hc).1 hrest hrun
      · simp only at hk
        subst hk
        exact ih _ w1 w2 (World.call_other R w w1 i k h op hc).1 hrest hrun

/-- Claim C18: on a memory without dangling pointers, let the index object at `c` be a
copy of the one at `t`, made by the copy constructor or by copy assignment to another
object. Then, after any sequence of calls of `insert`, `erase` and `clear` on the two
objects, in any order, a further call of `insert`, `erase` or `clear` on one of the two
that returns leaves `size()`, `wordCount()`, `search(s)` and `endsWith(s)` of the other
one unchanged, for every `s`. -/
theorem copy_independence (w0 w1 : World) (t c : Nat) (hv : Valid w0.heap)
    (ht : t < w0.objs.length) (hroot : (w0.obj t)._root < w0.heap.next)
    (hcopy : w0.copyConstruct t = some (w1, c) ∨
      (c < w0.objs.length ∧ c ≠ t ∧ w0.copyAssign c t = some w1))
    (calls : List (Nat × Op)) (hcalls : ∀ x ∈ calls, x.1 = t ∨ x.1 = c)
    (w2 : World) (hrun : w1.run calls = some w2)
    (i j : Nat) (hij : (j = c ∧ i = t) ∨ (j = t ∧ i = c))
    (op : Op) (w3 : World) (hcall : w2.call j op = some w3) :
    w3.size i = w2.size i ∧ w3.wordCount i = w2.wordCount i ∧
      ∀ s, w3.search i s = w2.search i s ∧ w3.endsWith i s = w2.endsWith i s := by
  have h1 := World.copy_apart w0 w1 t c hv ht hroot hcopy
  obtain ⟨R2, h2⟩ := World.run_apart t c calls _ w1 w2 h1 hcalls hrun
  rcases hij with ⟨rfl, rfl⟩ | ⟨rfl, rfl⟩
  · exact (World.call_other R2 w2 w3 i j h2 op hcall).2
  · exact (World.call_self R2 w2 w3 j i h2 op hcall).2

theorem worldCAB_reached :
    ((worldNew.call 0 (.insert ['a'])).bind (fun w => w.call 0 (.insert ['a', 'b']))).bind
      (fun w => w.call 0 (.insert ['c', 'a', 'b'])) = some worldCAB := by
  decide

theorem valid_worldCAB : Valid worldCAB.heap := by
  intro q c hc
  have hq : q < 5 ∨ 5 ≤ q := Nat.lt_or_ge q 5
  rcases hq with hq | hq
  · interval_cases q <;> simp [worldCAB, Heap.read] at hc <;>
      (rcases hc with rfl | rfl | rfl <;> decide)
  · rw [Heap.read_ge worldCAB.heap q hq] at hc
    simp at hc

theorem copy_independence_witness :
    Valid worldCAB.heap ∧ 0 < worldCAB.objs.length ∧
    (worldCAB.obj 0)._root < worldCAB.heap.next ∧
    worldCAB.copyConstruct 0 = some (worldCopied, 1) ∧
    (∀ x ∈ [(0, Op.insert ['x']), (1, Op.erase ['a']), (0, Op.clear)], x.1 = 0 ∨ x.1 = 1) ∧
    worldCopied.run [(0, .insert ['x']), (1, .erase ['a']), (0, .clear)] = some worldLater ∧
    worldLater.call 1 (.insert ['a', 'b', 'c']) = some worldLast ∧
    (worldLast.size 0 = worldLater.size 0 ∧
      worldLast.wordCount 0 = worldLater.wordCount 0 ∧
      ∀ s, worldLast.search 0 s = worldLater.search 0 s ∧
        worldLast.endsWith 0 s = worldLater.endsWith 0 s) :=
  ⟨valid_worldCAB, by decide, by decide, by decide, by simp, by decide, by decide,
    copy_independence worldCAB worldCopied 0 1 valid_worldCAB (by decide) (by decide)
      (Or.inl (by decide)) [(0, .insert ['x']), (1, .erase ['a']), (0, .clear)] (by simp)
      worldLater (by decide) 0 1 (Or.inl ⟨rfl, rfl⟩) (.insert ['a', 'b', 'c']) worldLast
      (by decide)⟩

end Ptr

end container
